import Mathlib

/-!
Pool allocator (`memory_manager.c`): embedding and verification.

The allocator keeps four globals: `blockArray` (a heap array of pointers to
`Block` records), `blockCapacity` (number of slots of that array),
`blockCount` (number of slots in use) and `memoryPool` (the arena).

Modelling decisions.

* The globals become the fields of `MemState`; every operation takes the state
  and returns the new one.
* `blockArray` is the list of its `blockCapacity` slots.  A slot holds the
  record its pointer refers to.  Slots at indices `≥ blockCount` are dead
  storage (uninitialised or stale pointers); the code never reads them.
  The *block table* of the specification is the live prefix, `table`.
* An array access outside the slots, and a dereference of the `NULL` that the
  lookup loops of `mem_free` / `mem_resize` leave in `current` when no block
  matches, are undefined behaviour in C: the operations return `none` there.
* `size_t` is taken to be 64 bits wide.  Sums of offsets and sizes are reduced
  modulo `2^64` (`szAdd`).  Slot indices and counts are not reduced: the table
  never has more entries than fit in memory.
* A handle is the offset `ptr - memoryPool`; a returned `NULL` is `none`.
* The unchecked `malloc` / `realloc` calls are taken to succeed (their failure
  is a null dereference in the source).  The one checked `malloc`, in
  `mem_resize`, takes its outcome as the argument `mallocOk`.
* The arena bytes handed out by `malloc` in `mem_init` are indeterminate; they
  are the argument `arena`.
-/

namespace MemoryManager

/-- One `Block` record: a sub-range of the pool and its free flag. -/
structure Block where
  offset : Nat
  size : Nat
  free : Bool
deriving DecidableEq, Repr, Inhabited

/-- The allocator globals. -/
structure MemState where
  blockArray : List Block
  blockCapacity : Nat
  blockCount : Nat
  memoryPool : List UInt8
deriving DecidableEq, Repr

/-- Number of values of `size_t`. -/
def SIZE_MOD : Nat := 2 ^ 64

/-- Addition of two `size_t` values. -/
def szAdd (a b : Nat) : Nat := (a + b) % SIZE_MOD

/-- Read of `blockArray[i]`; `none` outside the slots. -/
def readAt (a : List Block) (i : Nat) : Option Block := a[i]?

/-- Write of `blockArray[i]` (or through the pointer stored there); `none` outside the slots. -/
def writeAt (a : List Block) (i : Nat) (b : Block) : Option (List Block) :=
  if i < a.length then some (a.set i b) else none

/-- Result of `realloc(blockArray, n * sizeof(Block*))`: the old slots followed by fresh ones. -/
def reallocSlots (a : List Block) (n : Nat) : List Block :=
  a.take n ++ List.replicate (n - a.length) default

/-- The live prefix of the slot array: the block table. -/
def table (s : MemState) : List Block := s.blockArray.take s.blockCount

/-- The loop `for (j = start; j > lo; --j) blockArray[j] = blockArray[j - 1];`
with `start` the last argument. -/
def shiftRight (a : List Block) (lo : Nat) : Nat → Option (List Block)
  | 0 => some a
  | j + 1 =>
    if j + 1 > lo then
      match readAt a j with
      | none => none
      | some b =>
        match writeAt a (j + 1) b with
        | none => none
        | some a1 => shiftRight a1 lo j
    else some a

/-- The loop `for (; j < blockCount - 1; ++j) blockArray[j] = blockArray[j + 1];`
run for its `n = blockCount - 1 - j` iterations. -/
def shiftLeft (a : List Block) : Nat → Nat → Option (List Block)
  | _, 0 => some a
  | j, n + 1 =>
    match readAt a (j + 1) with
    | none => none
    | some b =>
      match writeAt a j b with
      | none => none
      | some a1 => shiftLeft a1 (j + 1) n

/-- The lookup loop of `mem_free` and `mem_resize`, from index `i` with `n`
iterations left: the first index whose block starts at `offset`, or `some none`
when the loop ends with `current == NULL`. -/
def findBlock (a : List Block) (offset : Nat) : Nat → Nat → Option (Option Nat)
  | _, 0 => some none
  | i, n + 1 =>
    match readAt a i with
    | none => none
    | some b => if b.offset = offset then some (some i) else findBlock a offset (i + 1) n

/-- State after `mem_init(size)`; `arena` is the content of the fresh pool. -/
def mem_init (size : Nat) (arena : List UInt8) : MemState :=
  { blockArray := [{ offset := 0, size := size, free := true }]
    blockCapacity := 1
    blockCount := 1
    memoryPool := arena }

/-- The growth step shared by both insertions: double the slot array when it is full. -/
def growIfFull (a : List Block) (blockCapacity blockCount : Nat) : List Block × Nat :=
  if blockCount ≥ blockCapacity then (reallocSlots a (blockCapacity * 2), blockCapacity * 2)
  else (a, blockCapacity)

/-- Body of the `if` of `mem_alloc` (lines 42-69) for the block `current` found at slot `i`. -/
def allocAt (s : MemState) (i : Nat) (current : Block) (size : Nat) :
    Option (MemState × Option Nat) :=
  let remainingSize := current.size - size
  if remainingSize > 0 then
    let newBlock : Block := { offset := szAdd current.offset size, size := remainingSize, free := true }
    match writeAt s.blockArray i { current with free := false, size := size } with
    | none => none
    | some a1 =>
      let g := growIfFull a1 s.blockCapacity s.blockCount
      match shiftRight g.1 (i + 1) s.blockCount with
      | none => none
      | some a2 =>
        match writeAt a2 (i + 1) newBlock with
        | none => none
        | some a3 =>
          some ({ s with blockArray := a3, blockCapacity := g.2, blockCount := s.blockCount + 1 },
                some current.offset)
  else
    match writeAt s.blockArray i { current with free := false } with
    | none => none
    | some a1 => some ({ s with blockArray := a1 }, some current.offset)

/-- The search loop of `mem_alloc` from index `i` with `n` iterations left. -/
def allocLoop (s : MemState) (size : Nat) : Nat → Nat → Option (MemState × Option Nat)
  | _, 0 => some (s, none)
  | i, n + 1 =>
    match readAt s.blockArray i with
    | none => none
    | some current =>
      if current.free && decide (current.size ≥ size) then allocAt s i current size
      else allocLoop s size (i + 1) n

/-- The function `mem_alloc(size)`: new state and returned handle (`none` = `NULL`). -/
def mem_alloc (s : MemState) (size : Nat) : Option (MemState × Option Nat) :=
  allocLoop s size 0 s.blockCount

/-- Removal of slot `p` from the table: the shift loop followed by `blockCount--`. -/
def removeSlot (a : List Block) (blockCount p : Nat) : Option (List Block × Nat) :=
  match shiftLeft a p (blockCount - 1 - p) with
  | none => none
  | some a1 => some (a1, blockCount - 1)

/-- Lines 95-105 of `mem_free`: merge with the next block if it is free. -/
def mergeNext (a : List Block) (blockCount index : Nat) : Option (List Block × Nat) :=
  if index + 1 < blockCount then
    match readAt a (index + 1) with
    | none => none
    | some next =>
      if next.free then
        match readAt a index with
        | none => none
        | some current =>
          match writeAt a index { current with size := szAdd current.size next.size } with
          | none => none
          | some a1 => removeSlot a1 blockCount (index + 1)
      else some (a, blockCount)
  else some (a, blockCount)

/-- Lines 107-117 of `mem_free`: merge into the previous block if it is free. -/
def mergePrev (a : List Block) (blockCount index : Nat) : Option (List Block × Nat) :=
  if index > 0 then
    match readAt a (index - 1) with
    | none => none
    | some prev =>
      if prev.free then
        match readAt a index with
        | none => none
        | some current =>
          match writeAt a (index - 1) { prev with size := szAdd prev.size current.size } with
          | none => none
          | some a1 => removeSlot a1 blockCount index
      else some (a, blockCount)
  else some (a, blockCount)

/-- The function `mem_free(ptr)` with `offset = ptr - memoryPool`. -/
def mem_free (s : MemState) (offset : Nat) : Option MemState :=
  match findBlock s.blockArray offset 0 s.blockCount with
  | none => none
  | some none => none
  | some (some index) =>
    match readAt s.blockArray index with
    | none => none
    | some current =>
      match writeAt s.blockArray index { current with free := true } with
      | none => none
      | some a1 =>
        match mergeNext a1 s.blockCount index with
        | none => none
        | some (a2, c2) =>
          match mergePrev a2 c2 index with
          | none => none
          | some (a3, c3) => some { s with blockArray := a3, blockCount := c3 }

/-- The call `memcpy(pool + dst, pool + src, n)` on the arena. -/
def memcpyPool (pool : List UInt8) (dst src n : Nat) : List UInt8 :=
  pool.take dst ++ ((pool.drop src).take n ++ pool.drop (dst + n))

/-- Lines 146-182 of `mem_resize`: grow `current` (slot `index`) over the free block `next`. -/
def growInPlace (s : MemState) (index : Nat) (current : Block) (total_size size : Nat)
    (mallocOk : Bool) : Option (MemState × Option Nat) :=
  match writeAt s.blockArray index { current with size := total_size } with
  | none => none
  | some a1 =>
    match removeSlot a1 s.blockCount (index + 1) with
    | none => none
    | some (a2, c2) =>
      if total_size > size then
        if !mallocOk then
          some ({ s with blockArray := a2, blockCount := c2 }, none)
        else
          let newBlock : Block :=
            { offset := szAdd current.offset size, size := total_size - size, free := true }
          match writeAt a2 index { current with size := size } with
          | none => none
          | some a3 =>
            let g := growIfFull a3 s.blockCapacity c2
            match shiftRight g.1 (index + 1) c2 with
            | none => none
            | some a4 =>
              match writeAt a4 (index + 1) newBlock with
              | none => none
              | some a5 =>
                some ({ s with blockArray := a5, blockCapacity := g.2, blockCount := c2 + 1 },
                      some current.offset)
      else some ({ s with blockArray := a2, blockCount := c2 }, some current.offset)

/-- Lines 186-192 of `mem_resize`: allocate afresh, copy `current->size` bytes, free the old
block.  `mem_alloc` only writes to a block of size `≥ size > current->size`, so the record
behind `current` still has the size read before the call. -/
def relocate (s : MemState) (offset : Nat) (current : Block) (size : Nat) :
    Option (MemState × Option Nat) :=
  match mem_alloc s size with
  | none => none
  | some (s1, none) => some (s1, none)
  | some (s1, some newPtr) =>
    match mem_free { s1 with memoryPool := memcpyPool s1.memoryPool newPtr offset current.size }
        offset with
    | none => none
    | some s2 => some (s2, some newPtr)

/-- The function `mem_resize(ptr, size)` with `offset = ptr - memoryPool`; `mallocOk` is
whether the `malloc` of line 159 returns non-`NULL`. -/
def mem_resize (s : MemState) (offset size : Nat) (mallocOk : Bool) :
    Option (MemState × Option Nat) :=
  match findBlock s.blockArray offset 0 s.blockCount with
  | none => none
  | some none => none
  | some (some index) =>
    match readAt s.blockArray index with
    | none => none
    | some current =>
      if current.size ≥ size then some (s, some offset)
      else if index + 1 < s.blockCount then
        match readAt s.blockArray (index + 1) with
        | none => none
        | some next =>
          if next.free then
            let total_size := szAdd current.size next.size
            if total_size ≥ size then growInPlace s index current total_size size mallocOk
            else relocate s offset current size
          else relocate s offset current size
      else relocate s offset current size

/-- State after `mem_deinit()`. -/
def mem_deinit (_s : MemState) : MemState :=
  { blockArray := [], blockCapacity := 0, blockCount := 0, memoryPool := [] }

/-- Representation invariant of the slot array: it has `blockCapacity` slots and the
live prefix fits in it. -/
def StorageOk (s : MemState) : Prop :=
  s.blockArray.length = s.blockCapacity ∧ s.blockCount ≤ s.blockCapacity

instance (s : MemState) : Decidable (StorageOk s) := by
  unfold StorageOk; infer_instance

/-- The test of line 41: the block is free and large enough. -/
def fits (size : Nat) (b : Block) : Bool := b.free && decide (b.size ≥ size)

/-- The call `mem_init(size)` made in state `_s`: all four globals are overwritten without
being read. -/
def mem_init_in (_s : MemState) (size : Nat) (arena : List UInt8) : MemState :=
  mem_init size arena

/-- The block `b` of state `s` is untouched in state `s1`: it is still an entry of the table,
with the same offset, size and free flag, and the pool bytes inside it are the same. -/
def Framed (s s1 : MemState) (b : Block) : Prop :=
  b ∈ table s1 ∧
    ∀ k, b.offset ≤ k → k < b.offset + b.size → s1.memoryPool[k]? = s.memoryPool[k]?

/-! ## Table-level descriptions

List functions describing what the slot-array code above does to the block table.  They are
not part of the embedding; `mem_free_spec`, `mem_alloc_found` and `growInPlace_spec` prove
that the code has these effects. -/

/-- Effect of lines 95-105 on the table split around the freed block: `cur` absorbs the
head of `B` when that block is free. -/
def mergeNextT (cur : Block) (B : List Block) : Block × List Block :=
  match B with
  | [] => (cur, [])
  | next :: B1 =>
    if next.free then ({ cur with size := szAdd cur.size next.size }, B1) else (cur, next :: B1)

/-- Effect of lines 107-117 on the table split around the freed block: the last block of
`A` absorbs `cur` when it is free. -/
def mergePrevT (A : List Block) (cur : Block) : List Block :=
  match A.getLast? with
  | none => A ++ [cur]
  | some prev =>
    if prev.free then A.dropLast ++ [{ prev with size := szAdd prev.size cur.size }]
    else A ++ [cur]

/-- Table after `mem_free` of the block `cur` standing between `A` and `B`. -/
def coalesceT (A : List Block) (cur : Block) (B : List Block) : List Block :=
  mergePrevT A (mergeNextT { cur with free := true } B).1 ++
    (mergeNextT { cur with free := true } B).2

/-- Blocks that lines 146-181 of `mem_resize` leave in place of `cur` and the absorbed
`next`, where `total` is their combined size. -/
def growT (cur : Block) (total size : Nat) (mallocOk : Bool) : List Block :=
  if total > size ∧ mallocOk = true then
    [{ cur with size := size }, { offset := szAdd cur.offset size, size := total - size, free := true }]
  else [{ cur with size := total }]

/-- Blocks that `mem_alloc(size)` leaves in place of the selected block `cur`. -/
def allocT (cur : Block) (size : Nat) : List Block :=
  if size < cur.size then
    [{ cur with free := false, size := size },
     { offset := szAdd cur.offset size, size := cur.size - size, free := true }]
  else [{ cur with free := false }]

/-- The table entry after index `i`, when it exists and is free. -/
def freeNext (t : List Block) (i : Nat) : Option Block :=
  match t[i + 1]? with
  | some b => if b.free then some b else none
  | none => none

/-- The table entry before index `i`, when it exists and is free. -/
def freePrev (t : List Block) (i : Nat) : Option Block :=
  if i = 0 then none
  else
    match t[i - 1]? with
    | some b => if b.free then some b else none
    | none => none

/-- Number of blocks in an optional neighbour: 1 or 0. -/
def optCount : Option Block → Nat
  | some _ => 1
  | none => 0

/-- Size contributed by an optional neighbour. -/
def optSize : Option Block → Nat
  | some b => b.size
  | none => 0

/-! ## Invariants of the block table -/

/-- `tilesFrom start t stop`: the blocks of `t`, in order, cover `[start, stop)` without gap
or overlap. -/
def tilesFrom : Nat → List Block → Nat → Prop
  | start, [], stop => start = stop
  | start, b :: bs, stop => b.offset = start ∧ tilesFrom (start + b.size) bs stop

instance decTilesFrom : ∀ (t : List Block) (a c : Nat), Decidable (tilesFrom a t c)
  | [], a, c => inferInstanceAs (Decidable (a = c))
  | b :: bs, a, c => @instDecidableAnd _ _ _ (decTilesFrom bs (a + b.size) c)

/-- The partition invariant as the specification words it: the first block starts at 0,
each block ends where the next one starts, and the last block ends at `N`. -/
def Partition (N : Nat) (t : List Block) : Prop :=
  (∃ b, t[0]? = some b ∧ b.offset = 0) ∧
  (∀ i b c, t[i]? = some b → t[i + 1]? = some c → b.offset + b.size = c.offset) ∧
  (∃ b, t.getLast? = some b ∧ b.offset + b.size = N)

/-- Two blocks that are not both free. -/
def notBothFree (b c : Block) : Prop := ¬ (b.free = true ∧ c.free = true)

instance : DecidableRel notBothFree := fun b c =>
  inferInstanceAs (Decidable (¬ (b.free = true ∧ c.free = true)))

/-- The no-adjacent-free invariant: no two consecutive table entries are both free. -/
def NoAdjFree (t : List Block) : Prop :=
  ∀ i b c, t[i]? = some b → t[i + 1]? = some c → ¬ (b.free = true ∧ c.free = true)

/-- The invariants that hold between calls for a pool of `N` bytes. -/
structure Inv (N : Nat) (s : MemState) : Prop where
  storage : StorageOk s
  tiles : tilesFrom 0 (table s) N
  pos : ∀ b ∈ table s, 0 < b.size
  noAdj : List.Chain' notBothFree (table s)
  bound : N < SIZE_MOD

/-! ## Sequences of calls -/

/-- One call of the public interface. -/
inductive Op where
  | alloc (size : Nat)
  | free (h : Nat)
  | resize (h : Nat) (size : Nat) (mallocOk : Bool)
deriving DecidableEq, Repr

/-- The handle `h` is the start of a block that is currently allocated. -/
def liveHandle (s : MemState) (h : Nat) : Prop :=
  ∃ b ∈ table s, b.offset = h ∧ b.free = false

instance (s : MemState) (h : Nat) : Decidable (liveHandle s h) :=
  inferInstanceAs (Decidable (∃ b ∈ table s, b.offset = h ∧ b.free = false))

/-- The contract of a call made in state `s`. -/
def inContract (s : MemState) : Op → Prop
  | .alloc size => 0 < size
  | .free h => liveHandle s h
  | .resize h size _ => liveHandle s h ∧ 0 < size

instance (s : MemState) : ∀ op, Decidable (inContract s op)
  | .alloc size => inferInstanceAs (Decidable (0 < size))
  | .free h => inferInstanceAs (Decidable (liveHandle s h))
  | .resize h size _ => inferInstanceAs (Decidable (liveHandle s h ∧ 0 < size))

/-- State after one call; the returned handle is dropped. -/
def step (s : MemState) : Op → Option MemState
  | .alloc size => (mem_alloc s size).map Prod.fst
  | .free h => mem_free s h
  | .resize h size mallocOk => (mem_resize s h size mallocOk).map Prod.fst

/-- State after a sequence of calls. -/
def run (s : MemState) : List Op → Option MemState
  | [] => some s
  | op :: ops =>
    match step s op with
    | none => none
    | some s1 => run s1 ops

/-- Every call of the sequence is made within its contract, in the state it is made in.
Nothing is asked of the calls that would follow an undefined one. -/
def allInContract (s : MemState) : List Op → Prop
  | [] => True
  | op :: ops => inContract s op ∧ ∀ s1, step s op = some s1 → allInContract s1 ops

instance decAllInContract : ∀ (ops : List Op) (s : MemState), Decidable (allInContract s ops)
  | [], _ => inferInstanceAs (Decidable True)
  | op :: ops, s =>
    @instDecidableAnd _ _ _
      (match step s op with
        | none => isTrue (fun s1 h1 => by cases h1)
        | some s2 =>
          @decidable_of_iff _ (allInContract s2 ops)
            ⟨fun h2 s1 h1 => by cases h1; exact h2, fun h2 => h2 s2 rfl⟩
            (decAllInContract ops s2))

/-! ## The whole lifecycle -/

/-- One call made after `mem_init`, teardown included. -/
inductive Call where
  | op (o : Op)
  | deinit
deriving DecidableEq, Repr

/-- State after one call of the lifecycle. -/
def stepCall (s : MemState) : Call → Option MemState
  | .op o => step s o
  | .deinit => some (mem_deinit s)

/-- State after a sequence of calls of the lifecycle. -/
def runCalls (s : MemState) : List Call → Option MemState
  | [] => some s
  | c :: cs =>
    match stepCall s c with
    | none => none
    | some s1 => runCalls s1 cs

/-- The handle passed to `mem_free` or `mem_resize` is the start of some block of the table,
allocated or not, so that the lookup loop finds a block.  Nothing is asked of `mem_alloc`
and `mem_deinit`. -/
def handleKnown (s : MemState) : Call → Prop
  | .op (.free h) => ∃ b ∈ table s, b.offset = h
  | .op (.resize h _ _) => ∃ b ∈ table s, b.offset = h
  | _ => True

instance (s : MemState) : ∀ c, Decidable (handleKnown s c)
  | .op (.free h) => inferInstanceAs (Decidable (∃ b ∈ table s, b.offset = h))
  | .op (.resize h _ _) => inferInstanceAs (Decidable (∃ b ∈ table s, b.offset = h))
  | .op (.alloc _) => inferInstanceAs (Decidable True)
  | .deinit => inferInstanceAs (Decidable True)

/-- Every `mem_free` / `mem_resize` of the sequence is given a handle its lookup finds, in the
state the call is made in. -/
def allHandlesKnown (s : MemState) : List Call → Prop
  | [] => True
  | c :: cs => handleKnown s c ∧ ∀ s1, stepCall s c = some s1 → allHandlesKnown s1 cs

instance decAllHandlesKnown :
    ∀ (cs : List Call) (s : MemState), Decidable (allHandlesKnown s cs)
  | [], _ => inferInstanceAs (Decidable True)
  | c :: cs, s =>
    @instDecidableAnd _ _ _
      (match stepCall s c with
        | none => isTrue (fun s1 h1 => by cases h1)
        | some s2 =>
          @decidable_of_iff _ (allHandlesKnown s2 cs)
            ⟨fun h2 s1 h1 => by cases h1; exact h2, fun h2 => h2 s2 rfl⟩
            (decAllHandlesKnown cs s2))

/-! ## The list client (`linked_list.c`)

The nodes live in the pool, at the addresses `mem_alloc` returns.  A pointer is its address,
a number, and `NULL` is 0.  The pool starts at the address `base` (the value `malloc` gave
`memoryPool`), so the pointer `mem_alloc` returns for the offset `o` is `base + o`, and
`mem_free(ptr)` releases the offset `ptr - base`.  A `Node` takes `NODE_SIZE = 16` bytes of
the pool: the `uint16_t` datum in bytes 0-1 and the pointer `next` in bytes 8-15, each with
its least significant byte first (the layout of the 64-bit target).  Access to a node through
a pointer that is `NULL` or does not point to 16 bytes of the pool is undefined (`none`).
The `head` argument (the address of the caller's variable) is taken to be non-`NULL`; the
value of that variable is the field `head`.  The traversal loops take the number of
iterations they may run as `fuel` and return `none` when it is used up. -/

/-- The value of `sizeof(Node)` on the 64-bit target. -/
def NODE_SIZE : Nat := 16

/-- The `k` low bytes of `v`, least significant first. -/
def leBytes : Nat → Nat → List UInt8
  | 0, _ => []
  | k + 1, v => UInt8.ofNat (v % 256) :: leBytes k (v / 256)

/-- The number a sequence of bytes stands for, least significant byte first. -/
def leValue : List UInt8 → Nat
  | [] => 0
  | b :: bs => b.toNat + 256 * leValue bs

/-- The `n` bytes of the pool from offset `off`. -/
def readBytes (pool : List UInt8) (off n : Nat) : List UInt8 := (pool.drop off).take n

/-- The pool with `bytes` stored from offset `off`. -/
def writeBytes (pool : List UInt8) (off : Nat) (bytes : List UInt8) : List UInt8 :=
  pool.take off ++ (bytes ++ pool.drop (off + bytes.length))

/-- Read of `node->data` for the node at offset `o`. -/
def readData (pool : List UInt8) (o : Nat) : Nat := leValue (readBytes pool o 2)

/-- Read of `node->next` for the node at offset `o`. -/
def readNext (pool : List UInt8) (o : Nat) : Nat := leValue (readBytes pool (o + 8) 8)

/-- The store `node->data = data` for the node at offset `o`; `data` is converted to
`uint16_t`. -/
def writeData (pool : List UInt8) (o data : Nat) : List UInt8 :=
  writeBytes pool o (leBytes 2 data)

/-- The store `node->next = ptr` for the node at offset `o`. -/
def writeNext (pool : List UInt8) (o ptr : Nat) : List UInt8 :=
  writeBytes pool (o + 8) (leBytes 8 ptr)

/-- The pool offset of the node the pointer `p` points to; `none` when `p` is `NULL` or does
not point to `NODE_SIZE` bytes of the pool. -/
def nodeOffset (base : Nat) (pool : List UInt8) (p : Nat) : Option Nat :=
  if p ≠ 0 ∧ base ≤ p ∧ p - base + NODE_SIZE ≤ pool.length then some (p - base) else none

/-- The pointer `mem_alloc` returns: `(char*)memoryPool + offset`, or `NULL`. -/
def allocPtr (base : Nat) : Option Nat → Nat
  | none => 0
  | some off => base + off

/-- State seen by the list functions: the allocator, the address of the pool and the
caller's `head` pointer. -/
structure ListState where
  mem : MemState
  base : Nat
  head : Nat
deriving DecidableEq, Repr

/-- State after `list_init(head, size)`, the pool being placed at `base`. -/
def list_init (size base : Nat) (arena : List UInt8) : ListState :=
  { mem := mem_init size arena, base := base, head := 0 }

/-- The loop `while (current->next) current = current->next;` of `list_insert`. -/
def lastNode (base : Nat) (pool : List UInt8) : Nat → Nat → Option Nat
  | 0, _ => none
  | fuel + 1, current =>
    match nodeOffset base pool current with
    | none => none
    | some o =>
      if readNext pool o ≠ 0 then lastNode base pool fuel (readNext pool o)
      else some current

/-- The function `list_insert(head, data)`. -/
def list_insert (fuel : Nat) (l : ListState) (data : Nat) : Option ListState :=
  match mem_alloc l.mem NODE_SIZE with
  | none => none
  | some (m1, r) =>
    if allocPtr l.base r = 0 then some { l with mem := m1 }
    else
      match nodeOffset l.base m1.memoryPool (allocPtr l.base r) with
      | none => none
      | some o =>
        if l.head = 0 then
          some { mem := { m1 with
                   memoryPool := writeNext (writeData m1.memoryPool o data) o 0 }
                 base := l.base
                 head := allocPtr l.base r }
        else
          match lastNode l.base (writeNext (writeData m1.memoryPool o data) o 0) fuel
              l.head with
          | none => none
          | some current =>
            match nodeOffset l.base (writeNext (writeData m1.memoryPool o data) o 0)
                current with
            | none => none
            | some oc =>
              some { mem := { m1 with
                       memoryPool :=
                         writeNext (writeNext (writeData m1.memoryPool o data) o 0) oc
                           (allocPtr l.base r) }
                     base := l.base
                     head := l.head }

/-- The loop `while (current && current->data != data)` of `list_delete`, returning the final
`(prev, current)`. -/
def findNode (base : Nat) (pool : List UInt8) (data : Nat) :
    Nat → Nat → Nat → Option (Nat × Nat)
  | 0, prev, current => if current = 0 then some (prev, current) else none
  | fuel + 1, prev, current =>
    if current = 0 then some (prev, current)
    else
      match nodeOffset base pool current with
      | none => none
      | some o =>
        if readData pool o ≠ data then findNode base pool data fuel current (readNext pool o)
        else some (prev, current)

/-- The call `mem_free(ptr)` made by the list: the offset released is `ptr - base`. -/
def freePtr (l : ListState) (ptr : Nat) : Option ListState :=
  if l.base ≤ ptr then
    match mem_free l.mem (ptr - l.base) with
    | none => none
    | some m1 => some { l with mem := m1 }
  else none

/-- The function `list_delete(head, data)`. -/
def list_delete (fuel : Nat) (l : ListState) (data : Nat) : Option ListState :=
  if l.head = 0 then some l
  else
    match findNode l.base l.mem.memoryPool data fuel 0 l.head with
    | none => none
    | some (prev, current) =>
      if current = 0 then some l
      else
        match nodeOffset l.base l.mem.memoryPool current with
        | none => none
        | some oc =>
          if prev = 0 then
            freePtr { l with head := readNext l.mem.memoryPool oc } current
          else
            match nodeOffset l.base l.mem.memoryPool prev with
            | none => none
            | some op =>
              freePtr
                { l with
                  mem := { l.mem with
                    memoryPool :=
                      writeNext l.mem.memoryPool op (readNext l.mem.memoryPool oc) } }
                current

/-- The loop of `list_search`. -/
def searchLoop (base : Nat) (pool : List UInt8) (data : Nat) : Nat → Nat → Option Nat
  | 0, current => if current = 0 then some 0 else none
  | fuel + 1, current =>
    if current = 0 then some 0
    else
      match nodeOffset base pool current with
      | none => none
      | some o =>
        if readData pool o = data then some current
        else searchLoop base pool data fuel (readNext pool o)

/-- The function `list_search(head, data)`: the pointer returned, 0 for `NULL`. -/
def list_search (fuel : Nat) (l : ListState) (data : Nat) : Option Nat :=
  searchLoop l.base l.mem.memoryPool data fuel l.head

/-- The loop of `list_display`, returning the numbers printed. -/
def displayLoop (base : Nat) (pool : List UInt8) : Nat → Nat → Option (List Nat)
  | 0, current => if current = 0 then some [] else none
  | fuel + 1, current =>
    if current = 0 then some []
    else
      match nodeOffset base pool current with
      | none => none
      | some o =>
        match displayLoop base pool fuel (readNext pool o) with
        | none => none
        | some ds => some (readData pool o :: ds)

/-- The function `list_display(head)`: the sequence of numbers printed between the brackets. -/
def list_display (fuel : Nat) (l : ListState) : Option (List Nat) :=
  displayLoop l.base l.mem.memoryPool fuel l.head

/-- Largest value of `int`. -/
def INT_MAX : Nat := 2 ^ 31 - 1

/-- The loop of `list_count_nodes`; `count++` beyond `INT_MAX` is undefined (`none`). -/
def countLoop (base : Nat) (pool : List UInt8) : Nat → Nat → Nat → Option Nat
  | 0, current, count => if current = 0 then some count else none
  | fuel + 1, current, count =>
    if current = 0 then some count
    else if count + 1 ≤ INT_MAX then
      match nodeOffset base pool current with
      | none => none
      | some o => countLoop base pool fuel (readNext pool o) (count + 1)
    else none

/-- The function `list_count_nodes(head)`: the value returned. -/
def list_count_nodes (fuel : Nat) (l : ListState) : Option Nat :=
  countLoop l.base l.mem.memoryPool fuel l.head 0

/-- State after `list_insert` of each datum of `ds` in turn. -/
def insertAll (fuel : Nat) (l : ListState) : List Nat → Option ListState
  | [] => some l
  | d :: ds =>
    match list_insert fuel l d with
    | none => none
    | some l1 => insertAll fuel l1 ds

/-- Every `list_insert` of the sequence obtains storage: its `mem_alloc` returns a handle. -/
def allObtained (fuel : Nat) (l : ListState) : List Nat → Prop
  | [] => True
  | d :: ds =>
    (∃ m p, mem_alloc l.mem NODE_SIZE = some (m, some p)) ∧
      ∀ l1, list_insert fuel l d = some l1 → allObtained fuel l1 ds

/-- The pointer `start` heads a chain of nodes in the pool that are, in order, the `cells`
(pool offset and datum), the last one with `next == NULL`. -/
def Linked (base : Nat) (pool : List UInt8) : Nat → List (Nat × Nat) → Prop
  | start, [] => start = 0
  | start, (h, d) :: cs =>
    start = base + h ∧ h + NODE_SIZE ≤ pool.length ∧ readData pool h = d ∧
      Linked base pool (readNext pool h) cs

/-- Two nodes at these offsets do not overlap. -/
def Sep (a b : Nat) : Prop := a + NODE_SIZE ≤ b ∨ b + NODE_SIZE ≤ a

/-- The node at offset `o` holds the same datum and the same `next` in both pools. -/
def SameNode (pool pool1 : List UInt8) (o : Nat) : Prop :=
  readData pool1 o = readData pool o ∧ readNext pool1 o = readNext pool o

/-- The pointer `prev` holds when the search loop of `list_delete` has walked over `pre`. -/
def lastPtr (base prev : Nat) (pre : List (Nat × Nat)) : Nat :=
  pre.foldl (fun _ c => base + c.1) prev

/-- The pool after the store `prev->next = current->next` of `list_delete`, for the node at
offset `h` preceded by the nodes `pre`; no store is made when the node is the first. -/
def unlinkedPool (pool : List UInt8) (pre : List (Nat × Nat)) (h : Nat) : List UInt8 :=
  match pre.getLast? with
  | none => pool
  | some c => writeNext pool c.1 (readNext pool h)

/-- The invariants of a list state whose nodes are, in order, `cells` (offset and datum):
the allocator invariants, a pool of `N` bytes inside the address space, the chain itself, and
each node in an allocated block of its own. -/
structure ListInv (N : Nat) (l : ListState) (cells : List (Nat × Nat)) : Prop where
  mem : Inv N l.mem
  len : l.mem.memoryPool.length = N
  basePos : 0 < l.base
  baseEnd : l.base + N ≤ SIZE_MOD
  linked : Linked l.base l.mem.memoryPool l.head cells
  sep : cells.Pairwise (fun c e => Sep c.1 e.1)
  live : ∀ c ∈ cells,
    ({ offset := c.1, size := NODE_SIZE, free := false } : Block) ∈ table l.mem
  small : ∀ c ∈ cells, c.2 < 65536

/-! ## The slot loops -/

theorem readAt_eq (a : List Block) (i : Nat) : readAt a i = a[i]? := rfl

theorem writeAt_of_lt {a : List Block} {i : Nat} (b : Block) (h : i < a.length) :
    writeAt a i b = some (a.set i b) := by
  simp [writeAt, h]

theorem shiftRight_spec (lo : Nat) : ∀ (j : Nat) (a : List Block), j < a.length →
    ∃ r, shiftRight a lo j = some r ∧ r.length = a.length ∧
      ∀ k, r[k]? = if lo < k ∧ k ≤ j then a[k - 1]? else a[k]? := by
  intro j
  induction j with
  | zero =>
    intro a _
    refine ⟨a, rfl, rfl, fun k => ?_⟩
    have : ¬ (lo < k ∧ k ≤ 0) := by omega
    rw [if_neg this]
  | succ j ih =>
    intro a hj
    by_cases hlo : j + 1 > lo
    · have hj0 : j < a.length := by omega
      obtain ⟨r, hr, hlen, hk⟩ := ih (a.set (j + 1) a[j]) (by simpa using hj0)
      refine ⟨r, ?_, by simpa using hlen, fun k => ?_⟩
      · simp [shiftRight, hlo, readAt_eq, List.getElem?_eq_getElem hj0, writeAt_of_lt _ hj, hr]
      · rw [hk k]
        by_cases h1 : lo < k ∧ k ≤ j
        · have h2 : lo < k ∧ k ≤ j + 1 := by omega
          have h3 : j + 1 ≠ k - 1 := by omega
          simp [h1, h2, List.getElem?_set_ne h3]
        · by_cases h4 : k = j + 1
          · subst h4
            have h2 : lo < j + 1 ∧ j + 1 ≤ j + 1 := by omega
            simp [h1, h2, hj, List.getElem?_eq_getElem hj0]
          · have h2 : ¬ (lo < k ∧ k ≤ j + 1) := by omega
            have h3 : j + 1 ≠ k := by omega
            simp [h1, h2, List.getElem?_set_ne h3]
    · refine ⟨a, by simp [shiftRight, hlo], rfl, fun k => ?_⟩
      have : ¬ (lo < k ∧ k ≤ j + 1) := by omega
      simp [this]

theorem shiftLeft_spec : ∀ (n j : Nat) (a : List Block), j + n < a.length →
    ∃ r, shiftLeft a j n = some r ∧ r.length = a.length ∧
      ∀ k, r[k]? = if j ≤ k ∧ k < j + n then a[k + 1]? else a[k]? := by
  intro n
  induction n with
  | zero =>
    intro j a _
    refine ⟨a, rfl, rfl, fun k => ?_⟩
    have : ¬ (j ≤ k ∧ k < j + 0) := by omega
    rw [if_neg this]
  | succ n ih =>
    intro j a hj
    have hj1 : j + 1 < a.length := by omega
    have hj0 : j < a.length := by omega
    obtain ⟨r, hr, hlen, hk⟩ := ih (j + 1) (a.set j a[j + 1]) (by simp; omega)
    refine ⟨r, ?_, by simpa using hlen, fun k => ?_⟩
    · simp [shiftLeft, readAt_eq, List.getElem?_eq_getElem hj1, writeAt_of_lt _ hj0, hr]
    · rw [hk k]
      by_cases h1 : j + 1 ≤ k ∧ k < j + 1 + n
      · have h2 : j ≤ k ∧ k < j + (n + 1) := by omega
        have h3 : j ≠ k + 1 := by omega
        simp [h1, h2, List.getElem?_set_ne h3]
      · by_cases h4 : k = j
        · subst h4
          have h2 : k ≤ k ∧ k < k + (n + 1) := by omega
          simp [h1, h2, hj0, List.getElem?_eq_getElem hj1]
        · have h2 : ¬ (j ≤ k ∧ k < j + (n + 1)) := by omega
          have h3 : j ≠ k := by omega
          simp [h1, h2, List.getElem?_set_ne h3]

theorem removeSlot_spec {a : List Block} {n p : Nat} (hp : p < n)
    (hc : n ≤ a.length) :
    ∃ r, removeSlot a n p = some (r, n - 1) ∧ r.length = a.length ∧
      r.take (n - 1) = (a.take n).eraseIdx p := by
  obtain ⟨r, hr, hlen, hk⟩ := shiftLeft_spec (n - 1 - p) p a (by omega)
  refine ⟨r, by simp [removeSlot, hr], hlen, ?_⟩
  apply List.ext_getElem?
  intro k
  rw [List.getElem?_take, List.getElem?_eraseIdx, hk k]
  simp only [List.getElem?_take]
  by_cases h1 : k < n - 1
  · by_cases h2 : k < p
    · have h3 : ¬ (p ≤ k ∧ k < p + (n - 1 - p)) := by omega
      have h4 : k < n := by omega
      simp [h1, h2, h3, h4]
    · have h3 : p ≤ k ∧ k < p + (n - 1 - p) := by omega
      have h4 : k + 1 < n := by omega
      simp [h1, h2, h3, h4]
  · by_cases h2 : k < p
    · omega
    · have h4 : ¬ (k + 1 < n) := by omega
      simp [h1, h2, h4]

theorem insertSlot_spec {a : List Block} {count i : Nat} (nb : Block) (hi : i < count)
    (hc : count < a.length) :
    ∃ r r1, shiftRight a (i + 1) count = some r ∧ writeAt r (i + 1) nb = some r1 ∧
      r1.length = a.length ∧
      r1.take (count + 1) = (a.take count).take (i + 1) ++ nb :: (a.take count).drop (i + 1) := by
  obtain ⟨r, hr, hlen, hk⟩ := shiftRight_spec (i + 1) count a hc
  have hi1 : i + 1 < r.length := by omega
  refine ⟨r, r.set (i + 1) nb, hr, writeAt_of_lt _ hi1, by simpa using hlen, ?_⟩
  apply List.ext_getElem?
  intro k
  have hl : (List.take (i + 1) (List.take count a)).length = i + 1 := by
    simp only [List.length_take]; omega
  rw [List.getElem?_take, List.getElem?_append, hl, List.getElem?_set, hk k]
  simp only [List.getElem?_take]
  by_cases h1 : k < i + 1
  · have h2 : k < count + 1 := by omega
    have h3 : ¬ (i + 1 = k) := by omega
    have h4 : ¬ (i + 1 < k ∧ k ≤ count) := by omega
    have h5 : k < count := by omega
    simp [h1, h2, h3, h4, h5]
  · by_cases h2 : k = i + 1
    · subst h2
      have h3 : i + 1 < count + 1 := by omega
      simp [h3, hi1]
    · obtain ⟨m, rfl⟩ : ∃ m, k = i + 1 + (m + 1) := ⟨k - i - 2, by omega⟩
      have h3 : ¬ (i + 1 = i + 1 + (m + 1)) := by omega
      have h6 : i + 1 + (m + 1) - (i + 1) = m + 1 := by omega
      have h7 : i + 1 + (m + 1) - 1 = i + 1 + m := by omega
      rw [if_neg h3, if_neg h1, h6, List.getElem?_cons_succ, List.getElem?_drop,
        List.getElem?_take, h7]
      by_cases h8 : i + 1 + (m + 1) < count + 1
      · have h4 : i + 1 < i + 1 + (m + 1) ∧ i + 1 + (m + 1) ≤ count := by omega
        have h5 : i + 1 + m < count := by omega
        simp [h8, h4, h5]
      · have h5 : ¬ (i + 1 + m < count) := by omega
        simp [h8, h5]

theorem growIfFull_spec {a : List Block} {cap count : Nat} (hlen : a.length = cap)
    (hc : count ≤ cap) (hpos : 0 < count) :
    (growIfFull a cap count).1.length = (growIfFull a cap count).2 ∧
      count < (growIfFull a cap count).2 ∧
      (growIfFull a cap count).1.take count = a.take count := by
  unfold growIfFull
  by_cases h : count ≥ cap
  · simp only [h, if_true, reallocSlots]
    refine ⟨?_, by omega, ?_⟩
    · simp only [List.length_append, List.length_take, List.length_replicate]; omega
    · rw [List.take_append_of_le_length (by simp only [List.length_take]; omega),
        List.take_take]
      congr 1
      omega
  · simp only [h, if_false]
    exact ⟨hlen, by omega, trivial⟩

/-! ## The operations on the block table -/

theorem table_length {s : MemState} (h : StorageOk s) : (table s).length = s.blockCount := by
  unfold table
  rw [List.length_take]
  have := h.1
  have := h.2
  omega

theorem table_getElem? (s : MemState) {i : Nat} (hi : i < s.blockCount) :
    (table s)[i]? = s.blockArray[i]? := by
  unfold table
  rw [List.getElem?_take, if_pos hi]

theorem append_cons_getElem? {A B : List Block} {x : Block} :
    (A ++ x :: B)[A.length]? = some x := by
  rw [List.getElem?_append_right (Nat.le_refl _)]
  simp

theorem set_append_cons (A B : List Block) (x y : Block) :
    (A ++ x :: B).set A.length y = A ++ y :: B := by
  simp

theorem eraseIdx_append_cons_cons (A B : List Block) (x y : Block) :
    (A ++ x :: y :: B).eraseIdx (A.length + 1) = A ++ x :: B := by
  induction A with
  | nil => simp
  | cons a A ih => simpa using ih

theorem take_succ_append_cons (A B : List Block) (x : Block) :
    (A ++ x :: B).take (A.length + 1) = A ++ [x] := by
  induction A with
  | nil => simp
  | cons a A ih => simpa using ih

theorem drop_succ_append_cons (A B : List Block) (x : Block) :
    (A ++ x :: B).drop (A.length + 1) = B := by
  induction A with
  | nil => simp
  | cons a A ih => simp

/-- A state whose table is `A ++ x :: B` has `x` in slot `A.length`, inside the live prefix. -/
theorem slot_of_table {s : MemState} {A B : List Block} {x : Block} (hs : StorageOk s)
    (ht : table s = A ++ x :: B) :
    A.length < s.blockCount ∧ s.blockArray[A.length]? = some x ∧
      A.length < s.blockArray.length := by
  have hl := table_length hs
  rw [ht] at hl
  simp only [List.length_append, List.length_cons] at hl
  have h1 : A.length < s.blockCount := by omega
  refine ⟨h1, ?_, ?_⟩
  · rw [← table_getElem? s h1, ht]; exact append_cons_getElem?
  · have := hs.1; have := hs.2; omega

theorem allocAt_split {s : MemState} {A B : List Block} {cur : Block} {size : Nat}
    (hs : StorageOk s) (ht : table s = A ++ cur :: B) (hsz : size < cur.size) :
    ∃ s1, allocAt s A.length cur size = some (s1, some cur.offset) ∧ StorageOk s1 ∧
      s1.memoryPool = s.memoryPool ∧
      table s1 = A ++ { cur with free := false, size := size } ::
        { offset := szAdd cur.offset size, size := cur.size - size, free := true } :: B := by
  obtain ⟨hi, _, hlen⟩ := slot_of_table hs ht
  have hrem : cur.size - size > 0 := by omega
  set a1 := s.blockArray.set A.length { cur with free := false, size := size } with ha1
  have ha1len : a1.length = s.blockCapacity := by rw [ha1, List.length_set]; exact hs.1
  obtain ⟨hg1, hg2, hg3⟩ := growIfFull_spec ha1len hs.2 (by omega)
  obtain ⟨r, r1, hr, hr1, hr1len, hr1t⟩ :=
    insertSlot_spec (a := (growIfFull a1 s.blockCapacity s.blockCount).1)
      { offset := szAdd cur.offset size, size := cur.size - size, free := true } hi
      (by rw [hg1]; exact hg2)
  refine ⟨{ s with blockArray := r1,
                    blockCapacity := (growIfFull a1 s.blockCapacity s.blockCount).2,
                    blockCount := s.blockCount + 1 }, ?_, ?_, ?_, ?_⟩
  · unfold allocAt
    simp only [hrem, if_true, writeAt_of_lt _ hlen, ← ha1, hr, hr1]
  · exact ⟨by simp only [hr1len, hg1], by simp only; omega⟩
  · rfl
  · unfold table
    simp only
    rw [hr1t, hg3, ha1, List.set_take]
    have ht' : List.take s.blockCount s.blockArray = A ++ cur :: B := ht
    rw [ht', set_append_cons, take_succ_append_cons, drop_succ_append_cons]
    simp

theorem allocAt_exact {s : MemState} {A B : List Block} {cur : Block} {size : Nat}
    (hs : StorageOk s) (ht : table s = A ++ cur :: B) (hsz : cur.size ≤ size) :
    ∃ s1, allocAt s A.length cur size = some (s1, some cur.offset) ∧ StorageOk s1 ∧
      s1.memoryPool = s.memoryPool ∧ s1.blockCount = s.blockCount ∧
      s1.blockCapacity = s.blockCapacity ∧
      table s1 = A ++ { cur with free := false } :: B := by
  obtain ⟨hi, _, hlen⟩ := slot_of_table hs ht
  have hrem : ¬ (cur.size - size > 0) := by omega
  refine ⟨{ s with blockArray := s.blockArray.set A.length { cur with free := false } },
    ?_, ?_, rfl, rfl, rfl, ?_⟩
  · unfold allocAt
    simp only [hrem, if_false, writeAt_of_lt _ hlen]
  · exact ⟨by simp only [List.length_set]; exact hs.1, hs.2⟩
  · unfold table
    simp only
    rw [List.set_take]
    have ht' : List.take s.blockCount s.blockArray = A ++ cur :: B := ht
    rw [ht', set_append_cons]

theorem allocLoop_spec (s : MemState) (size : Nat) : ∀ (n i : Nat),
    i + n ≤ s.blockArray.length →
    (allocLoop s size i n = some (s, none) ∧
      ∀ k b, i ≤ k → k < i + n → s.blockArray[k]? = some b → fits size b = false) ∨
    (∃ k cur, i ≤ k ∧ k < i + n ∧ s.blockArray[k]? = some cur ∧ fits size cur = true ∧
      (∀ j b, i ≤ j → j < k → s.blockArray[j]? = some b → fits size b = false) ∧
      allocLoop s size i n = allocAt s k cur size) := by
  intro n
  induction n with
  | zero =>
    intro i _
    exact Or.inl ⟨rfl, fun k b h1 h2 => by omega⟩
  | succ n ih =>
    intro i hi
    have hlt : i < s.blockArray.length := by omega
    have hrd : readAt s.blockArray i = some s.blockArray[i] := by
      rw [readAt_eq, List.getElem?_eq_getElem hlt]
    by_cases hf : fits size s.blockArray[i] = true
    · refine Or.inr ⟨i, s.blockArray[i], Nat.le_refl _, by omega,
        List.getElem?_eq_getElem hlt, hf, fun j b h1 h2 => by omega, ?_⟩
      have hf' : (s.blockArray[i].free && decide (s.blockArray[i].size ≥ size)) = true := hf
      simp only [allocLoop, hrd, hf', if_true]
    · have hf' : ¬ ((s.blockArray[i].free && decide (s.blockArray[i].size ≥ size)) = true) := hf
      have hstep : allocLoop s size i (n + 1) = allocLoop s size (i + 1) n := by
        simp [allocLoop, hrd, hf']
      have hi0 : ∀ b, s.blockArray[i]? = some b → fits size b = false := by
        intro b hb
        rw [List.getElem?_eq_getElem hlt] at hb
        cases hb
        simpa using hf
      rcases ih (i + 1) (by omega) with ⟨h1, h2⟩ | ⟨k, cur, h1, h2, h3, h4, h5, h6⟩
      · refine Or.inl ⟨by rw [hstep, h1], fun k b hk1 hk2 hb => ?_⟩
        by_cases hki : k = i
        · subst hki; exact hi0 b hb
        · exact h2 k b (by omega) (by omega) hb
      · refine Or.inr ⟨k, cur, by omega, by omega, h3, h4, fun j b hj1 hj2 hb => ?_,
          by rw [hstep, h6]⟩
        by_cases hji : j = i
        · subst hji; exact hi0 b hb
        · exact h5 j b (by omega) hj2 hb

/-- Splitting a list at an index that holds `x`. -/
theorem split_at_index {t : List Block} {k : Nat} {x : Block} (h : t[k]? = some x) :
    t = t.take k ++ x :: t.drop (k + 1) ∧ (t.take k).length = k := by
  obtain ⟨hk, hx⟩ := List.getElem?_eq_some.mp h
  constructor
  · rw [← hx, List.getElem_cons_drop, List.take_append_drop]
  · rw [List.length_take]; omega

/-- The two outcomes of `mem_alloc` on the block table: no block fits and the call returns
`NULL` without touching the state, or the body runs on the first block that fits. -/
theorem mem_alloc_cases {s : MemState} (hs : StorageOk s) (size : Nat) :
    (mem_alloc s size = some (s, none) ∧ ∀ b ∈ table s, fits size b = false) ∨
    (∃ A cur B, table s = A ++ cur :: B ∧ fits size cur = true ∧
      (∀ b ∈ A, fits size b = false) ∧
      mem_alloc s size = allocAt s A.length cur size) := by
  have hle : 0 + s.blockCount ≤ s.blockArray.length := by
    have := hs.1; have := hs.2; omega
  rcases allocLoop_spec s size s.blockCount 0 hle with ⟨h1, h2⟩ | ⟨k, cur, _, h2, h3, h4, h5, h6⟩
  · refine Or.inl ⟨h1, fun b hb => ?_⟩
    obtain ⟨k, hk⟩ := List.getElem?_of_mem hb
    have hk' : k < s.blockCount := by
      have := (List.getElem?_eq_some.mp hk).1
      rw [table_length hs] at this
      exact this
    rw [table_getElem? s hk'] at hk
    exact h2 k b (Nat.zero_le _) (by omega) hk
  · have hk : k < s.blockCount := by omega
    have ht : (table s)[k]? = some cur := by rw [table_getElem? s hk]; exact h3
    obtain ⟨hsplit, hlen⟩ := split_at_index ht
    refine Or.inr ⟨(table s).take k, cur, (table s).drop (k + 1), hsplit, h4, fun b hb => ?_,
      by rw [hlen]; exact h6⟩
    obtain ⟨j, hj⟩ := List.getElem?_of_mem hb
    have hjk : j < k := by
      have := (List.getElem?_eq_some.mp hj).1
      rw [hlen] at this
      exact this
    rw [List.getElem?_take, if_pos hjk, table_getElem? s (by omega)] at hj
    exact h5 j b (Nat.zero_le _) hjk hj

/-- Facts about a slot array whose live prefix is `A ++ x :: B`. -/
theorem slots_of_take {a : List Block} {count : Nat} {A B : List Block} {x : Block}
    (hc : count ≤ a.length) (ht : a.take count = A ++ x :: B) :
    count = A.length + 1 + B.length ∧ a[A.length]? = some x ∧
      (∀ k, k < count → a[k]? = (A ++ x :: B)[k]?) := by
  have hl : (a.take count).length = count := by rw [List.length_take]; omega
  rw [ht] at hl
  simp only [List.length_append, List.length_cons] at hl
  have hk : ∀ k, k < count → a[k]? = (A ++ x :: B)[k]? := by
    intro k hk
    rw [← ht, List.getElem?_take, if_pos hk]
  refine ⟨by omega, ?_, hk⟩
  rw [hk A.length (by omega)]
  exact append_cons_getElem?

theorem mergeNext_spec {a : List Block} {count : Nat} {A B : List Block} {cur : Block}
    (hc : count ≤ a.length) (ht : a.take count = A ++ cur :: B) :
    ∃ r c, mergeNext a count A.length = some (r, c) ∧ r.length = a.length ∧ c ≤ r.length ∧
      r.take c = A ++ (mergeNextT cur B).1 :: (mergeNextT cur B).2 := by
  obtain ⟨hcount, hcur, hk⟩ := slots_of_take hc ht
  have hA : A.length < a.length := by omega
  cases B with
  | nil =>
    have h1 : ¬ (A.length + 1 < count) := by simp at hcount; omega
    exact ⟨a, count, by simp [mergeNext, h1], rfl, hc, by simpa [mergeNextT] using ht⟩
  | cons next B1 =>
    simp only [List.length_cons] at hcount
    have h1 : A.length + 1 < count := by omega
    have hnext : a[A.length + 1]? = some next := by
      rw [hk _ h1, List.getElem?_append_right (by omega)]
      simp
    by_cases hf : next.free = true
    · obtain ⟨r, hr, hrlen, hrt⟩ := removeSlot_spec
        (a := a.set A.length { cur with size := szAdd cur.size next.size })
        (n := count) (p := A.length + 1) h1 (by simpa using hc)
      refine ⟨r, count - 1, ?_, by simpa using hrlen, by simp at hrlen; omega, ?_⟩
      · simp [mergeNext, h1, readAt_eq, hnext, hf, hcur, writeAt_of_lt _ hA, hr]
      · rw [hrt, List.set_take, ht, set_append_cons, eraseIdx_append_cons_cons]
        simp [mergeNextT, hf]
    · refine ⟨a, count, ?_, rfl, hc, ?_⟩
      · simp [mergeNext, h1, readAt_eq, hnext, hf]
      · simpa [mergeNextT, hf] using ht

theorem mergePrev_spec {a : List Block} {count : Nat} {A B : List Block} {cur : Block}
    (hc : count ≤ a.length) (ht : a.take count = A ++ cur :: B) :
    ∃ r c, mergePrev a count A.length = some (r, c) ∧ r.length = a.length ∧ c ≤ r.length ∧
      r.take c = mergePrevT A cur ++ B := by
  obtain ⟨hcount, hcur, hk⟩ := slots_of_take hc ht
  have hA : A.length < a.length := by omega
  rcases List.eq_nil_or_concat A with hnil | ⟨A1, prev, hA1⟩
  · subst hnil
    exact ⟨a, count, by simp [mergePrev], rfl, hc, by simpa [mergePrevT] using ht⟩
  · rw [List.concat_eq_append] at hA1
    subst hA1
    have hlen : (A1 ++ [prev]).length = A1.length + 1 := by simp
    have h1 : (A1 ++ [prev]).length > 0 := by omega
    have ht1 : a.take count = A1 ++ prev :: cur :: B := by simpa using ht
    have hprev : a[A1.length]? = some prev := (slots_of_take hc ht1).2.1
    have hlast : (A1 ++ [prev]).getLast? = some prev := by simp
    by_cases hf : prev.free = true
    · obtain ⟨r, hr, hrlen, hrt⟩ := removeSlot_spec
        (a := a.set A1.length { prev with size := szAdd prev.size cur.size })
        (n := count) (p := A1.length + 1) (by omega) (by simpa using hc)
      refine ⟨r, count - 1, ?_, by simpa using hrlen, by simp at hrlen; omega, ?_⟩
      · rw [hlen] at hcur
        have hA0 : A1.length < a.length := by omega
        simp only [hf] at hr
        simp [mergePrev, readAt_eq, hprev, hf, hcur, writeAt_of_lt _ hA0, hr]
      · rw [hrt, List.set_take, ht1, set_append_cons, eraseIdx_append_cons_cons]
        simp [mergePrevT, hf]
    · refine ⟨a, count, ?_, rfl, hc, ?_⟩
      · simp [mergePrev, readAt_eq, hprev, hf]
      · simpa [mergePrevT, hf] using ht

theorem findBlock_spec (a : List Block) (off : Nat) {x : Block} : ∀ (n i k : Nat),
    i ≤ k → k < i + n → a[k]? = some x → x.offset = off →
    (∀ j b, i ≤ j → j < k → a[j]? = some b → b.offset ≠ off) →
    findBlock a off i n = some (some k) := by
  intro n
  induction n with
  | zero => intro i k h1 h2; omega
  | succ n ih =>
    intro i k h1 h2 hx hoff hfirst
    by_cases hik : i = k
    · subst hik
      simp [findBlock, readAt_eq, hx, hoff]
    · obtain ⟨hi, _⟩ := List.getElem?_eq_some.mp hx
      have hlt : i < a.length := by omega
      have hne : a[i].offset ≠ off :=
        hfirst i a[i] (Nat.le_refl _) (by omega) (List.getElem?_eq_getElem hlt)
      have hstep : findBlock a off i (n + 1) = findBlock a off (i + 1) n := by
        simp [findBlock, readAt_eq, List.getElem?_eq_getElem hlt, hne]
      rw [hstep]
      exact ih (i + 1) k (by omega) (by omega) hx hoff
        (fun j b hj1 hj2 hb => hfirst j b (by omega) hj2 hb)

/-- The lookup loop on a table split at the first block that starts at `off`. -/
theorem findBlock_table {s : MemState} {A B : List Block} {cur : Block} (hs : StorageOk s)
    (ht : table s = A ++ cur :: B) (hfirst : ∀ b ∈ A, b.offset ≠ cur.offset) :
    findBlock s.blockArray cur.offset 0 s.blockCount = some (some A.length) := by
  obtain ⟨hi, hcur, _⟩ := slot_of_table hs ht
  refine findBlock_spec s.blockArray cur.offset s.blockCount 0 A.length (Nat.zero_le _)
    (by omega) hcur rfl (fun j b _ hj hb => ?_)
  apply hfirst
  rw [← table_getElem? s (by omega), ht, List.getElem?_append_left hj] at hb
  exact List.getElem?_mem hb

/-- The function `mem_free` on the block table: the block is found, marked free and
coalesced with its free neighbours. -/
theorem mem_free_spec {s : MemState} {A B : List Block} {cur : Block} (hs : StorageOk s)
    (ht : table s = A ++ cur :: B) (hfirst : ∀ b ∈ A, b.offset ≠ cur.offset) :
    ∃ s1, mem_free s cur.offset = some s1 ∧ StorageOk s1 ∧
      s1.memoryPool = s.memoryPool ∧ s1.blockCapacity = s.blockCapacity ∧
      table s1 = coalesceT A cur B := by
  obtain ⟨hi, hcur, hlen⟩ := slot_of_table hs ht
  have hc : s.blockCount ≤ s.blockArray.length := by have := hs.1; have := hs.2; omega
  have ht1 : (s.blockArray.set A.length { cur with free := true }).take s.blockCount =
      A ++ { cur with free := true } :: B := by
    have ht' : List.take s.blockCount s.blockArray = A ++ cur :: B := ht
    rw [List.set_take, ht', set_append_cons]
  obtain ⟨r, c, hr, hrlen, hrc, hrt⟩ := mergeNext_spec (by simpa using hc) ht1
  obtain ⟨r2, c2, hr2, hr2len, hr2c, hr2t⟩ := mergePrev_spec hrc hrt
  refine ⟨{ s with blockArray := r2, blockCount := c2 }, ?_, ?_, rfl, rfl, ?_⟩
  · simp only [mem_free, findBlock_table hs ht hfirst, readAt_eq, hcur,
      writeAt_of_lt _ hlen, hr, hr2]
  · refine ⟨?_, ?_⟩
    · simp only [hr2len, hrlen, List.length_set]; exact hs.1
    · simp only
      rw [← hs.1]
      simp only [hr2len, hrlen, List.length_set] at hr2c
      exact hr2c
  · exact hr2t

/-- The insertion sequence shared by `mem_alloc` and `mem_resize`: overwrite slot
`A.length`, grow the array if it is full, shift the tail right and store the new block. -/
theorem splitInsert_spec {a : List Block} {k n : Nat} {A B : List Block} {x : Block}
    (y nb : Block) (hlen : a.length = k) (hc : n ≤ k)
    (ht : a.take n = A ++ x :: B) :
    ∃ a1 a2 a3, writeAt a A.length y = some a1 ∧
      shiftRight (growIfFull a1 k n).1 (A.length + 1) n = some a2 ∧
      writeAt a2 (A.length + 1) nb = some a3 ∧
      a3.length = (growIfFull a1 k n).2 ∧ n + 1 ≤ (growIfFull a1 k n).2 ∧
      a3.take (n + 1) = A ++ y :: nb :: B := by
  obtain ⟨hn, _, _⟩ := slots_of_take (by omega) ht
  have hA : A.length < a.length := by omega
  have hi : A.length < n := by omega
  have ha1len : (a.set A.length y).length = k := by rw [List.length_set]; exact hlen
  obtain ⟨hg1, hg2, hg3⟩ := growIfFull_spec ha1len hc (by omega)
  obtain ⟨r, r1, hr, hr1, hr1len, hr1t⟩ :=
    insertSlot_spec (a := (growIfFull (a.set A.length y) k n).1) nb hi
      (by rw [hg1]; exact hg2)
  refine ⟨a.set A.length y, r, r1, writeAt_of_lt _ hA, hr, hr1, by rw [hr1len, hg1],
    by omega, ?_⟩
  rw [hr1t, hg3, List.set_take, ht, set_append_cons, take_succ_append_cons,
    drop_succ_append_cons]
  simp

theorem growInPlace_spec {s : MemState} {A B : List Block} {cur next : Block}
    (total size : Nat) (mallocOk : Bool) (hs : StorageOk s)
    (ht : table s = A ++ cur :: next :: B) :
    ∃ s1, growInPlace s A.length cur total size mallocOk =
        some (s1, if total > size ∧ mallocOk = false then none else some cur.offset) ∧
      StorageOk s1 ∧ s1.memoryPool = s.memoryPool ∧
      table s1 = A ++ growT cur total size mallocOk ++ B := by
  obtain ⟨hi, hcur, hlen⟩ := slot_of_table hs ht
  have hc : s.blockCount ≤ s.blockArray.length := by have := hs.1; have := hs.2; omega
  have hcount : s.blockCount = A.length + 1 + (B.length + 1) := by
    have := table_length hs
    rw [ht] at this
    simp only [List.length_append, List.length_cons] at this
    omega
  obtain ⟨r, hr, hrlen, hrt⟩ := removeSlot_spec
    (a := s.blockArray.set A.length { cur with size := total })
    (n := s.blockCount) (p := A.length + 1) (by omega) (by simpa using hc)
  have ht' : List.take s.blockCount s.blockArray = A ++ cur :: next :: B := ht
  rw [List.set_take, ht', set_append_cons, eraseIdx_append_cons_cons] at hrt
  rw [List.length_set] at hrlen
  by_cases hgt : total > size
  · cases mallocOk with
    | false =>
      refine ⟨{ s with blockArray := r, blockCount := s.blockCount - 1 }, ?_, ?_, rfl, ?_⟩
      · simp [growInPlace, writeAt_of_lt _ hlen, hr, hgt]
      · exact ⟨by simp only [hrlen]; exact hs.1, by simp only; have := hs.2; omega⟩
      · simpa [table, growT] using hrt
    | true =>
      obtain ⟨a1, a2, a3, h1, h2, h3, h4, h5, h6⟩ :=
        splitInsert_spec (a := r) (k := s.blockCapacity) (n := s.blockCount - 1)
          { cur with size := size }
          { offset := szAdd cur.offset size, size := total - size, free := true }
          (by rw [hrlen]; exact hs.1) (by have := hs.2; omega) hrt
      refine ⟨{ s with blockArray := a3,
                        blockCapacity := (growIfFull a1 s.blockCapacity (s.blockCount - 1)).2,
                        blockCount := s.blockCount - 1 + 1 }, ?_, ?_, rfl, ?_⟩
      · simp [growInPlace, writeAt_of_lt _ hlen, hr, hgt, h1, h2, h3]
      · exact ⟨h4, h5⟩
      · simpa [table, growT, hgt] using h6
  · refine ⟨{ s with blockArray := r, blockCount := s.blockCount - 1 }, ?_, ?_, rfl, ?_⟩
    · simp [growInPlace, writeAt_of_lt _ hlen, hr, hgt]
    · exact ⟨by simp only [hrlen]; exact hs.1, by simp only; have := hs.2; omega⟩
    · simpa [table, growT, hgt] using hrt

theorem mem_resize_noop {s : MemState} {A B : List Block} {cur : Block} (size : Nat)
    (mallocOk : Bool) (hs : StorageOk s) (ht : table s = A ++ cur :: B)
    (hfirst : ∀ b ∈ A, b.offset ≠ cur.offset) (hsz : size ≤ cur.size) :
    mem_resize s cur.offset size mallocOk = some (s, some cur.offset) := by
  obtain ⟨_, hcur, _⟩ := slot_of_table hs ht
  simp [mem_resize, findBlock_table hs ht hfirst, readAt_eq, hcur, hsz]

theorem mem_resize_grow {s : MemState} {A B : List Block} {cur next : Block} (size : Nat)
    (mallocOk : Bool) (hs : StorageOk s) (ht : table s = A ++ cur :: next :: B)
    (hfirst : ∀ b ∈ A, b.offset ≠ cur.offset) (hsz : cur.size < size)
    (hfree : next.free = true) (htot : size ≤ szAdd cur.size next.size) :
    mem_resize s cur.offset size mallocOk =
      growInPlace s A.length cur (szAdd cur.size next.size) size mallocOk := by
  obtain ⟨_, hcur, _⟩ := slot_of_table hs ht
  have ht2 : table s = (A ++ [cur]) ++ next :: B := by simpa using ht
  obtain ⟨hi2, hnext, _⟩ := slot_of_table hs ht2
  simp only [List.length_append, List.length_singleton] at hi2 hnext
  have h1 : ¬ (cur.size ≥ size) := by omega
  simp [mem_resize, findBlock_table hs ht hfirst, readAt_eq, hcur, h1, hi2, hnext, hfree, htot]

theorem mem_resize_relocate {s : MemState} {A B : List Block} {cur : Block} (size : Nat)
    (mallocOk : Bool) (hs : StorageOk s) (ht : table s = A ++ cur :: B)
    (hfirst : ∀ b ∈ A, b.offset ≠ cur.offset) (hsz : cur.size < size)
    (hno : ∀ next B1, B = next :: B1 → next.free = false ∨ szAdd cur.size next.size < size) :
    mem_resize s cur.offset size mallocOk = relocate s cur.offset cur size := by
  obtain ⟨hi, hcur, _⟩ := slot_of_table hs ht
  have h1 : ¬ (cur.size ≥ size) := by omega
  cases B with
  | nil =>
    have hcount : ¬ (A.length + 1 < s.blockCount) := by
      have := table_length hs
      rw [ht] at this
      simp at this
      omega
    simp [mem_resize, findBlock_table hs ht hfirst, readAt_eq, hcur, h1, hcount]
  | cons next B1 =>
    have ht2 : table s = (A ++ [cur]) ++ next :: B1 := by simpa using ht
    obtain ⟨hi2, hnext, _⟩ := slot_of_table hs ht2
    simp only [List.length_append, List.length_singleton] at hi2 hnext
    rcases hno next B1 rfl with hf | hlt
    · simp [mem_resize, findBlock_table hs ht hfirst, readAt_eq, hcur, h1, hi2, hnext, hf]
    · have h2 : ¬ (szAdd cur.size next.size ≥ size) := by omega
      by_cases hf : next.free = true
      · simp [mem_resize, findBlock_table hs ht hfirst, readAt_eq, hcur, h1, hi2, hnext, hf, h2]
      · simp [mem_resize, findBlock_table hs ht hfirst, readAt_eq, hcur, h1, hi2, hnext, hf]

/-! ## Tiling -/

theorem tilesFrom_nil (a c : Nat) : tilesFrom a [] c ↔ a = c := Iff.rfl

theorem tilesFrom_cons (a c : Nat) (b : Block) (bs : List Block) :
    tilesFrom a (b :: bs) c ↔ b.offset = a ∧ tilesFrom (a + b.size) bs c := Iff.rfl

theorem tilesFrom_append (xs ys : List Block) : ∀ (a c : Nat),
    tilesFrom a (xs ++ ys) c ↔ ∃ m, tilesFrom a xs m ∧ tilesFrom m ys c := by
  induction xs with
  | nil =>
    intro a c
    constructor
    · intro h; exact ⟨a, rfl, h⟩
    · rintro ⟨m, h1, h2⟩
      have : a = m := h1
      subst this
      exact h2
  | cons x xs ih =>
    intro a c
    rw [List.cons_append, tilesFrom_cons, ih]
    constructor
    · rintro ⟨h1, m, h2, h3⟩; exact ⟨m, ⟨h1, h2⟩, h3⟩
    · rintro ⟨m, ⟨h1, h2⟩, h3⟩; exact ⟨h1, m, h2, h3⟩

theorem tilesFrom_le : ∀ (t : List Block) (a c : Nat), tilesFrom a t c → a ≤ c := by
  intro t
  induction t with
  | nil => intro a c h; exact Nat.le_of_eq h
  | cons b bs ih =>
    intro a c h
    have := ih _ _ h.2
    omega

/-- A tiled table split around one block: where the block starts and what lies on each side. -/
theorem tilesFrom_split {A B : List Block} {x : Block} {a c : Nat}
    (h : tilesFrom a (A ++ x :: B) c) :
    tilesFrom a A x.offset ∧ tilesFrom (x.offset + x.size) B c ∧ a ≤ x.offset ∧
      x.offset + x.size ≤ c := by
  obtain ⟨m, h1, h2, h3⟩ := (tilesFrom_append A (x :: B) a c).mp h
  subst h2
  exact ⟨h1, h3, tilesFrom_le _ _ _ h1, tilesFrom_le _ _ _ h3⟩

theorem tilesFrom_join {A B : List Block} {x : Block} {a c : Nat}
    (h1 : tilesFrom a A x.offset) (h2 : tilesFrom (x.offset + x.size) B c) :
    tilesFrom a (A ++ x :: B) c :=
  (tilesFrom_append A (x :: B) a c).mpr ⟨x.offset, h1, rfl, h2⟩

theorem szAdd_eq {a b : Nat} (h : a + b < SIZE_MOD) : szAdd a b = a + b :=
  Nat.mod_eq_of_lt h

/-- In a tiled table of positive blocks, the blocks before a given one start below it. -/
theorem tilesFrom_offset_lt : ∀ (A : List Block) (a m : Nat), tilesFrom a A m →
    (∀ b ∈ A, 0 < b.size) → ∀ b ∈ A, b.offset < m := by
  intro A
  induction A with
  | nil => intro a m _ _ b hb; cases hb
  | cons x xs ih =>
    intro a m h hpos b hb
    have hx := hpos x (List.mem_cons_self _ _)
    have hle := tilesFrom_le _ _ _ h.2
    rcases List.mem_cons.mp hb with rfl | hb
    · have := h.1; omega
    · exact ih _ _ h.2 (fun b hb => hpos b (List.mem_cons_of_mem _ hb)) b hb

/-! ## First match -/

/-- A list has at most one split around its first element satisfying `p`. -/
theorem first_split_unique (p : Block → Bool) : ∀ (A A1 : List Block) (x x1 : Block)
    (B B1 : List Block), A ++ x :: B = A1 ++ x1 :: B1 → p x = true → p x1 = true →
    (∀ a ∈ A, p a = false) → (∀ a ∈ A1, p a = false) → A = A1 ∧ x = x1 ∧ B = B1 := by
  intro A
  induction A with
  | nil =>
    intro A1 x x1 B B1 h hx hx1 _ hA1
    cases A1 with
    | nil => simp at h; exact ⟨rfl, h.1, h.2⟩
    | cons a A1 =>
      simp at h
      have := hA1 a (List.mem_cons_self _ _)
      rw [← h.1, hx] at this
      cases this
  | cons a A ih =>
    intro A1 x x1 B B1 h hx hx1 hA hA1
    cases A1 with
    | nil =>
      simp at h
      have := hA a (List.mem_cons_self _ _)
      rw [h.1, hx1] at this
      cases this
    | cons a1 A1 =>
      simp at h
      obtain ⟨h1, h2, h3⟩ := ih A1 x x1 B B1 h.2 hx hx1
        (fun b hb => hA b (List.mem_cons_of_mem _ hb))
        (fun b hb => hA1 b (List.mem_cons_of_mem _ hb))
      exact ⟨by rw [h.1, h1], h2, h3⟩

/-- The function `mem_alloc` on a table split around the first block that fits. -/
theorem mem_alloc_found {s : MemState} {A B : List Block} {cur : Block} {size : Nat}
    (hs : StorageOk s) (ht : table s = A ++ cur :: B) (hfit : fits size cur = true)
    (hfirst : ∀ b ∈ A, fits size b = false) :
    ∃ s1, mem_alloc s size = some (s1, some cur.offset) ∧ StorageOk s1 ∧
      s1.memoryPool = s.memoryPool ∧ table s1 = A ++ allocT cur size ++ B := by
  rcases mem_alloc_cases hs size with ⟨_, h2⟩ | ⟨A1, cur1, B1, h1, h2, h3, h4⟩
  · have := h2 cur (by rw [ht]; simp)
    rw [hfit] at this
    cases this
  · obtain ⟨hA, hc, hB⟩ := first_split_unique (fits size) A1 A cur1 cur B1 B
      (by rw [← h1, ht]) h2 hfit h3 hfirst
    subst hA hc hB
    rw [h4]
    by_cases hlt : size < cur1.size
    · obtain ⟨s1, e1, e2, e3, e4⟩ := allocAt_split hs ht hlt
      exact ⟨s1, e1, e2, e3, by simpa [allocT, hlt] using e4⟩
    · obtain ⟨s1, e1, e2, e3, _, _, e4⟩ := allocAt_exact hs ht (Nat.le_of_not_lt hlt)
      exact ⟨s1, e1, e2, e3, by simpa [allocT, hlt] using e4⟩

theorem fits_iff (size : Nat) (b : Block) :
    fits size b = true ↔ b.free = true ∧ size ≤ b.size := by
  simp [fits]

/-! ## Preservation of the invariants -/

theorem nbf_head_mono {x y : Block} {B : List Block} (h : y.free = true → x.free = true)
    (hc : List.Chain' notBothFree (x :: B)) : List.Chain' notBothFree (y :: B) :=
  List.Chain'.imp_head (fun {_} hxz hyz => hxz ⟨h hyz.1, hyz.2⟩) hc

theorem nbf_last_mono {x y : Block} {A : List Block} (h : y.free = true → x.free = true)
    (hc : List.Chain' notBothFree (A ++ [x])) : List.Chain' notBothFree (A ++ [y]) := by
  rw [List.chain'_append] at hc ⊢
  refine ⟨hc.1, List.chain'_singleton _, fun a ha b hb => ?_⟩
  simp only [List.head?_cons, Option.mem_def, Option.some.injEq] at hb
  subst hb
  exact fun hab => hc.2.2 a ha x (by simp) ⟨hab.1, h hab.2⟩

theorem allocT_tiles {A B : List Block} {cur : Block} {size N : Nat}
    (ht : tilesFrom 0 (A ++ cur :: B) N) (hN : N < SIZE_MOD) :
    tilesFrom 0 (A ++ allocT cur size ++ B) N := by
  obtain ⟨h1, h2, _, h4⟩ := tilesFrom_split ht
  unfold allocT
  by_cases hlt : size < cur.size
  · have hadd : szAdd cur.offset size = cur.offset + size := szAdd_eq (by omega)
    simp only [hlt, if_true, List.append_assoc, List.cons_append, List.nil_append]
    refine tilesFrom_join (x := { cur with free := false, size := size }) h1 ?_
    refine ⟨hadd, ?_⟩
    have : cur.offset + size + (cur.size - size) = cur.offset + cur.size := by omega
    simpa [this] using h2
  · simp only [hlt, if_false, List.append_assoc, List.cons_append, List.nil_append]
    exact tilesFrom_join (x := { cur with free := false }) h1 h2

theorem allocT_pos {A B : List Block} {cur : Block} {size : Nat}
    (hp : ∀ b ∈ A ++ cur :: B, 0 < b.size) (hsz : 0 < size) :
    ∀ b ∈ A ++ allocT cur size ++ B, 0 < b.size := by
  intro b hb
  have hcur := hp cur (by simp)
  simp only [List.mem_append] at hb
  rcases hb with (hb | hb) | hb
  · exact hp b (by simp [hb])
  · unfold allocT at hb
    by_cases hlt : size < cur.size
    · simp only [hlt, if_true, List.mem_cons, List.mem_singleton, List.not_mem_nil,
        or_false] at hb
      rcases hb with rfl | rfl
      · exact hsz
      · simp only; omega
    · simp only [hlt, if_false, List.mem_singleton] at hb
      subst hb
      exact hcur
  · exact hp b (by simp [hb])

theorem allocT_chain {A B : List Block} {cur : Block} {size : Nat}
    (hc : List.Chain' notBothFree (A ++ cur :: B)) (hfree : cur.free = true) :
    List.Chain' notBothFree (A ++ allocT cur size ++ B) := by
  rw [List.chain'_split] at hc
  unfold allocT
  by_cases hlt : size < cur.size
  · simp only [hlt, if_true, List.append_assoc, List.cons_append, List.nil_append]
    rw [List.chain'_split]
    refine ⟨nbf_last_mono (by simp) hc.1, ?_⟩
    rw [List.chain'_cons]
    exact ⟨fun h => by simp at h, nbf_head_mono (fun _ => hfree) hc.2⟩
  · simp only [hlt, if_false, List.append_assoc, List.cons_append, List.nil_append]
    rw [List.chain'_split]
    exact ⟨nbf_last_mono (by simp) hc.1, nbf_head_mono (by simp) hc.2⟩

theorem mergePrevT_nil (cur : Block) : mergePrevT [] cur = [cur] := rfl

theorem mergePrevT_free {prev : Block} (A1 : List Block) (cur : Block)
    (hf : prev.free = true) :
    mergePrevT (A1 ++ [prev]) cur =
      A1 ++ [{ prev with size := szAdd prev.size cur.size }] := by
  simp [mergePrevT, hf]

theorem mergePrevT_used {prev : Block} (A1 : List Block) (cur : Block)
    (hf : ¬ prev.free = true) :
    mergePrevT (A1 ++ [prev]) cur = A1 ++ [prev, cur] := by
  simp [mergePrevT, hf]

theorem mergeNextT_free {next : Block} (cur : Block) (B1 : List Block)
    (hf : next.free = true) :
    mergeNextT cur (next :: B1) = ({ cur with size := szAdd cur.size next.size }, B1) := by
  simp [mergeNextT, hf]

theorem mergeNextT_used {next : Block} (cur : Block) (B1 : List Block)
    (hf : ¬ next.free = true) :
    mergeNextT cur (next :: B1) = (cur, next :: B1) := by
  simp [mergeNextT, hf]

/-- What `mergeNextT` keeps: the start of the block, and the tiling of what follows it. -/
theorem mergeNextT_tiles (cur : Block) {B : List Block} {N : Nat}
    (h : tilesFrom (cur.offset + cur.size) B N) (hN : N < SIZE_MOD) :
    (mergeNextT cur B).1.offset = cur.offset ∧ (mergeNextT cur B).1.free = cur.free ∧
      cur.size ≤ (mergeNextT cur B).1.size ∧
      tilesFrom ((mergeNextT cur B).1.offset + (mergeNextT cur B).1.size)
        (mergeNextT cur B).2 N := by
  cases B with
  | nil => exact ⟨rfl, rfl, Nat.le_refl _, h⟩
  | cons next B1 =>
    by_cases hf : next.free = true
    · have hle := tilesFrom_le _ _ _ h.2
      have hadd : szAdd cur.size next.size = cur.size + next.size := szAdd_eq (by omega)
      rw [mergeNextT_free cur B1 hf, hadd]
      refine ⟨rfl, rfl, Nat.le_add_right _ _, ?_⟩
      have : cur.offset + (cur.size + next.size) = cur.offset + cur.size + next.size := by omega
      simp only [this]
      exact h.2
    · rw [mergeNextT_used cur B1 hf]
      exact ⟨rfl, rfl, Nat.le_refl _, h⟩

theorem mergePrevT_tiles {A B : List Block} {cur : Block} {N : Nat}
    (h : tilesFrom 0 (A ++ cur :: B) N) (hN : N < SIZE_MOD) :
    tilesFrom 0 (mergePrevT A cur ++ B) N := by
  rcases List.eq_nil_or_concat A with hnil | ⟨A1, prev, hA1⟩
  · subst hnil; simpa [mergePrevT] using h
  · rw [List.concat_eq_append] at hA1
    subst hA1
    by_cases hf : prev.free = true
    · have h' : tilesFrom 0 (A1 ++ prev :: cur :: B) N := by simpa using h
      obtain ⟨h1, h2, _, _⟩ := tilesFrom_split h'
      have hle := tilesFrom_le _ _ _ h2.2
      have hadd : szAdd prev.size cur.size = prev.size + cur.size := szAdd_eq (by omega)
      rw [mergePrevT_free A1 cur hf, hadd, List.append_assoc, List.singleton_append]
      refine tilesFrom_join (x := { prev with size := prev.size + cur.size }) h1 ?_
      have : prev.offset + (prev.size + cur.size) = prev.offset + prev.size + cur.size := by
        omega
      simp only [this]
      exact h2.2
    · rw [mergePrevT_used A1 cur hf]
      simpa using h

theorem coalesceT_tiles {A B : List Block} {cur : Block} {N : Nat}
    (h : tilesFrom 0 (A ++ cur :: B) N) (hN : N < SIZE_MOD) :
    tilesFrom 0 (coalesceT A cur B) N := by
  obtain ⟨h1, h2, _, _⟩ := tilesFrom_split h
  obtain ⟨e1, _, _, e4⟩ := mergeNextT_tiles { cur with free := true } h2 hN
  unfold coalesceT
  apply mergePrevT_tiles _ hN
  exact tilesFrom_join (by rw [e1]; exact h1) e4

theorem coalesceT_pos {A B : List Block} {cur : Block} {N : Nat}
    (h : tilesFrom 0 (A ++ cur :: B) N) (hN : N < SIZE_MOD)
    (hp : ∀ b ∈ A ++ cur :: B, 0 < b.size) : ∀ b ∈ coalesceT A cur B, 0 < b.size := by
  obtain ⟨h1, h2, _, _⟩ := tilesFrom_split h
  obtain ⟨e1, _, e3, e4⟩ := mergeNextT_tiles { cur with free := true } h2 hN
  have hcur : 0 < cur.size := hp cur (by simp)
  have hc1 : 0 < (mergeNextT { cur with free := true } B).1.size :=
    Nat.lt_of_lt_of_le hcur e3
  have hB1 : ∀ b ∈ (mergeNextT { cur with free := true } B).2, 0 < b.size := by
    intro b hb
    cases B with
    | nil => cases hb
    | cons next B1 =>
      by_cases hf : next.free = true
      · rw [mergeNextT_free _ B1 hf] at hb
        exact hp b (by simp [show b ∈ B1 from hb])
      · rw [mergeNextT_used _ B1 hf] at hb
        exact hp b (by simp [List.mem_cons.mp hb])
  intro b hb
  unfold coalesceT at hb
  rcases List.mem_append.mp hb with hb | hb
  · rcases List.eq_nil_or_concat A with hnil | ⟨A1, prev, hA1⟩
    · subst hnil
      rw [mergePrevT_nil, List.mem_singleton] at hb
      subst hb; exact hc1
    · rw [List.concat_eq_append] at hA1
      subst hA1
      by_cases hf : prev.free = true
      · rw [mergePrevT_free A1 _ hf] at hb
        rcases List.mem_append.mp hb with hb | hb
        · exact hp b (by simp [hb])
        · rw [List.mem_singleton] at hb
          subst hb
          have h' : tilesFrom 0 (A1 ++ prev :: (mergeNextT { cur with free := true } B).1 ::
              (mergeNextT { cur with free := true } B).2) N := by
            have := tilesFrom_join (x := (mergeNextT { cur with free := true } B).1)
              (by rw [e1]; exact h1) e4
            simpa using this
          obtain ⟨_, g2, _, _⟩ := tilesFrom_split h'
          have hle := tilesFrom_le _ _ _ g2.2
          have hadd := szAdd_eq (a := prev.size)
            (b := (mergeNextT { cur with free := true } B).1.size) (by omega)
          simp only [hadd]
          omega
      · rw [mergePrevT_used A1 _ hf] at hb
        simp only [List.mem_append, List.mem_cons, List.mem_singleton, List.not_mem_nil,
          or_false] at hb
        rcases hb with hb | rfl | rfl
        · exact hp b (by simp [hb])
        · exact hp b (by simp)
        · exact hc1
  · exact hB1 b hb

theorem mergeNextT_chain {cur : Block} {B : List Block}
    (hc : List.Chain' notBothFree (cur :: B)) :
    List.Chain' notBothFree ((mergeNextT { cur with free := true } B).1 ::
      (mergeNextT { cur with free := true } B).2) ∧
    (mergeNextT { cur with free := true } B).1.free = true := by
  cases B with
  | nil => exact ⟨List.chain'_singleton _, rfl⟩
  | cons next B1 =>
    rw [List.chain'_cons] at hc
    by_cases hf : next.free = true
    · rw [mergeNextT_free _ B1 hf]
      exact ⟨nbf_head_mono (fun _ => hf) hc.2, rfl⟩
    · rw [mergeNextT_used _ B1 hf]
      exact ⟨List.chain'_cons.mpr ⟨fun h => hf h.2, hc.2⟩, rfl⟩

theorem mergePrevT_chain {A B : List Block} {cur : Block}
    (hA : List.Chain' notBothFree A) (hB : List.Chain' notBothFree (cur :: B))
    (hfree : cur.free = true) : List.Chain' notBothFree (mergePrevT A cur ++ B) := by
  rcases List.eq_nil_or_concat A with hnil | ⟨A1, prev, hA1⟩
  · subst hnil; simpa [mergePrevT_nil] using hB
  · rw [List.concat_eq_append] at hA1
    subst hA1
    by_cases hf : prev.free = true
    · rw [mergePrevT_free A1 _ hf, List.append_assoc, List.singleton_append,
        List.chain'_split]
      exact ⟨nbf_last_mono (fun _ => hf) hA, nbf_head_mono (fun _ => hfree) hB⟩
    · rw [mergePrevT_used A1 _ hf]
      have e : A1 ++ [prev, cur] ++ B = (A1 ++ [prev]) ++ cur :: B := by simp
      rw [e, List.chain'_split, List.chain'_append]
      refine ⟨⟨hA, List.chain'_singleton _, fun a ha b hb => ?_⟩, hB⟩
      simp only [List.getLast?_append, List.getLast?_singleton, Option.mem_def] at ha
      simp at ha
      subst ha
      exact fun h => hf h.1

theorem coalesceT_chain {A B : List Block} {cur : Block}
    (hc : List.Chain' notBothFree (A ++ cur :: B)) :
    List.Chain' notBothFree (coalesceT A cur B) := by
  obtain ⟨h1, h2⟩ := mergeNextT_chain hc.right_of_append
  exact mergePrevT_chain hc.left_of_append h1 h2

theorem growT_tiles {A B : List Block} {cur next : Block} {size N : Nat} (mallocOk : Bool)
    (ht : tilesFrom 0 (A ++ cur :: next :: B) N) (hN : N < SIZE_MOD) :
    szAdd cur.size next.size = cur.size + next.size ∧
      tilesFrom 0 (A ++ growT cur (szAdd cur.size next.size) size mallocOk ++ B) N := by
  obtain ⟨h1, h2, _, _⟩ := tilesFrom_split ht
  have hle := tilesFrom_le _ _ _ h2.2
  have hadd : szAdd cur.size next.size = cur.size + next.size := szAdd_eq (by omega)
  refine ⟨hadd, ?_⟩
  have h3 : tilesFrom (cur.offset + (cur.size + next.size)) B N := by
    have : cur.offset + (cur.size + next.size) = cur.offset + cur.size + next.size := by omega
    rw [this]; exact h2.2
  rw [hadd]
  unfold growT
  by_cases hg : cur.size + next.size > size ∧ mallocOk = true
  · have hadd2 : szAdd cur.offset size = cur.offset + size := szAdd_eq (by omega)
    simp only [hg, and_self, if_true, List.append_assoc, List.cons_append, List.nil_append]
    refine tilesFrom_join (x := { cur with size := size }) h1 ⟨hadd2, ?_⟩
    have : cur.offset + size + (cur.size + next.size - size) =
        cur.offset + (cur.size + next.size) := by omega
    simp only [this]
    exact h3
  · simp only [hg, if_false, List.append_assoc, List.cons_append, List.nil_append]
    exact tilesFrom_join (x := { cur with size := cur.size + next.size }) h1 h3

theorem growT_pos {A B : List Block} {cur next : Block} {size : Nat} (total : Nat)
    (mallocOk : Bool) (hp : ∀ b ∈ A ++ cur :: next :: B, 0 < b.size) (hsz : 0 < size)
    (htot : size ≤ total) : ∀ b ∈ A ++ growT cur total size mallocOk ++ B, 0 < b.size := by
  intro b hb
  simp only [List.mem_append] at hb
  rcases hb with (hb | hb) | hb
  · exact hp b (by simp [hb])
  · unfold growT at hb
    by_cases hg : total > size ∧ mallocOk = true
    · simp only [hg, and_self, if_true, List.mem_cons, List.mem_singleton, List.not_mem_nil,
        or_false] at hb
      rcases hb with rfl | rfl
      · exact hsz
      · simp only; omega
    · simp only [hg, if_false, List.mem_singleton] at hb
      subst hb
      simp only; omega
  · exact hp b (by simp [hb])

theorem growT_chain {A B : List Block} {cur next : Block} (total size : Nat)
    (mallocOk : Bool) (hc : List.Chain' notBothFree (A ++ cur :: next :: B))
    (hcur : cur.free = false) (hnext : next.free = true) :
    List.Chain' notBothFree (A ++ growT cur total size mallocOk ++ B) := by
  rw [List.chain'_split, List.chain'_cons] at hc
  obtain ⟨h1, _, h3⟩ := hc
  unfold growT
  by_cases hg : total > size ∧ mallocOk = true
  · simp only [hg, and_self, if_true, List.append_assoc, List.cons_append, List.nil_append]
    rw [List.chain'_split, List.chain'_cons]
    exact ⟨nbf_last_mono (fun h => by simp [hcur] at h) h1, fun h => by simp [hcur] at h,
      nbf_head_mono (fun _ => hnext) h3⟩
  · simp only [hg, if_false, List.append_assoc, List.cons_append, List.nil_append]
    rw [List.chain'_split]
    exact ⟨nbf_last_mono (fun h => by simp [hcur] at h) h1,
      nbf_head_mono (fun _ => hnext) h3⟩

/-- In a state satisfying the invariants every block is the first one with its offset. -/
theorem inv_first {N : Nat} {s : MemState} (hinv : Inv N s) {A B : List Block} {cur : Block}
    (ht : table s = A ++ cur :: B) : ∀ b ∈ A, b.offset ≠ cur.offset := by
  have h := hinv.tiles
  rw [ht] at h
  obtain ⟨h1, _, _, _⟩ := tilesFrom_split h
  intro b hb
  have := tilesFrom_offset_lt A 0 cur.offset h1
    (fun b hb => hinv.pos b (by rw [ht]; simp [hb])) b hb
  omega

/-- The invariants do not depend on the pool contents. -/
theorem inv_pool {N : Nat} {s : MemState} (hinv : Inv N s) (p : List UInt8) :
    Inv N { s with memoryPool := p } :=
  ⟨hinv.storage, hinv.tiles, hinv.pos, hinv.noAdj, hinv.bound⟩

theorem inv_init {N : Nat} (arena : List UInt8) (hpos : 0 < N) (hN : N < SIZE_MOD) :
    Inv N (mem_init N arena) := by
  refine ⟨⟨rfl, Nat.le_refl _⟩, ?_, ?_, ?_, hN⟩
  · exact ⟨rfl, by simp [tilesFrom]⟩
  · intro b hb
    simp [table, mem_init] at hb
    subst hb
    exact hpos
  · exact List.chain'_singleton _

theorem inv_alloc {N : Nat} {s : MemState} (hinv : Inv N s) {size : Nat} (hsz : 0 < size) :
    ∃ s1 r, mem_alloc s size = some (s1, r) ∧ Inv N s1 ∧
      s1.memoryPool = s.memoryPool ∧ (r = none → s1 = s) ∧
      (∀ b ∈ table s, b.free = false → b ∈ table s1) := by
  rcases mem_alloc_cases hinv.storage size with ⟨h1, _⟩ | ⟨A, cur, B, h1, h2, h3, _⟩
  · exact ⟨s, none, h1, hinv, rfl, fun _ => rfl, fun b hb _ => hb⟩
  · obtain ⟨s1, e1, e2, e3, e4⟩ := mem_alloc_found hinv.storage h1 h2 h3
    obtain ⟨hfree, hle⟩ := (fits_iff size cur).mp h2
    refine ⟨s1, some cur.offset, e1, ⟨e2, ?_, ?_, ?_, hinv.bound⟩, e3,
      fun h => (by cases h), fun b hb hbf => ?_⟩
    · rw [e4]; exact allocT_tiles (by rw [← h1]; exact hinv.tiles) hinv.bound
    · rw [e4]; exact allocT_pos (by rw [← h1]; exact hinv.pos) hsz
    · rw [e4]; exact allocT_chain (by rw [← h1]; exact hinv.noAdj) hfree
    · rw [h1] at hb
      rw [e4]
      simp only [List.mem_append, List.mem_cons] at hb ⊢
      rcases hb with hb | rfl | hb
      · exact Or.inl (Or.inl hb)
      · rw [hfree] at hbf; cases hbf
      · exact Or.inr hb

theorem inv_free {N : Nat} {s : MemState} (hinv : Inv N s) {h : Nat}
    (hlive : ∃ b ∈ table s, b.offset = h) :
    ∃ s1, mem_free s h = some s1 ∧ Inv N s1 ∧ s1.memoryPool = s.memoryPool := by
  obtain ⟨cur, hmem, rfl⟩ := hlive
  obtain ⟨A, B, ht⟩ := List.append_of_mem hmem
  obtain ⟨s1, e1, e2, e3, _, e5⟩ := mem_free_spec hinv.storage ht (inv_first hinv ht)
  refine ⟨s1, e1, ⟨e2, ?_, ?_, ?_, hinv.bound⟩, e3⟩
  · rw [e5]; exact coalesceT_tiles (by rw [← ht]; exact hinv.tiles) hinv.bound
  · rw [e5]
    exact coalesceT_pos (by rw [← ht]; exact hinv.tiles) hinv.bound
      (by rw [← ht]; exact hinv.pos)
  · rw [e5]; exact coalesceT_chain (by rw [← ht]; exact hinv.noAdj)

theorem inv_relocate {N : Nat} {s : MemState} (hinv : Inv N s) {cur : Block} {size : Nat}
    (hmem : cur ∈ table s) (hfree : cur.free = false) (hsz : 0 < size) :
    ∃ s1 r, relocate s cur.offset cur size = some (s1, r) ∧ Inv N s1 := by
  obtain ⟨s1, r, e1, hinv1, _, _, hkeep⟩ := inv_alloc hinv hsz
  cases r with
  | none => exact ⟨s1, none, by simp [relocate, e1], hinv1⟩
  | some np =>
    obtain ⟨s2, e2, hinv2, _⟩ := inv_free
      (inv_pool hinv1 (memcpyPool s1.memoryPool np cur.offset cur.size))
      ⟨cur, hkeep cur hmem hfree, rfl⟩
    exact ⟨s2, some np, by simp [relocate, e1, e2], hinv2⟩

theorem inv_resize {N : Nat} {s : MemState} (hinv : Inv N s) {h size : Nat}
    (mallocOk : Bool) (hlive : liveHandle s h) (hsz : 0 < size) :
    ∃ s1 r, mem_resize s h size mallocOk = some (s1, r) ∧ Inv N s1 := by
  obtain ⟨cur, hmem, rfl, hfree⟩ := hlive
  obtain ⟨A, B, ht⟩ := List.append_of_mem hmem
  have hfirst := inv_first hinv ht
  by_cases hle : size ≤ cur.size
  · exact ⟨s, some cur.offset, mem_resize_noop size mallocOk hinv.storage ht hfirst hle, hinv⟩
  · have hlt : cur.size < size := Nat.lt_of_not_le hle
    by_cases hgrow : ∃ next B1, B = next :: B1 ∧ next.free = true ∧
        size ≤ szAdd cur.size next.size
    · obtain ⟨next, B1, rfl, hnf, htot⟩ := hgrow
      rw [mem_resize_grow size mallocOk hinv.storage ht hfirst hlt hnf htot]
      obtain ⟨s1, e1, e2, _, e4⟩ :=
        growInPlace_spec (szAdd cur.size next.size) size mallocOk hinv.storage ht
      have htiles := hinv.tiles
      have hpos := hinv.pos
      have hchain := hinv.noAdj
      rw [ht] at htiles hpos hchain
      refine ⟨s1, _, e1, ⟨e2, ?_, ?_, ?_, hinv.bound⟩⟩
      · rw [e4]; exact (growT_tiles mallocOk htiles hinv.bound).2
      · rw [e4]; exact growT_pos _ mallocOk hpos hsz htot
      · rw [e4]; exact growT_chain _ size mallocOk hchain hfree hnf
    · rw [mem_resize_relocate size mallocOk hinv.storage ht hfirst hlt]
      · exact inv_relocate hinv hmem hfree hsz
      · intro next B1 hB
        by_cases hnf : next.free = true
        · right
          by_contra hcon
          exact hgrow ⟨next, B1, hB, hnf, Nat.le_of_not_lt hcon⟩
        · left; simpa using hnf

/-- Calls made within their contract are defined and keep the invariants. -/
theorem inv_run {N : Nat} : ∀ (ops : List Op) (s : MemState), Inv N s →
    allInContract s ops → ∃ s1, run s ops = some s1 ∧ Inv N s1 := by
  intro ops
  induction ops with
  | nil => intro s hinv _; exact ⟨s, rfl, hinv⟩
  | cons op ops ih =>
    intro s hinv hc
    obtain ⟨hop, hrest⟩ := hc
    have hstep : ∃ s1, step s op = some s1 ∧ Inv N s1 := by
      cases op with
      | alloc size =>
        obtain ⟨s1, r, e1, hinv1, _⟩ := inv_alloc hinv (show 0 < size from hop)
        exact ⟨s1, by simp [step, e1], hinv1⟩
      | free h =>
        obtain ⟨b, hb, hoff, _⟩ := hop
        obtain ⟨s1, e1, hinv1, _⟩ := inv_free hinv ⟨b, hb, hoff⟩
        exact ⟨s1, e1, hinv1⟩
      | resize h size mallocOk =>
        obtain ⟨s1, r, e1, hinv1⟩ := inv_resize hinv mallocOk hop.1 hop.2
        exact ⟨s1, by simp [step, e1], hinv1⟩
    obtain ⟨s1, e1, hinv1⟩ := hstep
    obtain ⟨s2, e2, hinv2⟩ := ih s1 hinv1 (hrest s1 e1)
    exact ⟨s2, by simp [run, e1, e2], hinv2⟩

/-! ## The invariants in the words of the specification -/

theorem pairs_cons (R : Block → Block → Prop) (x y : Block) (t : List Block) :
    (∀ i b c, (x :: y :: t)[i]? = some b → (x :: y :: t)[i + 1]? = some c → R b c) ↔
      R x y ∧ ∀ i b c, (y :: t)[i]? = some b → (y :: t)[i + 1]? = some c → R b c := by
  constructor
  · intro h
    exact ⟨h 0 x y (by simp) (by simp),
      fun i b c hb hc => h (i + 1) b c (by simpa using hb) (by simpa using hc)⟩
  · rintro ⟨h1, h2⟩ i b c hb hc
    cases i with
    | zero =>
      simp only [List.getElem?_cons_zero, Option.some.injEq, List.getElem?_cons_succ,
        Nat.zero_add] at hb hc
      subst hb hc
      exact h1
    | succ i => exact h2 i b c (by simpa using hb) (by simpa using hc)

theorem chain_iff_pairs (R : Block → Block → Prop) : ∀ t : List Block,
    List.Chain' R t ↔ ∀ i b c, t[i]? = some b → t[i + 1]? = some c → R b c := by
  intro t
  induction t with
  | nil => simp
  | cons x t ih =>
    cases t with
    | nil =>
      simp only [List.chain'_singleton, true_iff]
      intro i b c _ hc
      simp at hc
    | cons y t => rw [List.chain'_cons, pairs_cons, ih]

theorem tilesFrom_iff_pairs : ∀ (t : List Block) (x : Block) (a c : Nat),
    tilesFrom a (x :: t) c ↔ x.offset = a ∧
      (∀ i b d, (x :: t)[i]? = some b → (x :: t)[i + 1]? = some d →
        b.offset + b.size = d.offset) ∧
      ∃ l, (x :: t).getLast? = some l ∧ l.offset + l.size = c := by
  intro t
  induction t with
  | nil =>
    intro x a c
    rw [tilesFrom_cons, tilesFrom_nil]
    constructor
    · rintro ⟨h1, h2⟩
      exact ⟨h1, fun i b d _ hd => by simp at hd, x, rfl, by omega⟩
    · rintro ⟨h1, _, l, hl, h3⟩
      simp at hl
      subst hl
      exact ⟨h1, by omega⟩
  | cons y t ih =>
    intro x a c
    rw [tilesFrom_cons, ih, pairs_cons]
    have hlast : (x :: y :: t).getLast? = (y :: t).getLast? := by simp [List.getLast?_cons_cons]
    rw [hlast]
    constructor
    · rintro ⟨h1, h2, h3, h4⟩
      exact ⟨h1, ⟨by omega, h3⟩, h4⟩
    · rintro ⟨h1, ⟨h2, h3⟩, h4⟩
      exact ⟨h1, by omega, h3, h4⟩

/-- The recursive tiling predicate and the wording of the specification agree. -/
theorem partition_iff (N : Nat) (t : List Block) :
    Partition N t ↔ t ≠ [] ∧ tilesFrom 0 t N := by
  cases t with
  | nil =>
    constructor
    · rintro ⟨⟨b, hb, _⟩, _⟩; simp at hb
    · rintro ⟨h, _⟩; exact absurd rfl h
  | cons x t =>
    rw [tilesFrom_iff_pairs]
    unfold Partition
    constructor
    · rintro ⟨⟨b, hb, h0⟩, h2, h3⟩
      simp at hb
      subst hb
      exact ⟨by simp, h0, h2, h3⟩
    · rintro ⟨_, h0, h2, h3⟩
      exact ⟨⟨x, by simp, h0⟩, h2, h3⟩

theorem noAdjFree_iff (t : List Block) : NoAdjFree t ↔ List.Chain' notBothFree t :=
  (chain_iff_pairs notBothFree t).symm

/-- With an empty pool no call within its contract changes the state. -/
theorem run_init_zero (arena : List UInt8) : ∀ ops : List Op,
    allInContract (mem_init 0 arena) ops →
    run (mem_init 0 arena) ops = some (mem_init 0 arena) := by
  intro ops
  induction ops with
  | nil => intro _; rfl
  | cons op ops ih =>
    rintro ⟨hop, hrest⟩
    have hstep : step (mem_init 0 arena) op = some (mem_init 0 arena) := by
      cases op with
      | alloc size =>
        have hsz : 0 < size := hop
        have hno : ¬ (0 ≥ size) := by omega
        simp [step, mem_alloc, allocLoop, mem_init, readAt, hno]
      | free h =>
        obtain ⟨b, hb, _, hf⟩ := hop
        simp [table, mem_init] at hb
        subst hb
        cases hf
      | resize h size mallocOk =>
        obtain ⟨⟨b, hb, _, hf⟩, _⟩ := hop
        simp [table, mem_init] at hb
        subst hb
        cases hf
    simp only [run, hstep]
    exact ih (hrest _ hstep)

/-! ## Claims -/

/-- C1. Partition invariant: after `mem_init(N)` with `N > 0` and any finite sequence of
`mem_alloc(size > 0)`, `mem_free(h)` and `mem_resize(h, new_size > 0)` calls whose handles
address the start of a currently allocated block, every call is defined and the block table
tiles `[0, N)`: the first block has offset 0, each block ends where the next one starts, and
the last block ends at `N`. -/
theorem partition_invariant (N : Nat) (arena : List UInt8) (ops : List Op) (hpos : 0 < N)
    (hN : N < SIZE_MOD) (hc : allInContract (mem_init N arena) ops) :
    ∃ s, run (mem_init N arena) ops = some s ∧ Partition N (table s) := by
  obtain ⟨s, hrun, hinv⟩ := inv_run ops _ (inv_init arena hpos hN) hc
  refine ⟨s, hrun, (partition_iff N (table s)).mpr ⟨?_, hinv.tiles⟩⟩
  intro hnil
  have h := hinv.tiles
  rw [hnil] at h
  have : 0 = N := h
  omega

theorem partition_invariant_witness :
    (0 < 100 ∧ 100 < SIZE_MOD ∧
      allInContract (mem_init 100 (List.replicate 100 0))
        [.alloc 30, .alloc 20, .free 0, .resize 30 40 true, .alloc 10, .free 30]) ∧
    ∃ s, run (mem_init 100 (List.replicate 100 0))
        [.alloc 30, .alloc 20, .free 0, .resize 30 40 true, .alloc 10, .free 30] = some s ∧
      Partition 100 (table s) :=
  ⟨⟨by decide, by decide, by decide⟩,
    partition_invariant 100 (List.replicate 100 0) _ (by decide) (by decide) (by decide)⟩

/-- C2. No-adjacent-free invariant: starting from `mem_init(N)`, after every `mem_free`,
`mem_alloc` and `mem_resize` call made within its contract, no two consecutive entries of the
block table are both free. -/
theorem no_adjacent_free (N : Nat) (arena : List UInt8) (ops : List Op) (hN : N < SIZE_MOD)
    (hc : allInContract (mem_init N arena) ops) :
    ∃ s, run (mem_init N arena) ops = some s ∧ NoAdjFree (table s) := by
  rcases Nat.eq_zero_or_pos N with h0 | hpos
  · subst h0
    refine ⟨_, run_init_zero arena ops hc, ?_⟩
    intro i b c _ hc1
    simp [table, mem_init] at hc1
  · obtain ⟨s, hrun, hinv⟩ := inv_run ops _ (inv_init arena hpos hN) hc
    exact ⟨s, hrun, (noAdjFree_iff _).mpr hinv.noAdj⟩

theorem no_adjacent_free_witness :
    (100 < SIZE_MOD ∧
      allInContract (mem_init 100 (List.replicate 100 0))
        [.alloc 30, .alloc 20, .alloc 10, .free 30, .free 0, .resize 50 20 false]) ∧
    ∃ s, run (mem_init 100 (List.replicate 100 0))
        [.alloc 30, .alloc 20, .alloc 10, .free 30, .free 0, .resize 50 20 false] = some s ∧
      NoAdjFree (table s) :=
  ⟨⟨by decide, by decide⟩, no_adjacent_free 100 (List.replicate 100 0) _ (by decide) (by decide)⟩

/-- Membership of the prefix before an index, read back as an index. -/
theorem mem_take_index {t : List Block} {i : Nat} {b : Block} (hb : b ∈ t.take i) :
    ∃ j, j < i ∧ t[j]? = some b := by
  obtain ⟨j, hj⟩ := List.getElem?_of_mem hb
  rw [List.getElem?_take] at hj
  by_cases hji : j < i
  · rw [if_pos hji] at hj; exact ⟨j, hji, hj⟩
  · rw [if_neg hji] at hj; cases hj

/-- An entry before index `A.length` of `A ++ x :: B` is a member of `A`. -/
theorem mem_of_index_lt {A B : List Block} {x c : Block} {j : Nat} (hj : j < A.length)
    (hc : (A ++ x :: B)[j]? = some c) : c ∈ A := by
  rw [List.getElem?_append_left hj] at hc
  exact List.getElem?_mem hc

/-- C3. First-fit selection: for every table state and every size, if `mem_alloc(size)`
succeeds then the returned handle is the offset of the lowest-index block that was free with
`block.size >= size` before the call, every free block at a smaller index having
`size < size`.  In particular, after `init(100)`, `alloc(30)`, `alloc(20)` and the release of
the first handle, a further `alloc(30)` returns offset 0. -/
theorem first_fit :
    (∀ (s s1 : MemState) (size h : Nat), StorageOk s →
      mem_alloc s size = some (s1, some h) →
      ∃ (i : Nat) (b : Block), (table s)[i]? = some b ∧ b.free = true ∧ size ≤ b.size ∧ h = b.offset ∧
        ∀ (j : Nat) (c : Block), j < i → (table s)[j]? = some c → c.free = true → c.size < size) ∧
    (∀ arena : List UInt8, ∃ s1 a s2 b s3 s4,
      mem_alloc (mem_init 100 arena) 30 = some (s1, some a) ∧
      mem_alloc s1 20 = some (s2, some b) ∧
      mem_free s2 a = some s3 ∧
      mem_alloc s3 30 = some (s4, some 0)) := by
  constructor
  · intro s s1 size h hs hres
    rcases mem_alloc_cases hs size with ⟨h1, _⟩ | ⟨A, cur, B, h1, h2, h3, _⟩
    · rw [h1] at hres; cases hres
    · obtain ⟨s2, e1, _⟩ := mem_alloc_found hs h1 h2 h3
      rw [e1] at hres
      have hh : cur.offset = h := by simpa using congrArg Prod.snd (Option.some.inj hres)
      obtain ⟨hfree, hle⟩ := (fits_iff size cur).mp h2
      refine ⟨A.length, cur, by rw [h1]; exact append_cons_getElem?, hfree, hle, hh.symm,
        fun j c hj hc hcf => ?_⟩
      rw [h1] at hc
      have hnf := h3 c (mem_of_index_lt hj hc)
      by_contra hcon
      have : fits size c = true := (fits_iff size c).mpr ⟨hcf, Nat.le_of_not_lt hcon⟩
      rw [hnf] at this
      cases this
  · intro arena
    exact ⟨_, _, _, _, _, _, rfl, rfl, rfl, rfl⟩

theorem first_fit_witness :
    StorageOk (mem_init 100 (List.replicate 100 0)) ∧
    ∃ (i : Nat) (b : Block), (table (mem_init 100 (List.replicate 100 0)))[i]? = some b ∧ b.free = true ∧
      30 ≤ b.size ∧ 0 = b.offset ∧
      ∀ (j : Nat) (c : Block), j < i → (table (mem_init 100 (List.replicate 100 0)))[j]? = some c →
        c.free = true → c.size < 30 :=
  ⟨by decide, first_fit.1 (mem_init 100 (List.replicate 100 0)) _ 30 0 (by decide) rfl⟩

/-- C4. Split postcondition of `mem_alloc`: when the selected (first fitting) free block at
index `i` has `old_size > size`, the table gains exactly one entry, entry `i` becomes
`(old_offset, size, not free)`, entry `i + 1` becomes `(old_offset + size, old_size - size,
free)` and all other entries keep their values and order; when `old_size == size` the
table length is unchanged and only the free flag of entry `i` changes. -/
theorem alloc_split_post (s : MemState) (size i : Nat) (cur : Block) (hs : StorageOk s)
    (hi : (table s)[i]? = some cur) (hfree : cur.free = true) (hle : size ≤ cur.size)
    (hfirst : ∀ (j : Nat) (c : Block), j < i → (table s)[j]? = some c →
      ¬ (c.free = true ∧ size ≤ c.size))
    (hov : cur.offset + cur.size < SIZE_MOD) :
    ∃ s1, mem_alloc s size = some (s1, some cur.offset) ∧
      (size < cur.size →
        (table s1).length = (table s).length + 1 ∧
        table s1 = (table s).take i ++
          { offset := cur.offset, size := size, free := false } ::
          { offset := cur.offset + size, size := cur.size - size, free := true } ::
          (table s).drop (i + 1)) ∧
      (cur.size = size →
        (table s1).length = (table s).length ∧
        table s1 = (table s).set i { offset := cur.offset, size := cur.size, free := false }) := by
  obtain ⟨hsplit, hlen⟩ := split_at_index hi
  have hA : ∀ b ∈ (table s).take i, fits size b = false := by
    intro b hb
    obtain ⟨j, hj, hjb⟩ := mem_take_index hb
    have := hfirst j b hj hjb
    rw [← fits_iff] at this
    simpa using this
  obtain ⟨s1, e1, _, _, e4⟩ :=
    mem_alloc_found hs hsplit ((fits_iff size cur).mpr ⟨hfree, hle⟩) hA
  have hilt : i < (table s).length := (List.getElem?_eq_some.mp hi).1
  have hdrop : ((table s).drop (i + 1)).length = (table s).length - (i + 1) := by simp
  refine ⟨s1, e1, fun hlt => ?_, fun heq => ?_⟩
  · have hadd : szAdd cur.offset size = cur.offset + size := szAdd_eq (by omega)
    have e5 : table s1 = (table s).take i ++
        { offset := cur.offset, size := size, free := false } ::
        { offset := cur.offset + size, size := cur.size - size, free := true } ::
        (table s).drop (i + 1) := by
      rw [e4]; simp [allocT, hlt, hadd]
    refine ⟨?_, e5⟩
    rw [e5]
    simp only [List.length_append, List.length_cons, hlen, hdrop]
    omega
  · have hnlt : ¬ size < cur.size := by omega
    have e5 : table s1 =
        (table s).set i { offset := cur.offset, size := cur.size, free := false } := by
      rw [e4, List.set_eq_take_cons_drop _ hilt]; simp [allocT, hnlt]
    exact ⟨by rw [e5, List.length_set], e5⟩

theorem alloc_split_post_witness :
    (StorageOk (mem_init 100 (List.replicate 100 0)) ∧
      (table (mem_init 100 (List.replicate 100 0)))[0]? = some ⟨0, 100, true⟩ ∧
      (0 : Nat) + 100 < SIZE_MOD) ∧
    ∃ s1, mem_alloc (mem_init 100 (List.replicate 100 0)) 30 = some (s1, some 0) ∧
      (30 < 100 →
        (table s1).length = (table (mem_init 100 (List.replicate 100 0))).length + 1 ∧
        table s1 = (table (mem_init 100 (List.replicate 100 0))).take 0 ++
          { offset := 0, size := 30, free := false } ::
          { offset := 0 + 30, size := 100 - 30, free := true } ::
          (table (mem_init 100 (List.replicate 100 0))).drop (0 + 1)) ∧
      (100 = 30 →
        (table s1).length = (table (mem_init 100 (List.replicate 100 0))).length ∧
        table s1 = (table (mem_init 100 (List.replicate 100 0))).set 0
          { offset := 0, size := 100, free := false }) :=
  ⟨⟨by decide, by decide, by decide⟩,
    alloc_split_post (mem_init 100 (List.replicate 100 0)) 30 0 ⟨0, 100, true⟩ (by decide)
      (by decide) rfl (by decide) (fun j _ hj => absurd hj (Nat.not_lt_zero j)) (by decide)⟩

/-- C5. Allocation failure: `mem_alloc(size)` returns `NULL` if and only if no block of the
table is free with `block.size >= size`, and in that case the block table (entries, count,
capacity) and the pool contents are exactly as before the call. -/
theorem alloc_failure (s : MemState) (size : Nat) (hs : StorageOk s) :
    ∃ s1 r, mem_alloc s size = some (s1, r) ∧
      (r = none ↔ ∀ b ∈ table s, ¬ (b.free = true ∧ size ≤ b.size)) ∧
      (r = none → s1 = s) := by
  rcases mem_alloc_cases hs size with ⟨h1, h2⟩ | ⟨A, cur, B, h1, h2, h3, _⟩
  · refine ⟨s, none, h1, ⟨fun _ b hb => ?_, fun _ => rfl⟩, fun _ => rfl⟩
    have := h2 b hb
    rw [← fits_iff]
    simpa using this
  · obtain ⟨s1, e1, _⟩ := mem_alloc_found hs h1 h2 h3
    refine ⟨s1, some cur.offset, e1, ⟨fun h => (by cases h), fun h => ?_⟩,
      fun h => (by cases h)⟩
    exact absurd ((fits_iff size cur).mp h2) (h cur (by rw [h1]; simp))

theorem alloc_failure_witness :
    StorageOk (mem_init 100 (List.replicate 100 0)) ∧
    ∃ s1 r, mem_alloc (mem_init 100 (List.replicate 100 0)) 101 = some (s1, r) ∧
      (r = none ↔ ∀ b ∈ table (mem_init 100 (List.replicate 100 0)),
        ¬ (b.free = true ∧ 101 ≤ b.size)) ∧
      (r = none → s1 = mem_init 100 (List.replicate 100 0)) :=
  ⟨by decide, alloc_failure (mem_init 100 (List.replicate 100 0)) 101 (by decide)⟩

/-- Every block of a tiled table lies inside the tiled range. -/
theorem tilesFrom_mem_bounds {t : List Block} {a c : Nat} {x : Block}
    (h : tilesFrom a t c) (hx : x ∈ t) : a ≤ x.offset ∧ x.offset + x.size ≤ c := by
  obtain ⟨A, B, rfl⟩ := List.append_of_mem hx
  obtain ⟨_, _, h3, h4⟩ := tilesFrom_split h
  exact ⟨h3, h4⟩

/-- In a tiled table every other entry lies wholly before or wholly after a given one. -/
theorem tilesFrom_disjoint {A B : List Block} {x c : Block} {a e j : Nat}
    (h : tilesFrom a (A ++ x :: B) e) (hj : j ≠ A.length)
    (hc : (A ++ x :: B)[j]? = some c) :
    c.offset + c.size ≤ x.offset ∨ x.offset + x.size ≤ c.offset := by
  obtain ⟨h1, h2, _, _⟩ := tilesFrom_split h
  by_cases hlt : j < A.length
  · exact Or.inl (tilesFrom_mem_bounds h1 (mem_of_index_lt hlt hc)).2
  · have hge : A.length + 1 ≤ j := by omega
    rw [List.getElem?_append_right (by omega)] at hc
    obtain ⟨m, hm⟩ : ∃ m, j - A.length = m + 1 := ⟨j - A.length - 1, by omega⟩
    rw [hm, List.getElem?_cons_succ] at hc
    exact Or.inr (tilesFrom_mem_bounds h2 (List.getElem?_mem hc)).1

/-- C6. Allocation correctness: in every state reachable from `mem_init(N)` by in-contract
calls, a successful `mem_alloc(size)` with `size > 0` returns a handle whose block is
allocated with length `>= size` (in fact exactly `size`), lies inside `[0, N)`, and whose
byte range `[h, h + size)` is disjoint from the byte range of every other block that is
allocated at that moment. -/
theorem alloc_correct (N : Nat) (arena : List UInt8) (ops : List Op) (s s1 : MemState)
    (size h : Nat) (hpos : 0 < N) (hN : N < SIZE_MOD)
    (hc : allInContract (mem_init N arena) ops)
    (hrun : run (mem_init N arena) ops = some s) (hsz : 0 < size)
    (hres : mem_alloc s size = some (s1, some h)) :
    ∃ (i : Nat) (b : Block), (table s1)[i]? = some b ∧ b.offset = h ∧ b.free = false ∧
      size ≤ b.size ∧ b.size = size ∧ h + size ≤ N ∧
      ∀ (j : Nat) (c : Block), j ≠ i → (table s1)[j]? = some c → c.free = false →
        c.offset + c.size ≤ h ∨ h + size ≤ c.offset := by
  obtain ⟨s0, hrun0, hinv⟩ := inv_run ops _ (inv_init arena hpos hN) hc
  rw [hrun] at hrun0
  cases hrun0
  obtain ⟨s2, r, e1, hinv1, _⟩ := inv_alloc hinv hsz
  rw [hres] at e1
  cases e1
  rcases mem_alloc_cases hinv.storage size with ⟨h1, _⟩ | ⟨A, cur, B, h1, h2, h3, _⟩
  · rw [h1] at hres; cases hres
  · obtain ⟨s2, e1, _, _, e4⟩ := mem_alloc_found hinv.storage h1 h2 h3
    rw [hres] at e1
    cases e1
    obtain ⟨_, hle⟩ := (fits_iff size cur).mp h2
    have e5 : ∃ R, table s1 = A ++ { offset := cur.offset, size := size, free := false } :: R := by
      by_cases hlt : size < cur.size
      · exact ⟨{ offset := szAdd cur.offset size, size := cur.size - size, free := true } :: B,
          by rw [e4]; simp [allocT, hlt]⟩
      · have heq : cur.size = size := by omega
        exact ⟨B, by rw [e4]; simp [allocT, hlt, heq]⟩
    obtain ⟨R, e5⟩ := e5
    have htiles := hinv1.tiles
    rw [e5] at htiles
    obtain ⟨_, _, _, hend⟩ := tilesFrom_split htiles
    refine ⟨A.length, { offset := cur.offset, size := size, free := false },
      by rw [e5]; exact append_cons_getElem?, rfl, rfl, Nat.le_refl _, rfl,
      hend, fun j c hj hcj _ => ?_⟩
    rw [e5] at hcj
    exact tilesFrom_disjoint htiles hj hcj

theorem alloc_correct_witness :
    (0 < 100 ∧ 100 < SIZE_MOD ∧
      allInContract (mem_init 100 (List.replicate 100 0)) [.alloc 30, .alloc 20, .free 0] ∧
      (0 : Nat) < 10) ∧
    ∃ (i : Nat) (b : Block),
      (table
        { blockArray := [⟨0, 10, false⟩, ⟨10, 20, true⟩, ⟨30, 20, false⟩, ⟨50, 50, true⟩]
          blockCapacity := 4
          blockCount := 4
          memoryPool := List.replicate 100 0 })[i]? = some b ∧
      b.offset = 0 ∧ b.free = false ∧ 10 ≤ b.size ∧ b.size = 10 ∧ 0 + 10 ≤ 100 ∧
      ∀ (j : Nat) (c : Block), j ≠ i →
        (table
          { blockArray := [⟨0, 10, false⟩, ⟨10, 20, true⟩, ⟨30, 20, false⟩, ⟨50, 50, true⟩]
            blockCapacity := 4
            blockCount := 4
            memoryPool := List.replicate 100 0 })[j]? = some c →
        c.free = false → c.offset + c.size ≤ 0 ∨ 0 + 10 ≤ c.offset :=
  ⟨⟨by decide, by decide, by decide, by decide⟩,
    alloc_correct 100 (List.replicate 100 0) [.alloc 30, .alloc 20, .free 0] _ _ 10 0
      (by decide) (by decide) (by decide) rfl (by decide) rfl⟩

/-! ## Coalescing in index form -/

theorem freeNext_split (A B : List Block) (cur : Block) :
    freeNext (A ++ cur :: B) A.length =
      match B with
      | [] => none
      | next :: _ => if next.free then some next else none := by
  unfold freeNext
  rw [List.getElem?_append_right (Nat.le_add_right _ _)]
  have : A.length + 1 - A.length = 1 := by omega
  rw [this]
  cases B <;> simp

theorem freePrev_nil (B : List Block) (cur : Block) :
    freePrev (cur :: B) 0 = none := by
  simp [freePrev]

theorem freePrev_concat (A1 B : List Block) (prev cur : Block) :
    freePrev (A1 ++ prev :: cur :: B) (A1.length + 1) =
      if prev.free then some prev else none := by
  unfold freePrev
  have h1 : ¬ (A1.length + 1 = 0) := by omega
  have h2 : A1.length + 1 - 1 = A1.length := by omega
  rw [if_neg h1, h2, append_cons_getElem?]

theorem optCount_freePrev_le (t : List Block) (i : Nat) : optCount (freePrev t i) ≤ i := by
  unfold freePrev
  by_cases h : i = 0
  · simp [h, optCount]
  · rw [if_neg h]
    have : 1 ≤ i := by omega
    cases t[i - 1]? with
    | none => simp [optCount]
    | some b => by_cases hb : b.free = true <;> simp [hb, optCount, this]

theorem optCount_freeNext_le (t : List Block) (i : Nat) (hi : i < t.length) :
    i + 1 + optCount (freeNext t i) ≤ t.length := by
  unfold freeNext
  cases h : t[i + 1]? with
  | none => simp only [optCount]; omega
  | some b =>
    have := (List.getElem?_eq_some.mp h).1
    by_cases hb : b.free = true
    · simp only [if_pos hb, optCount]; omega
    · simp only [if_neg hb, optCount]; omega

/-- Stage one of the coalescing, in terms of the free successor. -/
theorem mergeNextT_eq (A B : List Block) (cur : Block) {N : Nat}
    (ht : tilesFrom (cur.offset + cur.size) B N) (hN : N < SIZE_MOD) :
    mergeNextT { cur with free := true } B =
      ({ offset := cur.offset,
         size := cur.size + optSize (freeNext (A ++ cur :: B) A.length),
         free := true },
       (A ++ cur :: B).drop (A.length + 1 + optCount (freeNext (A ++ cur :: B) A.length))) := by
  rw [freeNext_split]
  cases B with
  | nil => simp [mergeNextT, optSize, optCount]
  | cons next B1 =>
    by_cases hf : next.free = true
    · have hle := tilesFrom_le _ _ _ ht.2
      have hadd : szAdd cur.size next.size = cur.size + next.size := szAdd_eq (by omega)
      have hd : (A ++ cur :: next :: B1).drop (A.length + 1 + 1) = B1 := by
        have e : A ++ cur :: next :: B1 = (A ++ [cur]) ++ next :: B1 := by simp
        have l : A.length + 1 = (A ++ [cur]).length := by simp
        rw [e, l, drop_succ_append_cons]
      rw [mergeNextT_free _ B1 hf]
      simp only [if_pos hf, optSize, optCount, hadd, hd]
    · rw [mergeNextT_used _ B1 hf]
      simp only [if_neg hf, optSize, optCount, Nat.add_zero, drop_succ_append_cons]

/-- Stage two of the coalescing, in terms of the free predecessor. -/
theorem mergePrevT_eq (A B B1 : List Block) (c1 cur : Block) {N : Nat}
    (hoff : c1.offset = cur.offset) (hfree : c1.free = true)
    (ht : tilesFrom 0 (A ++ c1 :: B1) N) (hN : N < SIZE_MOD) :
    mergePrevT A c1 =
      (A ++ cur :: B).take (A.length - optCount (freePrev (A ++ cur :: B) A.length)) ++
        [{ offset := ((freePrev (A ++ cur :: B) A.length).getD cur).offset,
           size := optSize (freePrev (A ++ cur :: B) A.length) + c1.size,
           free := true }] := by
  rcases List.eq_nil_or_concat A with hnil | ⟨A1, prev, hA1⟩
  · subst hnil
    simp only [List.nil_append, List.length_nil, freePrev_nil, optCount, optSize,
      Option.getD_none, Nat.zero_add, Nat.sub_zero, List.take_zero, mergePrevT_nil]
    rw [← hoff, ← hfree]
  · rw [List.concat_eq_append] at hA1
    subst hA1
    have e : A1 ++ [prev] ++ cur :: B = A1 ++ prev :: cur :: B := by simp
    have l : (A1 ++ [prev]).length = A1.length + 1 := by simp
    rw [e, l, freePrev_concat]
    by_cases hf : prev.free = true
    · have ht' : tilesFrom 0 (A1 ++ prev :: c1 :: B1) N := by simpa using ht
      obtain ⟨_, g2, _, _⟩ := tilesFrom_split ht'
      have hle := tilesFrom_le _ _ _ g2.2
      have hadd : szAdd prev.size c1.size = prev.size + c1.size := szAdd_eq (by omega)
      have htake : (A1 ++ prev :: cur :: B).take A1.length = A1 := by simp
      rw [mergePrevT_free A1 _ hf, if_pos hf]
      simp only [hf, optCount, optSize, Option.getD_some, Nat.add_sub_cancel, hadd,
        htake]
    · rw [mergePrevT_used A1 _ hf, if_neg hf]
      simp only [optCount, optSize, Option.getD_none, Nat.sub_zero, Nat.zero_add]
      have htake : (A1 ++ prev :: cur :: B).take (A1.length + 1) = A1 ++ [prev] :=
        take_succ_append_cons A1 (cur :: B) prev
      rw [htake, ← hoff, ← hfree]
      simp

/-- The table after `mem_free`, for a table split around the freed block. -/
theorem coalesceT_eq (A B : List Block) (cur : Block) {N : Nat}
    (ht : tilesFrom 0 (A ++ cur :: B) N) (hN : N < SIZE_MOD) :
    coalesceT A cur B =
      (A ++ cur :: B).take (A.length - optCount (freePrev (A ++ cur :: B) A.length)) ++
        { offset := ((freePrev (A ++ cur :: B) A.length).getD cur).offset,
          size := optSize (freePrev (A ++ cur :: B) A.length) + cur.size +
            optSize (freeNext (A ++ cur :: B) A.length),
          free := true } ::
        (A ++ cur :: B).drop (A.length + 1 + optCount (freeNext (A ++ cur :: B) A.length)) := by
  obtain ⟨h1, h2, _, _⟩ := tilesFrom_split ht
  obtain ⟨e1, e2, _, e4⟩ := mergeNextT_tiles { cur with free := true } h2 hN
  have hjoin : tilesFrom 0 (A ++ (mergeNextT { cur with free := true } B).1 ::
      (mergeNextT { cur with free := true } B).2) N :=
    tilesFrom_join (by rw [e1]; exact h1) e4
  unfold coalesceT
  rw [mergePrevT_eq A B _ _ cur e1 e2 hjoin hN, mergeNextT_eq A B cur h2 hN]
  simp only [List.append_assoc, List.singleton_append, Nat.add_assoc]

/-- In a tiled table of positive blocks, a block is the first entry with its offset. -/
theorem first_of_tiles {A B : List Block} {cur : Block} {a e : Nat}
    (ht : tilesFrom a (A ++ cur :: B) e) (hp : ∀ b ∈ A, 0 < b.size) :
    ∀ b ∈ A, b.offset ≠ cur.offset := by
  obtain ⟨h1, _, _, _⟩ := tilesFrom_split ht
  intro b hb
  have := tilesFrom_offset_lt A a cur.offset h1 hp b hb
  omega

/-- In a partitioned table of positive blocks, the block at index `i` is the first entry
with its offset: the lookup of its handle finds it. -/
theorem first_of_partition {N : Nat} {t : List Block} {i : Nat} {cur : Block}
    (hpart : Partition N t) (hpos : ∀ b ∈ t, 0 < b.size) (hi : t[i]? = some cur) :
    ∀ b ∈ t.take i, b.offset ≠ cur.offset := by
  obtain ⟨hsplit, _⟩ := split_at_index hi
  have htiles : tilesFrom 0 (t.take i ++ cur :: t.drop (i + 1)) N := by
    rw [← hsplit]; exact ((partition_iff N _).mp hpart).2
  exact first_of_tiles htiles (fun b hb => hpos b (List.mem_of_mem_take hb))

/-- C7, as stated, fails: the table `(0, 0, allocated), (0, 100, allocated)`, which
`mem_init(100)`, `mem_alloc(0)`, `mem_alloc(100)` produce, satisfies the partition invariant
and the handle 0 addresses the allocated block at index 1; `mem_free(0)` resolves the handle
to the empty block at index 0, so afterwards block 1 is still allocated and the table holds
no free block with the byte range of block 1. -/
theorem free_coalesces_counterexample :
    mem_alloc (mem_init 100 (List.replicate 100 0)) 0 =
        some (⟨[⟨0, 0, false⟩, ⟨0, 100, true⟩], 2, 2, List.replicate 100 0⟩, some 0) ∧
      mem_alloc ⟨[⟨0, 0, false⟩, ⟨0, 100, true⟩], 2, 2, List.replicate 100 0⟩ 100 =
        some (⟨[⟨0, 0, false⟩, ⟨0, 100, false⟩], 2, 2, List.replicate 100 0⟩, some 0) ∧
      Partition 100 (table ⟨[⟨0, 0, false⟩, ⟨0, 100, false⟩], 2, 2, List.replicate 100 0⟩) ∧
      (table ⟨[⟨0, 0, false⟩, ⟨0, 100, false⟩], 2, 2, List.replicate 100 0⟩)[1]? =
        some ⟨0, 100, false⟩ ∧
      mem_free ⟨[⟨0, 0, false⟩, ⟨0, 100, false⟩], 2, 2, List.replicate 100 0⟩ 0 =
        some ⟨[⟨0, 0, true⟩, ⟨0, 100, false⟩], 2, 2, List.replicate 100 0⟩ ∧
      ¬ ∃ b ∈ table ⟨[⟨0, 0, true⟩, ⟨0, 100, false⟩], 2, 2, List.replicate 100 0⟩,
          b.free = true ∧ b.offset = 0 ∧ b.size = 100 :=
  ⟨by decide, by decide, (partition_iff _ _).mpr (by decide), by decide, by decide, by decide⟩

/-- C7, amended. Release coalescing: for every table satisfying the partition invariant in
which every block has `size > 0`, and every handle `h` addressing the block at index `i`,
after `mem_free(h)` the table holds a single free block in place of block `i`, its
immediately following entry (if that entry existed and was free) and its immediately
preceding entry (if that entry existed and was free): it starts where the earliest of them
started and its size is the sum of their sizes.  Both merges are performed when both
neighbours are free, the table shrinks by exactly the number of free neighbours and all other
entries are unchanged.  The free flag of block `i` itself is not consulted. -/
theorem free_coalesces (N : Nat) (s : MemState) (i : Nat) (cur : Block) (hs : StorageOk s)
    (hN : N < SIZE_MOD) (hpart : Partition N (table s))
    (hpos : ∀ b ∈ table s, 0 < b.size) (hi : (table s)[i]? = some cur) :
    ∃ s1, mem_free s cur.offset = some s1 ∧ s1.memoryPool = s.memoryPool ∧
      table s1 =
        (table s).take (i - optCount (freePrev (table s) i)) ++
          { offset := ((freePrev (table s) i).getD cur).offset,
            size := optSize (freePrev (table s) i) + cur.size + optSize (freeNext (table s) i),
            free := true } ::
          (table s).drop (i + 1 + optCount (freeNext (table s) i)) ∧
      (table s1).length + optCount (freePrev (table s) i) + optCount (freeNext (table s) i) =
        (table s).length := by
  obtain ⟨hsplit, hlen⟩ := split_at_index hi
  have htiles : tilesFrom 0 ((table s).take i ++ cur :: (table s).drop (i + 1)) N := by
    rw [← hsplit]; exact ((partition_iff N _).mp hpart).2
  have hA := first_of_partition hpart hpos hi
  obtain ⟨s1, e1, _, e3, _, e5⟩ := mem_free_spec hs hsplit hA
  have e6 := coalesceT_eq _ _ cur htiles hN
  rw [hlen, ← hsplit] at e6
  rw [← e5] at e6
  refine ⟨s1, e1, e3, e6, ?_⟩
  have hilt : i < (table s).length := (List.getElem?_eq_some.mp hi).1
  have hp := optCount_freePrev_le (table s) i
  have hn := optCount_freeNext_le (table s) i hilt
  rw [e6]
  simp only [List.length_append, List.length_cons, List.length_take, List.length_drop]
  omega

theorem free_coalesces_witness :
    (StorageOk ⟨[⟨0, 30, true⟩, ⟨30, 20, false⟩, ⟨50, 50, true⟩, default], 4, 3, List.replicate 100 0⟩ ∧
      100 < SIZE_MOD ∧
      (∀ b ∈ table ⟨[⟨0, 30, true⟩, ⟨30, 20, false⟩, ⟨50, 50, true⟩, default], 4, 3,
        List.replicate 100 0⟩, 0 < b.size) ∧
      (table ⟨[⟨0, 30, true⟩, ⟨30, 20, false⟩, ⟨50, 50, true⟩, default], 4, 3,
        List.replicate 100 0⟩)[1]? = some ⟨30, 20, false⟩) ∧
    ∃ s1, mem_free ⟨[⟨0, 30, true⟩, ⟨30, 20, false⟩, ⟨50, 50, true⟩, default], 4, 3,
        List.replicate 100 0⟩ 30 = some s1 ∧
      s1.memoryPool = List.replicate 100 0 ∧
      table s1 = [⟨0, 100, true⟩] ∧ (table s1).length + 1 + 1 = 3 :=
  ⟨⟨by decide, by decide, by decide, by decide⟩,
    free_coalesces 100
      ⟨[⟨0, 30, true⟩, ⟨30, 20, false⟩, ⟨50, 50, true⟩, default], 4, 3, List.replicate 100 0⟩ 1
      ⟨30, 20, false⟩ (by decide) (by decide) ((partition_iff _ _).mpr (by decide)) (by decide)
      (by decide)⟩

/-- Index-form hypotheses about the first entry with a given offset, on the split table. -/
theorem first_of_index {t : List Block} {i : Nat} {cur : Block}
    (hfirst : ∀ (j : Nat) (c : Block), j < i → t[j]? = some c → c.offset ≠ cur.offset) :
    ∀ b ∈ t.take i, b.offset ≠ cur.offset := by
  intro b hb
  obtain ⟨j, hj, hjb⟩ := mem_take_index hb
  exact hfirst j b hj hjb

/-- C8, as stated, fails: in the table `(0, 0, allocated), (0, 100, allocated)`, which
`mem_init(100)`, `mem_alloc(0)`, `mem_alloc(100)` produce, the handle 0 addresses an allocated
block of size `100 >= 50`, yet `mem_resize(0, 50)` resolves the handle to the empty block at
index 0, finds no room to grow or relocate, and returns `NULL` instead of the handle. -/
theorem resize_noop_counterexample :
    mem_alloc (mem_init 100 (List.replicate 100 0)) 0 =
        some (⟨[⟨0, 0, false⟩, ⟨0, 100, true⟩], 2, 2, List.replicate 100 0⟩, some 0) ∧
      mem_alloc ⟨[⟨0, 0, false⟩, ⟨0, 100, true⟩], 2, 2, List.replicate 100 0⟩ 100 =
        some (⟨[⟨0, 0, false⟩, ⟨0, 100, false⟩], 2, 2, List.replicate 100 0⟩, some 0) ∧
      (∃ b ∈ table ⟨[⟨0, 0, false⟩, ⟨0, 100, false⟩], 2, 2, List.replicate 100 0⟩,
        b.offset = 0 ∧ b.free = false ∧ 50 ≤ b.size) ∧
      ∀ mallocOk : Bool,
        mem_resize ⟨[⟨0, 0, false⟩, ⟨0, 100, false⟩], 2, 2, List.replicate 100 0⟩ 0 50
            mallocOk =
          some (⟨[⟨0, 0, false⟩, ⟨0, 100, false⟩], 2, 2, List.replicate 100 0⟩, none) :=
  ⟨by decide, by decide, by decide, by decide⟩

/-- C8, amended. Resize no-op: in every table satisfying the partition invariant in which
every block has `size > 0`, for every handle `h` addressing a block whose current size is
`>= new_size`, `mem_resize(h, new_size)` returns `h` itself and leaves the block table and
the pool contents completely unchanged; the block is not shrunk. -/
theorem resize_noop (N : Nat) (s : MemState) (i : Nat) (cur : Block) (new_size : Nat)
    (mallocOk : Bool) (hs : StorageOk s) (hpart : Partition N (table s))
    (hpos : ∀ b ∈ table s, 0 < b.size) (hi : (table s)[i]? = some cur)
    (hsz : new_size ≤ cur.size) :
    mem_resize s cur.offset new_size mallocOk = some (s, some cur.offset) :=
  mem_resize_noop new_size mallocOk hs (split_at_index hi).1
    (first_of_partition hpart hpos hi) hsz

theorem resize_noop_witness :
    (StorageOk ⟨[⟨0, 30, false⟩, ⟨30, 70, true⟩], 2, 2, List.replicate 100 7⟩ ∧
      (∀ b ∈ table ⟨[⟨0, 30, false⟩, ⟨30, 70, true⟩], 2, 2, List.replicate 100 7⟩,
        0 < b.size) ∧
      (table ⟨[⟨0, 30, false⟩, ⟨30, 70, true⟩], 2, 2, List.replicate 100 7⟩)[0]? =
        some ⟨0, 30, false⟩ ∧
      10 ≤ 30) ∧
    mem_resize ⟨[⟨0, 30, false⟩, ⟨30, 70, true⟩], 2, 2, List.replicate 100 7⟩ 0 10 true =
      some (⟨[⟨0, 30, false⟩, ⟨30, 70, true⟩], 2, 2, List.replicate 100 7⟩, some 0) :=
  ⟨⟨by decide, by decide, by decide, by decide⟩,
    resize_noop 100 ⟨[⟨0, 30, false⟩, ⟨30, 70, true⟩], 2, 2, List.replicate 100 7⟩ 0
      ⟨0, 30, false⟩ 10 true (by decide) ((partition_iff _ _).mpr (by decide)) (by decide)
      (by decide) (by decide)⟩

/-- C9, as stated, fails in two ways.  When the `malloc` of the remainder record returns
`NULL`: in the state reached by `init(100)`, `alloc(30)`, the handle 0 addresses an allocated
block of size 30, entry 1 is free with size 70 and `30 + 70 >= 50`, yet `mem_resize(0, 50)`
returns `NULL` and leaves block 0 with size 100 instead of 50.  And when an empty block
shares the offset: in the table `(0, 0, allocated), (0, 30, allocated), (30, 70, free)`,
which `init(100)`, `alloc(0)`, `alloc(30)` produce, the handle 0 addresses the allocated
block at index 1 of size 30, entry 2 is free and `30 + 70 >= 50`, yet `mem_resize(0, 50)`,
with every `malloc` succeeding, resolves the handle to the empty block and relocates to
offset 30. -/
theorem resize_in_place_counterexample :
    (run (mem_init 100 (List.replicate 100 0)) [.alloc 30] =
        some ⟨[⟨0, 30, false⟩, ⟨30, 70, true⟩], 2, 2, List.replicate 100 0⟩ ∧
      mem_resize ⟨[⟨0, 30, false⟩, ⟨30, 70, true⟩], 2, 2, List.replicate 100 0⟩ 0 50 false =
        some (⟨[⟨0, 100, false⟩, ⟨30, 70, true⟩], 2, 1, List.replicate 100 0⟩, none) ∧
      ¬ ∃ s1, mem_resize ⟨[⟨0, 30, false⟩, ⟨30, 70, true⟩], 2, 2, List.replicate 100 0⟩
          0 50 false = some (s1, some 0)) ∧
    (run (mem_init 100 (List.replicate 100 0)) [.alloc 0, .alloc 30] =
        some ⟨[⟨0, 0, false⟩, ⟨0, 30, false⟩, ⟨30, 70, true⟩, default], 4, 3,
          List.replicate 100 0⟩ ∧
      (table ⟨[⟨0, 0, false⟩, ⟨0, 30, false⟩, ⟨30, 70, true⟩, default], 4, 3,
          List.replicate 100 0⟩)[1]? = some ⟨0, 30, false⟩ ∧
      (table ⟨[⟨0, 0, false⟩, ⟨0, 30, false⟩, ⟨30, 70, true⟩, default], 4, 3,
          List.replicate 100 0⟩)[1 + 1]? = some ⟨30, 70, true⟩ ∧
      ∃ s1, mem_resize ⟨[⟨0, 0, false⟩, ⟨0, 30, false⟩, ⟨30, 70, true⟩, default], 4, 3,
          List.replicate 100 0⟩ 0 50 true = some (s1, some 30) ∧
        table s1 = [⟨0, 0, true⟩, ⟨0, 30, false⟩, ⟨30, 50, false⟩, ⟨80, 20, true⟩]) := by
  refine ⟨⟨by decide, by decide, ?_⟩, by decide, by decide, by decide, ?_⟩
  · rintro ⟨s1, h⟩
    have h2 : mem_resize ⟨[⟨0, 30, false⟩, ⟨30, 70, true⟩], 2, 2, List.replicate 100 0⟩ 0 50
        false = some (⟨[⟨0, 100, false⟩, ⟨30, 70, true⟩], 2, 1, List.replicate 100 0⟩, none) := by
      decide
    rw [h2] at h
    cases h
  · exact ⟨⟨[⟨0, 0, true⟩, ⟨0, 30, false⟩, ⟨30, 50, false⟩, ⟨80, 20, true⟩], 4, 4,
      List.replicate 100 0⟩, by decide, by decide⟩

/-- C9, amended. Resize in-place growth: in every table satisfying the partition invariant
of a pool of `N` bytes (`N` a `size_t` value) in which every block has `size > 0`, for every
handle `h` addressing an allocated block at index `i` with `size < new_size`, if entry
`i + 1` exists, is free, and `current.size + next.size >= new_size`, and the record for the
remainder can be allocated (the `malloc` of line 159 succeeds) or no remainder is left, then
`mem_resize(h, new_size)` returns `h`, block `i` ends with size exactly `new_size` and still
allocated, the old next entry is removed, and if `current.size + next.size > new_size` a free
block `(offset + new_size, current.size + next.size - new_size)` is inserted at index
`i + 1`; the pool bytes are not modified. -/
theorem resize_in_place (N : Nat) (s : MemState) (i : Nat) (cur next : Block)
    (new_size : Nat) (mallocOk : Bool) (hs : StorageOk s) (hN : N < SIZE_MOD)
    (hpart : Partition N (table s)) (hpos : ∀ b ∈ table s, 0 < b.size)
    (hi : (table s)[i]? = some cur)
    (halloc : cur.free = false) (hnext : (table s)[i + 1]? = some next)
    (hfree : next.free = true) (hlt : cur.size < new_size)
    (hfit : new_size ≤ cur.size + next.size)
    (hmalloc : mallocOk = true ∨ cur.size + next.size = new_size) :
    ∃ s1, mem_resize s cur.offset new_size mallocOk = some (s1, some cur.offset) ∧
      s1.memoryPool = s.memoryPool ∧
      table s1 = (table s).take i ++
        { offset := cur.offset, size := new_size, free := false } ::
        ((if new_size < cur.size + next.size then
            [{ offset := cur.offset + new_size, size := cur.size + next.size - new_size,
               free := true }]
          else []) ++ (table s).drop (i + 2)) := by
  obtain ⟨hsplit, _⟩ := split_at_index hi
  obtain ⟨hi1, hn⟩ := List.getElem?_eq_some.mp hnext
  have hdrop : (table s).drop (i + 1) = next :: (table s).drop (i + 2) := by
    rw [List.drop_eq_getElem_cons hi1, hn]
  have ht : table s = (table s).take i ++ cur :: next :: (table s).drop (i + 2) := by
    rw [← hdrop]; exact hsplit
  have hA := first_of_partition hpart hpos hi
  have hov : cur.offset + cur.size + next.size < SIZE_MOD := by
    have htiles : tilesFrom 0 ((table s).take i ++ cur :: next :: (table s).drop (i + 2)) N := by
      rw [← ht]; exact ((partition_iff N _).mp hpart).2
    obtain ⟨_, h2, _, _⟩ := tilesFrom_split htiles
    rw [tilesFrom_cons] at h2
    have := tilesFrom_le _ _ _ h2.2
    omega
  have hadd : szAdd cur.size next.size = cur.size + next.size := szAdd_eq (by omega)
  have hadd2 : szAdd cur.offset new_size = cur.offset + new_size := szAdd_eq (by omega)
  obtain ⟨s1, e1, _, e3, e4⟩ :=
    growInPlace_spec (szAdd cur.size next.size) new_size mallocOk hs ht
  have hret : (if szAdd cur.size next.size > new_size ∧ mallocOk = false then none
      else some cur.offset) = some cur.offset := by
    rw [hadd]
    rcases hmalloc with h | h
    · simp [h]
    · have : ¬ (cur.size + next.size > new_size) := by omega
      simp [this]
  rw [hret] at e1
  refine ⟨s1, ?_, e3, ?_⟩
  · rw [mem_resize_grow new_size mallocOk hs ht hA hlt hfree (by rw [hadd]; exact hfit)]
    exact e1
  · rw [e4, hadd]
    unfold growT
    by_cases hgt : new_size < cur.size + next.size
    · have hok : mallocOk = true := by
        rcases hmalloc with h | h
        · exact h
        · omega
      have hc : cur.size + next.size > new_size ∧ mallocOk = true := ⟨hgt, hok⟩
      simp only [hc, and_self, if_true, hgt, hadd2, halloc, List.append_assoc,
        List.cons_append, List.nil_append]
    · have heq : cur.size + next.size = new_size := by omega
      have hc : ¬ (cur.size + next.size > new_size ∧ mallocOk = true) := by
        intro h; omega
      rw [heq] at hc
      simp [hc, heq, halloc]

theorem resize_in_place_witness :
    (StorageOk ⟨[⟨0, 30, false⟩, ⟨30, 70, true⟩], 2, 2, List.replicate 100 0⟩ ∧
      100 < SIZE_MOD ∧
      (∀ b ∈ table ⟨[⟨0, 30, false⟩, ⟨30, 70, true⟩], 2, 2, List.replicate 100 0⟩,
        0 < b.size) ∧
      (table ⟨[⟨0, 30, false⟩, ⟨30, 70, true⟩], 2, 2, List.replicate 100 0⟩)[0]? =
        some ⟨0, 30, false⟩ ∧
      (table ⟨[⟨0, 30, false⟩, ⟨30, 70, true⟩], 2, 2, List.replicate 100 0⟩)[0 + 1]? =
        some ⟨30, 70, true⟩ ∧
      30 < 50 ∧ 50 ≤ 30 + 70) ∧
    ∃ s1, mem_resize ⟨[⟨0, 30, false⟩, ⟨30, 70, true⟩], 2, 2, List.replicate 100 0⟩ 0 50 true =
        some (s1, some 0) ∧
      s1.memoryPool = List.replicate 100 0 ∧
      table s1 = [⟨0, 50, false⟩, ⟨50, 50, true⟩] :=
  ⟨⟨by decide, by decide, by decide, by decide, by decide, by decide, by decide⟩,
    resize_in_place 100 ⟨[⟨0, 30, false⟩, ⟨30, 70, true⟩], 2, 2, List.replicate 100 0⟩ 0
      ⟨0, 30, false⟩ ⟨30, 70, true⟩ 50 true (by decide) (by decide)
      ((partition_iff _ _).mpr (by decide)) (by decide) (by decide) rfl (by decide) rfl
      (by decide) (by decide) (Or.inl rfl)⟩

/-- C10. Resize failure is atomic: for every handle `h` addressing a block (the first entry
that starts at `h`) for which neither the no-op path (`size >= new_size`) nor the in-place
path (next entry free with `current.size + next.size >= new_size`) applies, if no free
block of size `>= new_size` exists then `mem_resize(h, new_size)` returns `NULL` and the
whole state, block table and pool bytes, is exactly as before the call. -/
theorem resize_failure_atomic (s : MemState) (i : Nat) (cur : Block) (new_size : Nat)
    (mallocOk : Bool) (hs : StorageOk s) (hi : (table s)[i]? = some cur)
    (hfirst : ∀ (j : Nat) (c : Block), j < i → (table s)[j]? = some c →
      c.offset ≠ cur.offset)
    (hlt : cur.size < new_size)
    (hnext : ∀ next : Block, (table s)[i + 1]? = some next →
      ¬ (next.free = true ∧ new_size ≤ cur.size + next.size))
    (hnone : ∀ b ∈ table s, ¬ (b.free = true ∧ new_size ≤ b.size)) :
    mem_resize s cur.offset new_size mallocOk = some (s, none) := by
  obtain ⟨hsplit, hlen⟩ := split_at_index hi
  have hA := first_of_index hfirst
  have halloc : mem_alloc s new_size = some (s, none) := by
    rcases mem_alloc_cases hs new_size with ⟨h1, _⟩ | ⟨A, c, B, h1, h2, _⟩
    · exact h1
    · exact absurd ((fits_iff new_size c).mp h2) (hnone c (by rw [h1]; simp))
  rw [mem_resize_relocate new_size mallocOk hs hsplit hA hlt]
  · simp [relocate, halloc]
  · intro next B1 hB
    have hn : (table s)[i + 1]? = some next := by
      have h0 := List.getElem?_drop (table s) (i + 1) 0
      rw [hB] at h0
      simpa using h0.symm
    by_cases hf : next.free = true
    · right
      have := hnext next hn
      have hmod : szAdd cur.size next.size ≤ cur.size + next.size := Nat.mod_le _ _
      have : ¬ (new_size ≤ cur.size + next.size) := fun h => this ⟨hf, h⟩
      omega
    · left; simpa using hf

theorem resize_failure_atomic_witness :
    (StorageOk ⟨[⟨0, 30, false⟩, ⟨30, 20, false⟩, ⟨50, 50, true⟩, default], 4, 3,
        List.replicate 100 0⟩ ∧
      (table ⟨[⟨0, 30, false⟩, ⟨30, 20, false⟩, ⟨50, 50, true⟩, default], 4, 3,
        List.replicate 100 0⟩)[0]? = some ⟨0, 30, false⟩ ∧
      30 < 60) ∧
    mem_resize ⟨[⟨0, 30, false⟩, ⟨30, 20, false⟩, ⟨50, 50, true⟩, default], 4, 3,
        List.replicate 100 0⟩ 0 60 true =
      some (⟨[⟨0, 30, false⟩, ⟨30, 20, false⟩, ⟨50, 50, true⟩, default], 4, 3,
        List.replicate 100 0⟩, none) :=
  ⟨⟨by decide, by decide, by decide⟩,
    resize_failure_atomic
      ⟨[⟨0, 30, false⟩, ⟨30, 20, false⟩, ⟨50, 50, true⟩, default], 4, 3, List.replicate 100 0⟩
      0 ⟨0, 30, false⟩ 60 true (by decide) (by decide)
      (fun j _ hj => absurd hj (Nat.not_lt_zero j)) (by decide)
      (fun next hn => by cases hn; decide) (by decide)⟩

/-- C13. Teardown then re-init: from any state, `mem_deinit()` followed by
`mem_init(capacity)` yields a table consisting of exactly one free block
`(offset 0, size capacity)`, and a subsequent `mem_alloc(capacity)` succeeds and returns the
base address of the pool (offset 0). -/
theorem deinit_then_init (s : MemState) (capacity : Nat) (arena : List UInt8) :
    table (mem_init_in (mem_deinit s) capacity arena) =
        [{ offset := 0, size := capacity, free := true }] ∧
      ∃ s1, mem_alloc (mem_init_in (mem_deinit s) capacity arena) capacity =
        some (s1, some 0) := by
  refine ⟨rfl, ?_⟩
  simp [mem_init_in, mem_init, mem_alloc, allocLoop, allocAt, readAt, writeAt]

/-- C14, as stated, fails: after `mem_init(100)`, `A = mem_alloc(30)` (offset 0),
`B = mem_alloc(20)` (offset 30), `mem_free(A)`, `mem_alloc(30)` (offset 0 again) and
`mem_free(B)`, the block re-allocated at offset 0 is still live, so the table is
`(0, 30, allocated), (30, 70, free)` and not a single free block of size 100. -/
theorem scenario_counterexample :
    ∃ s1 s2 s3 s4 s5,
      mem_alloc (mem_init 100 (List.replicate 100 0)) 30 = some (s1, some 0) ∧
      mem_alloc s1 20 = some (s2, some 30) ∧
      mem_free s2 0 = some s3 ∧
      mem_alloc s3 30 = some (s4, some 0) ∧
      mem_free s4 30 = some s5 ∧
      table s5 = [⟨0, 30, false⟩, ⟨30, 70, true⟩] ∧
      table s5 ≠ [⟨0, 100, true⟩] :=
  ⟨_, _, _, _, _, rfl, rfl, rfl, rfl, rfl, by decide, by decide⟩

/-- C14, amended. Concrete allocator scenario: after `mem_init(100)`, `A = mem_alloc(30)` is
at offset 0, `B = mem_alloc(20)` is at offset 30, then `mem_free(A)`, then `mem_alloc(30)`
returns offset 0 again, then `mem_free(B)`; at that point the block table is the re-allocated
block `(0, 30, allocated)` followed by one free block `(30, 70)`, and it collapses to a
single free block of size 100 once the re-allocated block is released as well. -/
theorem scenario (arena : List UInt8) :
    ∃ s1 s2 s3 s4 s5 s6,
      mem_alloc (mem_init 100 arena) 30 = some (s1, some 0) ∧
      mem_alloc s1 20 = some (s2, some 30) ∧
      mem_free s2 0 = some s3 ∧
      mem_alloc s3 30 = some (s4, some 0) ∧
      mem_free s4 30 = some s5 ∧
      table s5 = [⟨0, 30, false⟩, ⟨30, 70, true⟩] ∧
      mem_free s5 0 = some s6 ∧
      table s6 = [⟨0, 100, true⟩] :=
  ⟨⟨[⟨0, 30, false⟩, ⟨30, 70, true⟩], 2, 2, arena⟩,
    ⟨[⟨0, 30, false⟩, ⟨30, 20, false⟩, ⟨50, 50, true⟩, default], 4, 3, arena⟩,
    ⟨[⟨0, 30, true⟩, ⟨30, 20, false⟩, ⟨50, 50, true⟩, default], 4, 3, arena⟩,
    ⟨[⟨0, 30, false⟩, ⟨30, 20, false⟩, ⟨50, 50, true⟩, default], 4, 3, arena⟩,
    ⟨[⟨0, 30, false⟩, ⟨30, 70, true⟩, ⟨50, 50, true⟩, default], 4, 2, arena⟩,
    ⟨[⟨0, 100, true⟩, ⟨30, 70, true⟩, ⟨50, 50, true⟩, default], 4, 1, arena⟩,
    rfl, rfl, rfl, rfl, rfl, rfl, rfl, rfl⟩

/-- In a tiled table of positive blocks the offsets increase strictly with the index. -/
theorem tiles_offsets_increasing {t : List Block} {a e : Nat} (ht : tilesFrom a t e)
    (hp : ∀ b ∈ t, 0 < b.size) {i j : Nat} {b c : Block} (hij : i < j)
    (hb : t[i]? = some b) (hc : t[j]? = some c) : b.offset < c.offset := by
  obtain ⟨hsplit, hlen⟩ := split_at_index hc
  rw [hsplit] at ht hp
  obtain ⟨h1, _, _, _⟩ := tilesFrom_split ht
  have hmem : b ∈ t.take j := by
    apply List.getElem?_mem (n := i)
    rw [List.getElem?_take, if_pos hij]
    exact hb
  exact tilesFrom_offset_lt _ _ _ h1 (fun x hx => hp x (by simp [hx])) b hmem

/-- C15. Block well-formedness: after `mem_init(N)` with `N > 0` and any sequence of
in-contract calls, every entry of the block table has `size > 0` and `0 <= offset < N`;
consequently offsets are strictly increasing with the index and each handle identifies at
most one block. -/
theorem blocks_well_formed (N : Nat) (arena : List UInt8) (ops : List Op) (hpos : 0 < N)
    (hN : N < SIZE_MOD) (hc : allInContract (mem_init N arena) ops) :
    ∃ s, run (mem_init N arena) ops = some s ∧
      (∀ b ∈ table s, 0 < b.size ∧ b.offset < N) ∧
      (∀ (i j : Nat) (b c : Block), i < j → (table s)[i]? = some b →
        (table s)[j]? = some c → b.offset < c.offset) ∧
      (∀ (i j : Nat) (b c : Block), (table s)[i]? = some b → (table s)[j]? = some c →
        b.offset = c.offset → i = j) := by
  obtain ⟨s, hrun, hinv⟩ := inv_run ops _ (inv_init arena hpos hN) hc
  refine ⟨s, hrun, fun b hb => ?_, fun i j b c hij hb hc => ?_, fun i j b c hb hc hoff => ?_⟩
  · have h1 := hinv.pos b hb
    have h2 := (tilesFrom_mem_bounds hinv.tiles hb).2
    exact ⟨h1, by omega⟩
  · exact tiles_offsets_increasing hinv.tiles hinv.pos hij hb hc
  · rcases Nat.lt_trichotomy i j with h | h | h
    · have := tiles_offsets_increasing hinv.tiles hinv.pos h hb hc
      omega
    · exact h
    · have := tiles_offsets_increasing hinv.tiles hinv.pos h hc hb
      omega

theorem blocks_well_formed_witness :
    (0 < 100 ∧ 100 < SIZE_MOD ∧
      allInContract (mem_init 100 (List.replicate 100 0))
        [.alloc 30, .alloc 20, .free 0, .alloc 10, .resize 30 25 true]) ∧
    ∃ s, run (mem_init 100 (List.replicate 100 0))
        [.alloc 30, .alloc 20, .free 0, .alloc 10, .resize 30 25 true] = some s ∧
      (∀ b ∈ table s, 0 < b.size ∧ b.offset < 100) ∧
      (∀ (i j : Nat) (b c : Block), i < j → (table s)[i]? = some b →
        (table s)[j]? = some c → b.offset < c.offset) ∧
      (∀ (i j : Nat) (b c : Block), (table s)[i]? = some b → (table s)[j]? = some c →
        b.offset = c.offset → i = j) :=
  ⟨⟨by decide, by decide, by decide⟩,
    blocks_well_formed 100 (List.replicate 100 0) _ (by decide) (by decide) (by decide)⟩

/-! ## Allocation followed by release -/

theorem mergeNextT_noop (c : Block) {B : List Block}
    (h : ∀ n ∈ B.head?, n.free = false) : mergeNextT c B = (c, B) := by
  cases B with
  | nil => rfl
  | cons n B1 =>
    have hn : ¬ n.free = true := by simp [h n (by simp)]
    exact mergeNextT_used c B1 hn

theorem mergePrevT_noop {A : List Block} (c : Block)
    (h : ∀ p ∈ A.getLast?, p.free = false) : mergePrevT A c = A ++ [c] := by
  rcases List.eq_nil_or_concat A with hnil | ⟨A1, prev, hA1⟩
  · subst hnil; rfl
  · rw [List.concat_eq_append] at hA1
    subst hA1
    have hp : ¬ prev.free = true := by simp [h prev (by simp)]
    rw [mergePrevT_used A1 c hp]
    simp

/-- Around a free block of a table without adjacent free blocks, both neighbours are
allocated. -/
theorem chain_neighbours {A B : List Block} {cur : Block}
    (hc : List.Chain' notBothFree (A ++ cur :: B)) (hfree : cur.free = true) :
    (∀ p ∈ A.getLast?, p.free = false) ∧ (∀ n ∈ B.head?, n.free = false) := by
  rw [List.chain'_split] at hc
  constructor
  · intro p hp
    have h := (List.chain'_append.mp hc.1).2.2 p hp cur (by simp)
    by_contra hcon
    exact h ⟨by simpa using hcon, hfree⟩
  · intro n hn
    have h := hc.2.rel_head? hn
    by_contra hcon
    exact h ⟨hfree, by simpa using hcon⟩

/-- C17, as stated, fails: the table `(0, 0, allocated), (0, 100, free)`, which `mem_init(100)`
followed by `mem_alloc(0)` produces, satisfies the partition and no-adjacent-free invariants;
`mem_alloc(30)` succeeds there with handle 0, but `mem_free(0)` resolves the handle to the
empty block at index 0, so the table afterwards is
`(0, 0, free), (0, 30, allocated), (30, 70, free)` instead of the table before the
allocation. -/
theorem alloc_then_free_counterexample :
    mem_alloc (mem_init 100 (List.replicate 100 0)) 0 =
        some (⟨[⟨0, 0, false⟩, ⟨0, 100, true⟩], 2, 2, List.replicate 100 0⟩, some 0) ∧
      Partition 100 [⟨0, 0, false⟩, ⟨0, 100, true⟩] ∧
      NoAdjFree [⟨0, 0, false⟩, ⟨0, 100, true⟩] ∧
      ∃ s1 s2,
        mem_alloc ⟨[⟨0, 0, false⟩, ⟨0, 100, true⟩], 2, 2, List.replicate 100 0⟩ 30 =
          some (s1, some 0) ∧
        mem_free s1 0 = some s2 ∧
        table s2 = [⟨0, 0, true⟩, ⟨0, 30, false⟩, ⟨30, 70, true⟩] ∧
        table s2 ≠
          table ⟨[⟨0, 0, false⟩, ⟨0, 100, true⟩], 2, 2, List.replicate 100 0⟩ :=
  ⟨by decide, (partition_iff _ _).mpr (by decide),
    (noAdjFree_iff _).mpr (by simp [notBothFree]),
    ⟨[⟨0, 0, false⟩, ⟨0, 30, false⟩, ⟨30, 70, true⟩, default], 4, 3, List.replicate 100 0⟩,
    ⟨[⟨0, 0, true⟩, ⟨0, 30, false⟩, ⟨30, 70, true⟩, default], 4, 3, List.replicate 100 0⟩,
    by decide, by decide, by decide, by decide⟩

/-- C17, amended. Allocate-then-release is the identity on the block table: for every state
satisfying the partition and no-adjacent-free invariants in which every block has
`size > 0`, and every size for which `mem_alloc(size)` succeeds with handle `h`, the
sequence of `(offset, size, free)` entries after `mem_alloc(size); mem_free(h)` equals the
sequence before the `mem_alloc`. -/
theorem alloc_then_free (N : Nat) (s s1 : MemState) (size h : Nat) (hs : StorageOk s)
    (hN : N < SIZE_MOD) (hpart : Partition N (table s)) (hnoadj : NoAdjFree (table s))
    (hpos : ∀ b ∈ table s, 0 < b.size)
    (hres : mem_alloc s size = some (s1, some h)) :
    ∃ s2, mem_free s1 h = some s2 ∧ table s2 = table s := by
  rcases mem_alloc_cases hs size with ⟨h1, _⟩ | ⟨A, cur, B, h1, h2, h3, _⟩
  · rw [h1] at hres; cases hres
  · obtain ⟨s1a, e1, e2, _, e4⟩ := mem_alloc_found hs h1 h2 h3
    rw [hres] at e1
    have hs1 : s1 = s1a := by
      have := congrArg Prod.fst (Option.some.inj e1); simpa using this
    have hh : h = cur.offset := by
      have := congrArg Prod.snd (Option.some.inj e1); simpa using this
    subst hs1 hh
    obtain ⟨hfree, hle⟩ := (fits_iff size cur).mp h2
    have htiles : tilesFrom 0 (A ++ cur :: B) N := by
      rw [← h1]; exact ((partition_iff N _).mp hpart).2
    have hchain : List.Chain' notBothFree (A ++ cur :: B) := by
      rw [← h1]; exact (noAdjFree_iff _).mp hnoadj
    obtain ⟨hprev, hnext⟩ := chain_neighbours hchain hfree
    obtain ⟨_, _, _, hend⟩ := tilesFrom_split htiles
    have hAoff : ∀ b ∈ A, b.offset ≠ cur.offset :=
      first_of_tiles htiles (fun b hb => hpos b (by rw [h1]; simp [hb]))
    have hcur : ({ offset := cur.offset, size := cur.size, free := true } : Block) = cur := by
      cases cur; simp_all
    by_cases hlt : size < cur.size
    · have e5 : table s1 = A ++ { cur with free := false, size := size } ::
          ({ offset := szAdd cur.offset size, size := cur.size - size, free := true } :: B) := by
        rw [e4]; simp [allocT, hlt]
      obtain ⟨s2, f1, _, _, _, f5⟩ := mem_free_spec e2 e5 hAoff
      refine ⟨s2, f1, ?_⟩
      have hadd : szAdd size (cur.size - size) = cur.size := by
        rw [szAdd_eq (by omega)]; omega
      rw [f5, h1]
      unfold coalesceT
      rw [mergeNextT_free _ B rfl]
      simp only [hadd, hcur]
      rw [mergePrevT_noop cur hprev]
      simp
    · have e5 : table s1 = A ++ { cur with free := false } :: B := by
        rw [e4]; simp [allocT, hlt]
      obtain ⟨s2, f1, _, _, _, f5⟩ := mem_free_spec e2 e5 hAoff
      refine ⟨s2, f1, ?_⟩
      rw [f5, h1]
      unfold coalesceT
      simp only [hcur]
      rw [mergeNextT_noop cur hnext, mergePrevT_noop cur hprev]
      simp

theorem alloc_then_free_witness :
    (StorageOk ⟨[⟨0, 30, false⟩, ⟨30, 70, true⟩], 2, 2, List.replicate 100 0⟩ ∧
      100 < SIZE_MOD ∧
      tilesFrom 0 (table ⟨[⟨0, 30, false⟩, ⟨30, 70, true⟩], 2, 2, List.replicate 100 0⟩) 100 ∧
      List.Chain' notBothFree
        (table ⟨[⟨0, 30, false⟩, ⟨30, 70, true⟩], 2, 2, List.replicate 100 0⟩) ∧
      (∀ b ∈ table ⟨[⟨0, 30, false⟩, ⟨30, 70, true⟩], 2, 2, List.replicate 100 0⟩,
        0 < b.size)) ∧
    ∃ s2, mem_free
        ⟨[⟨0, 30, false⟩, ⟨30, 20, false⟩, ⟨50, 50, true⟩, default], 4, 3,
          List.replicate 100 0⟩ 30 = some s2 ∧
      table s2 = table ⟨[⟨0, 30, false⟩, ⟨30, 70, true⟩], 2, 2, List.replicate 100 0⟩ :=
  ⟨⟨by decide, by decide, by decide, by simp [table, notBothFree], by decide⟩,
    alloc_then_free 100 ⟨[⟨0, 30, false⟩, ⟨30, 70, true⟩], 2, 2, List.replicate 100 0⟩
      ⟨[⟨0, 30, false⟩, ⟨30, 20, false⟩, ⟨50, 50, true⟩, default], 4, 3, List.replicate 100 0⟩
      20 30 (by decide) (by decide) ((partition_iff _ _).mpr (by decide))
      ((noAdjFree_iff _).mpr (by simp [table, notBothFree])) (by decide) (by decide)⟩

/-! ## Two releases -/

theorem szAdd_assoc (a b c : Nat) : szAdd (szAdd a b) c = szAdd a (szAdd b c) := by
  unfold szAdd
  rw [Nat.mod_add_mod, Nat.add_mod_mod, Nat.add_assoc]

theorem mergeNextT_flag (c : Block) (B : List Block) :
    (mergeNextT c B).1.free = c.free ∧ (mergeNextT c B).1.offset = c.offset := by
  cases B with
  | nil => exact ⟨rfl, rfl⟩
  | cons n B1 =>
    by_cases hf : n.free = true
    · rw [mergeNextT_free c B1 hf]; exact ⟨rfl, rfl⟩
    · rw [mergeNextT_used c B1 hf]; exact ⟨rfl, rfl⟩

/-- The predecessor merge looks at the last block only. -/
theorem mergePrevT_append (Q : List Block) (l c : Block) :
    mergePrevT (Q ++ [l]) c = Q ++ mergePrevT [l] c := by
  by_cases hf : l.free = true
  · rw [mergePrevT_free Q c hf]
    have := mergePrevT_free [] c hf
    simp only [List.nil_append] at this
    rw [this]
  · rw [mergePrevT_used Q c hf]
    have := mergePrevT_used [] c hf
    simp only [List.nil_append] at this
    rw [this]

/-- The release looks at one block on each side only: to the left. -/
theorem coalesceT_append_left (Q : List Block) (l cur : Block) (B : List Block) :
    coalesceT (Q ++ [l]) cur B = Q ++ coalesceT [l] cur B := by
  unfold coalesceT
  rw [mergePrevT_append, List.append_assoc]

/-- The release looks at one block on each side only: to the right. -/
theorem coalesceT_cons_right (A : List Block) (cur m : Block) (R : List Block) :
    coalesceT A cur (m :: R) = coalesceT A cur [m] ++ R := by
  unfold coalesceT
  by_cases hf : m.free = true
  · rw [mergeNextT_free _ R hf, mergeNextT_free _ [] hf]
    simp
  · rw [mergeNextT_used _ R hf, mergeNextT_used _ [] hf]
    simp

/-- Two successive predecessor merges are one merge of the combined block. -/
theorem mergePrevT_twice (P : List Block) (c d : Block) (hc : c.free = true) :
    mergePrevT (mergePrevT P c) d = mergePrevT P { c with size := szAdd c.size d.size } := by
  rcases List.eq_nil_or_concat P with hnil | ⟨P0, p, hP⟩
  · subst hnil
    rw [mergePrevT_nil, mergePrevT_nil]
    have := mergePrevT_free [] d hc
    simpa using this
  · rw [List.concat_eq_append] at hP
    subst hP
    by_cases hf : p.free = true
    · rw [mergePrevT_free P0 c hf, mergePrevT_free P0 _ hf]
      have hf2 : ({ p with size := szAdd p.size c.size } : Block).free = true := hf
      rw [mergePrevT_free P0 d hf2]
      simp only [szAdd_assoc]
    · rw [mergePrevT_used P0 c hf, mergePrevT_used P0 _ hf]
      have e : P0 ++ [p, c] = (P0 ++ [p]) ++ [c] := by simp
      rw [e, mergePrevT_free (P0 ++ [p]) d hc]
      simp

/-- Releasing two allocated blocks of a table in either order gives the same table. -/
theorem coalesce_commute (P M S : List Block) (X Y : Block) (hX : X.free = false)
    (hY : Y.free = false) :
    ∃ P1 S1, coalesceT P X (M ++ Y :: S) = P1 ++ Y :: S ∧
      coalesceT (P ++ X :: M) Y S = P ++ X :: S1 ∧
      coalesceT P1 Y S = coalesceT P X S1 := by
  have hXn : ¬ X.free = true := by simp [hX]
  have hYn : ¬ Y.free = true := by simp [hY]
  have hY1 : (mergeNextT { Y with free := true } S).1.free = true :=
    (mergeNextT_flag { Y with free := true } S).1
  have hcoY : ∀ A, coalesceT A Y S = mergePrevT A (mergeNextT { Y with free := true } S).1 ++
      (mergeNextT { Y with free := true } S).2 := fun _ => rfl
  have hcoX : ∀ A B, coalesceT A X B = mergePrevT A (mergeNextT { X with free := true } B).1 ++
      (mergeNextT { X with free := true } B).2 := fun _ _ => rfl
  generalize mergeNextT { Y with free := true } S = r at hY1 hcoY
  obtain ⟨Y1, S1⟩ := r
  simp only at hY1 hcoY
  cases M with
  | nil =>
    refine ⟨mergePrevT P { X with free := true }, Y1 :: S1, ?_, ?_, ?_⟩
    · rw [List.nil_append, hcoX, mergeNextT_used _ S hYn]
    · rw [hcoY, mergePrevT_used P _ hXn]
      simp
    · rw [hcoY, hcoX, mergePrevT_twice P _ _ rfl, mergeNextT_free _ _ hY1]
  | cons m M1 =>
    rcases List.eq_nil_or_concat M1 with hnil | ⟨M0, l, hM1⟩
    · subst hnil
      by_cases hm : m.free = true
      · refine ⟨mergePrevT P { offset := X.offset, size := szAdd X.size m.size, free := true },
          { m with size := szAdd m.size Y1.size } :: S1, ?_, ?_, ?_⟩
        · rw [List.singleton_append, hcoX, mergeNextT_free _ _ hm]
        · have e : P ++ [X, m] = (P ++ [X]) ++ [m] := by simp
          rw [hcoY, e, mergePrevT_free (P ++ [X]) _ hm]
          simp
        · have hm2 : ({ m with size := szAdd m.size Y1.size } : Block).free = true := hm
          rw [hcoY, hcoX, mergePrevT_twice P _ _ rfl, mergeNextT_free _ _ hm2]
          simp only [szAdd_assoc]
      · refine ⟨mergePrevT P { X with free := true } ++ [m], m :: Y1 :: S1, ?_, ?_, ?_⟩
        · rw [List.singleton_append, hcoX, mergeNextT_used _ _ hm]
          simp
        · have e : P ++ [X, m] = (P ++ [X]) ++ [m] := by simp
          rw [hcoY, e, mergePrevT_used (P ++ [X]) _ hm]
          simp
        · rw [hcoY, hcoX, mergePrevT_used _ _ hm, mergeNextT_used _ _ hm]
          simp
    · rw [List.concat_eq_append] at hM1
      subst hM1
      refine ⟨coalesceT P X [m] ++ M0 ++ [l], m :: (M0 ++ coalesceT [l] Y S), ?_, ?_, ?_⟩
      · rw [List.cons_append, coalesceT_cons_right]
        simp
      · have e : P ++ X :: m :: (M0 ++ [l]) = (P ++ X :: m :: M0) ++ [l] := by simp
        rw [e, coalesceT_append_left]
        simp
      · rw [coalesceT_append_left, coalesceT_cons_right P X m (M0 ++ coalesceT [l] Y S)]
        simp

/-- Both orders of releasing two allocated blocks `X` (earlier) and `Y` (later) of a tiled
table of positive blocks are defined and end in the same table. -/
theorem free_two {N : Nat} {s : MemState} {P M S : List Block} {X Y : Block}
    (hs : StorageOk s) (hN : N < SIZE_MOD) (ht : table s = P ++ X :: (M ++ Y :: S))
    (htiles : tilesFrom 0 (table s) N) (hpos : ∀ b ∈ table s, 0 < b.size)
    (hX : X.free = false) (hY : Y.free = false) :
    ∃ sa sab sb sba, mem_free s X.offset = some sa ∧ mem_free sa Y.offset = some sab ∧
      mem_free s Y.offset = some sb ∧ mem_free sb X.offset = some sba ∧
      table sab = table sba ∧ StorageOk sab ∧ StorageOk sba := by
  obtain ⟨P1, S1, c1, c2, c3⟩ := coalesce_commute P M S X Y hX hY
  have ht2 : table s = (P ++ X :: M) ++ Y :: S := by rw [ht]; simp
  have htl1 : tilesFrom 0 (P ++ X :: (M ++ Y :: S)) N := by rw [← ht]; exact htiles
  have htl2 : tilesFrom 0 ((P ++ X :: M) ++ Y :: S) N := by rw [← ht2]; exact htiles
  have hp1 : ∀ b ∈ P ++ X :: (M ++ Y :: S), 0 < b.size := by rw [← ht]; exact hpos
  have hp2 : ∀ b ∈ (P ++ X :: M) ++ Y :: S, 0 < b.size := by rw [← ht2]; exact hpos
  -- first `X`, then `Y`
  obtain ⟨sa, a1, a2, _, _, a5⟩ := mem_free_spec hs ht
    (first_of_tiles htl1 (fun b hb => hp1 b (by simp [hb])))
  rw [c1] at a5
  have hta : tilesFrom 0 (P1 ++ Y :: S) N := by
    rw [← c1]; exact coalesceT_tiles htl1 hN
  have hpa : ∀ b ∈ P1 ++ Y :: S, 0 < b.size := by
    rw [← c1]; exact coalesceT_pos htl1 hN hp1
  obtain ⟨sab, b1, b2, _, _, b5⟩ := mem_free_spec a2 a5
    (first_of_tiles hta (fun b hb => hpa b (by simp [hb])))
  -- first `Y`, then `X`
  obtain ⟨sb, d1, d2, _, _, d5⟩ := mem_free_spec hs ht2
    (first_of_tiles htl2 (fun b hb => hp2 b (List.mem_append_left _ hb)))
  rw [c2] at d5
  have htb : tilesFrom 0 (P ++ X :: S1) N := by
    rw [← c2]; exact coalesceT_tiles htl2 hN
  have hpb : ∀ b ∈ P ++ X :: S1, 0 < b.size := by
    rw [← c2]; exact coalesceT_pos htl2 hN hp2
  obtain ⟨sba, e1, e2, _, _, e5⟩ := mem_free_spec d2 d5
    (first_of_tiles htb (fun b hb => hpb b (by simp [hb])))
  exact ⟨sa, sab, sb, sba, a1, b1, d1, e1, by rw [b5, e5, c3], b2, e2⟩

/-- A table with entries `X` at index `i` and `Y` at a later index `j`, split around both. -/
theorem split_at_two {t : List Block} {i j : Nat} {X Y : Block} (hij : i < j)
    (hi : t[i]? = some X) (hj : t[j]? = some Y) :
    ∃ P M S, t = P ++ X :: (M ++ Y :: S) ∧ P.length = i := by
  obtain ⟨hs1, _⟩ := split_at_index hj
  have hi2 : (t.take j)[i]? = some X := by rw [List.getElem?_take, if_pos hij]; exact hi
  obtain ⟨hs2, hl2⟩ := split_at_index hi2
  refine ⟨(t.take j).take i, (t.take j).drop (i + 1), t.drop (j + 1), ?_, hl2⟩
  have e : (t.take j).take i ++ X :: ((t.take j).drop (i + 1) ++ Y :: t.drop (j + 1)) =
      ((t.take j).take i ++ X :: (t.take j).drop (i + 1)) ++ Y :: t.drop (j + 1) := by simp
  rw [e, ← hs2]
  exact hs1

/-- C18. Release order commutes: for every state satisfying the partition invariant with all
sizes `> 0` and any two distinct allocated blocks with handles `a` and `b` (adjacent or
not), both release orders are defined and the block table after `mem_free(a); mem_free(b)`
equals, entry for entry, the block table after `mem_free(b); mem_free(a)`. -/
theorem free_commutes (N : Nat) (s : MemState) (i j : Nat) (X Y : Block) (hs : StorageOk s)
    (hN : N < SIZE_MOD) (hpart : Partition N (table s)) (hpos : ∀ b ∈ table s, 0 < b.size)
    (hi : (table s)[i]? = some X) (hj : (table s)[j]? = some Y) (hij : i ≠ j)
    (hX : X.free = false) (hY : Y.free = false) :
    ∃ sa sab sb sba, mem_free s X.offset = some sa ∧ mem_free sa Y.offset = some sab ∧
      mem_free s Y.offset = some sb ∧ mem_free sb X.offset = some sba ∧
      table sab = table sba := by
  have htiles := ((partition_iff N _).mp hpart).2
  rcases Nat.lt_or_gt_of_ne hij with hlt | hgt
  · obtain ⟨P, M, S, ht, _⟩ := split_at_two hlt hi hj
    obtain ⟨sa, sab, sb, sba, h1, h2, h3, h4, h5, _, _⟩ :=
      free_two hs hN ht htiles hpos hX hY
    exact ⟨sa, sab, sb, sba, h1, h2, h3, h4, h5⟩
  · obtain ⟨P, M, S, ht, _⟩ := split_at_two hgt hj hi
    obtain ⟨sa, sab, sb, sba, h1, h2, h3, h4, h5, _, _⟩ :=
      free_two hs hN ht htiles hpos hY hX
    exact ⟨sb, sba, sa, sab, h3, h4, h1, h2, h5.symm⟩

theorem free_commutes_witness :
    (StorageOk ⟨[⟨0, 30, false⟩, ⟨30, 20, false⟩, ⟨50, 50, true⟩, default], 4, 3,
        List.replicate 100 0⟩ ∧
      100 < SIZE_MOD ∧
      (∀ b ∈ table ⟨[⟨0, 30, false⟩, ⟨30, 20, false⟩, ⟨50, 50, true⟩, default], 4, 3,
        List.replicate 100 0⟩, 0 < b.size) ∧
      (1 : Nat) ≠ 0) ∧
    ∃ sa sab sb sba,
      mem_free ⟨[⟨0, 30, false⟩, ⟨30, 20, false⟩, ⟨50, 50, true⟩, default], 4, 3,
        List.replicate 100 0⟩ 30 = some sa ∧
      mem_free sa 0 = some sab ∧
      mem_free ⟨[⟨0, 30, false⟩, ⟨30, 20, false⟩, ⟨50, 50, true⟩, default], 4, 3,
        List.replicate 100 0⟩ 0 = some sb ∧
      mem_free sb 30 = some sba ∧ table sab = table sba :=
  ⟨⟨by decide, by decide, by decide, by decide⟩,
    free_commutes 100
      ⟨[⟨0, 30, false⟩, ⟨30, 20, false⟩, ⟨50, 50, true⟩, default], 4, 3, List.replicate 100 0⟩
      1 0 ⟨30, 20, false⟩ ⟨0, 30, false⟩ (by decide) (by decide)
      ((partition_iff _ _).mpr (by decide)) (by decide) (by decide) (by decide) (by decide)
      rfl rfl⟩

/-! ## Reuse after coalescing -/

/-- When some block fits, `mem_alloc` returns a handle. -/
theorem alloc_succeeds {s : MemState} {size : Nat} {blk : Block} (hs : StorageOk s)
    (hmem : blk ∈ table s) (hfit : fits size blk = true) :
    ∃ s1 h, mem_alloc s size = some (s1, some h) := by
  rcases mem_alloc_cases hs size with ⟨_, h2⟩ | ⟨A, cur, B, h1, h2, h3, _⟩
  · have := h2 blk hmem
    rw [hfit] at this
    cases this
  · obtain ⟨s1, e1, _⟩ := mem_alloc_found hs h1 h2 h3
    exact ⟨s1, cur.offset, e1⟩

/-- After the predecessor merge of a free block `c`, the table holds a free block at least as
large as `c`. -/
theorem mergePrevT_big {A B : List Block} {c : Block} {N : Nat}
    (ht : tilesFrom 0 (A ++ c :: B) N) (hN : N < SIZE_MOD) (hc : c.free = true) :
    ∃ blk ∈ mergePrevT A c, blk.free = true ∧ c.size ≤ blk.size := by
  rcases List.eq_nil_or_concat A with hnil | ⟨A1, prev, hA1⟩
  · subst hnil
    exact ⟨c, by simp [mergePrevT_nil], hc, Nat.le_refl _⟩
  · rw [List.concat_eq_append] at hA1
    subst hA1
    by_cases hf : prev.free = true
    · have ht2 : tilesFrom 0 (A1 ++ prev :: c :: B) N := by simpa using ht
      obtain ⟨_, g2, _, _⟩ := tilesFrom_split ht2
      have hle := tilesFrom_le _ _ _ g2.2
      have hadd : szAdd prev.size c.size = prev.size + c.size := szAdd_eq (by omega)
      refine ⟨{ prev with size := szAdd prev.size c.size }, ?_, hf, ?_⟩
      · rw [mergePrevT_free A1 c hf]; simp
      · simp only [hadd]; omega
    · exact ⟨c, by rw [mergePrevT_used A1 c hf]; simp, hc, Nat.le_refl _⟩

/-- C12. Coalescing enables reuse: for every reachable state containing two table-adjacent
allocated blocks with handles `a` and `b` and sizes `sa` and `sb`, after
`mem_free(a); mem_free(b)` and also after `mem_free(b); mem_free(a)`, a subsequent
`mem_alloc(sa + sb)` succeeds (returns non-`NULL`). -/
theorem coalescing_enables_reuse (N : Nat) (arena : List UInt8) (ops : List Op)
    (s : MemState) (i : Nat) (a b : Block) (hpos : 0 < N) (hN : N < SIZE_MOD)
    (hc : allInContract (mem_init N arena) ops)
    (hrun : run (mem_init N arena) ops = some s)
    (hi : (table s)[i]? = some a) (hi1 : (table s)[i + 1]? = some b)
    (ha : a.free = false) (hb : b.free = false) :
    (∃ s1 s2 s3 h, mem_free s a.offset = some s1 ∧ mem_free s1 b.offset = some s2 ∧
      mem_alloc s2 (a.size + b.size) = some (s3, some h)) ∧
    (∃ s1 s2 s3 h, mem_free s b.offset = some s1 ∧ mem_free s1 a.offset = some s2 ∧
      mem_alloc s2 (a.size + b.size) = some (s3, some h)) := by
  obtain ⟨s0, hrun0, hinv⟩ := inv_run ops _ (inv_init arena hpos hN) hc
  rw [hrun] at hrun0
  cases hrun0
  -- the table split around the two blocks
  obtain ⟨hsplit, _⟩ := split_at_index hi
  obtain ⟨hlt, hbv⟩ := List.getElem?_eq_some.mp hi1
  have hdrop : (table s).drop (i + 1) = b :: (table s).drop (i + 2) := by
    rw [List.drop_eq_getElem_cons hlt, hbv]
  generalize hP : (table s).take i = P at hsplit
  generalize hS : (table s).drop (i + 2) = S at hdrop
  rw [hdrop] at hsplit
  have ht : table s = P ++ a :: ([] ++ b :: S) := by simpa using hsplit
  have hbn : ¬ b.free = true := by simp [hb]
  obtain ⟨sa, sab, sb, sba, f1, f2, f3, f4, f5, hsab, hsba⟩ :=
    free_two hinv.storage hN ht hinv.tiles hinv.pos ha hb
  -- the table after releasing `a`, then `b`
  have htl : tilesFrom 0 (P ++ a :: b :: S) N := by rw [← hsplit]; exact hinv.tiles
  have hpl : ∀ x ∈ P ++ a :: b :: S, 0 < x.size := by rw [← hsplit]; exact hinv.pos
  obtain ⟨sa1, a1, a2, _, _, a5⟩ := mem_free_spec hinv.storage hsplit
    (first_of_tiles htl (fun x hx => hpl x (by simp [hx])))
  rw [f1] at a1
  cases a1
  have a6 : table sa = mergePrevT P { a with free := true } ++ b :: S := by
    rw [a5]; unfold coalesceT; rw [mergeNextT_used _ S hbn]
  have hta : tilesFrom 0 (mergePrevT P { a with free := true } ++ b :: S) N := by
    rw [← a6, a5]; exact coalesceT_tiles htl hN
  have hpa : ∀ x ∈ mergePrevT P { a with free := true } ++ b :: S, 0 < x.size := by
    rw [← a6, a5]; exact coalesceT_pos htl hN hpl
  obtain ⟨sab1, b1, _, _, _, b5⟩ := mem_free_spec a2 a6
    (first_of_tiles hta (fun x hx => hpa x (by simp [hx])))
  rw [f2] at b1
  cases b1
  -- the merged block
  obtain ⟨g1, g2, _, _⟩ := tilesFrom_split htl
  have hboff : b.offset = a.offset + a.size := g2.1
  have g3 : tilesFrom (b.offset + b.size) S N := by rw [hboff]; exact g2.2
  obtain ⟨e1, _, e3, e4⟩ := mergeNextT_tiles { b with free := true } g3 hN
  have hle := tilesFrom_le _ _ _ e4
  have b6 : table sab = mergePrevT (mergePrevT P { a with free := true })
      (mergeNextT { b with free := true } S).1 ++ (mergeNextT { b with free := true } S).2 := b5
  generalize mergeNextT { b with free := true } S = r at e1 e3 e4 hle b6
  obtain ⟨Y1, S1⟩ := r
  simp only at e1 e3 e4 hle b6
  have hadd : szAdd a.size Y1.size = a.size + Y1.size := szAdd_eq (by omega)
  rw [mergePrevT_twice P _ _ rfl] at b6
  simp only [hadd] at b6
  have htc : tilesFrom 0
      (P ++ { offset := a.offset, size := a.size + Y1.size, free := true } :: S1) N := by
    refine tilesFrom_join g1 ?_
    have : a.offset + (a.size + Y1.size) = Y1.offset + Y1.size := by omega
    simp only [this]
    exact e4
  obtain ⟨blk, hblk, hfree, hsize⟩ := mergePrevT_big htc hN rfl
  simp only at hsize
  have hmem : blk ∈ table sab := by rw [b6]; exact List.mem_append_left _ hblk
  have hfit : fits (a.size + b.size) blk = true :=
    (fits_iff _ _).mpr ⟨hfree, by omega⟩
  obtain ⟨t1, h1, k1⟩ := alloc_succeeds hsab hmem hfit
  obtain ⟨t2, h2, k2⟩ := alloc_succeeds hsba (by rw [← f5]; exact hmem) hfit
  exact ⟨⟨sa, sab, t1, h1, f1, f2, k1⟩, ⟨sb, sba, t2, h2, f3, f4, k2⟩⟩

theorem coalescing_enables_reuse_witness :
    (0 < 100 ∧ 100 < SIZE_MOD ∧
      allInContract (mem_init 100 (List.replicate 100 0)) [.alloc 30, .alloc 20, .alloc 10]) ∧
    ((∃ s1 s2 s3 h,
        mem_free ⟨[⟨0, 30, false⟩, ⟨30, 20, false⟩, ⟨50, 10, false⟩, ⟨60, 40, true⟩], 4, 4,
          List.replicate 100 0⟩ 30 = some s1 ∧
        mem_free s1 50 = some s2 ∧ mem_alloc s2 (20 + 10) = some (s3, some h)) ∧
     (∃ s1 s2 s3 h,
        mem_free ⟨[⟨0, 30, false⟩, ⟨30, 20, false⟩, ⟨50, 10, false⟩, ⟨60, 40, true⟩], 4, 4,
          List.replicate 100 0⟩ 50 = some s1 ∧
        mem_free s1 30 = some s2 ∧ mem_alloc s2 (20 + 10) = some (s3, some h))) :=
  ⟨⟨by decide, by decide, by decide⟩,
    coalescing_enables_reuse 100 (List.replicate 100 0) [.alloc 30, .alloc 20, .alloc 10]
      ⟨[⟨0, 30, false⟩, ⟨30, 20, false⟩, ⟨50, 10, false⟩, ⟨60, 40, true⟩], 4, 4,
        List.replicate 100 0⟩ 1 ⟨30, 20, false⟩ ⟨50, 10, false⟩ (by decide) (by decide)
      (by decide) (by decide) (by decide) (by decide) rfl rfl⟩

/-! ## The pool bytes -/

theorem memcpyPool_length {pool : List UInt8} {dst src n : Nat}
    (hd : dst + n ≤ pool.length) (hsrc : src + n ≤ pool.length) :
    (memcpyPool pool dst src n).length = pool.length := by
  unfold memcpyPool
  simp only [List.length_append, List.length_take, List.length_drop]
  omega

theorem memcpyPool_inside {pool : List UInt8} {dst src n k : Nat}
    (hd : dst + n ≤ pool.length) (hsrc : src + n ≤ pool.length) (hk : k < n) :
    (memcpyPool pool dst src n)[dst + k]? = pool[src + k]? := by
  unfold memcpyPool
  have h1 : (pool.take dst).length = dst := by rw [List.length_take]; omega
  have h2 : ((pool.drop src).take n).length = n := by
    rw [List.length_take, List.length_drop]; omega
  rw [List.getElem?_append_right (by omega), h1,
    List.getElem?_append_left (by omega), List.getElem?_take,
    List.getElem?_drop]
  have : dst + k - dst = k := by omega
  rw [this, if_pos hk]

theorem memcpyPool_outside {pool : List UInt8} {dst src n j : Nat}
    (hd : dst + n ≤ pool.length) (hsrc : src + n ≤ pool.length)
    (hj : j < dst ∨ dst + n ≤ j) :
    (memcpyPool pool dst src n)[j]? = pool[j]? := by
  unfold memcpyPool
  have h1 : (pool.take dst).length = dst := by rw [List.length_take]; omega
  have h2 : ((pool.drop src).take n).length = n := by
    rw [List.length_take, List.length_drop]; omega
  rcases hj with hj | hj
  · rw [List.getElem?_append_left (by omega), List.getElem?_take, if_pos hj]
  · rw [List.getElem?_append_right (by omega), h1,
      List.getElem?_append_right (by omega), h2, List.getElem?_drop]
    congr 1
    omega

theorem mem_mergePrevT {A : List Block} {b : Block} (c : Block) (hb : b ∈ A)
    (hf : b.free = false) : b ∈ mergePrevT A c := by
  rcases List.eq_nil_or_concat A with hnil | ⟨A1, prev, hA1⟩
  · subst hnil; cases hb
  · rw [List.concat_eq_append] at hA1
    subst hA1
    by_cases hp : prev.free = true
    · rw [mergePrevT_free A1 c hp]
      rcases List.mem_append.mp hb with h | h
      · exact List.mem_append_left _ h
      · rw [List.mem_singleton] at h
        subst h
        rw [hf] at hp
        cases hp
    · rw [mergePrevT_used A1 c hp]
      rcases List.mem_append.mp hb with h | h
      · exact List.mem_append_left _ h
      · rw [List.mem_singleton] at h
        subst h
        simp

theorem mem_mergeNextT {B : List Block} {b : Block} (c : Block) (hb : b ∈ B)
    (hf : b.free = false) : b ∈ (mergeNextT c B).2 := by
  cases B with
  | nil => cases hb
  | cons n B1 =>
    by_cases hn : n.free = true
    · rw [mergeNextT_free c B1 hn]
      rcases List.mem_cons.mp hb with h | h
      · subst h
        rw [hf] at hn
        cases hn
      · exact h
    · rw [mergeNextT_used c B1 hn]
      exact hb

/-- Allocated blocks on either side of the released block stay in the table. -/
theorem coalesceT_keeps {A B : List Block} {b : Block} (cur : Block)
    (hb : b ∈ A ∨ b ∈ B) (hf : b.free = false) : b ∈ coalesceT A cur B := by
  unfold coalesceT
  rcases hb with h | h
  · exact List.mem_append_left _ (mem_mergePrevT _ h hf)
  · exact List.mem_append_right _ (mem_mergeNextT _ h hf)

/-- After the release no allocated block starts where the released block started. -/
theorem coalesceT_released {A B : List Block} {cur : Block} {N : Nat}
    (ht : tilesFrom 0 (A ++ cur :: B) N) (hN : N < SIZE_MOD)
    (hp : ∀ b ∈ A ++ cur :: B, 0 < b.size) :
    ∀ b ∈ coalesceT A cur B, b.offset = cur.offset → b.free = true := by
  obtain ⟨h1, h2, _, _⟩ := tilesFrom_split ht
  obtain ⟨e1, e2, e3, e4⟩ := mergeNextT_tiles { cur with free := true } h2 hN
  have hcur := hp cur (by simp)
  have hAlt : ∀ b ∈ A, b.offset < cur.offset :=
    tilesFrom_offset_lt A 0 cur.offset h1 (fun b hb => hp b (by simp [hb]))
  intro b hb hoff
  unfold coalesceT at hb
  generalize mergeNextT { cur with free := true } B = r at hb e1 e2 e3 e4
  obtain ⟨c1, B1⟩ := r
  simp only at hb e1 e2 e3 e4
  rcases List.mem_append.mp hb with hb | hb
  · rcases List.eq_nil_or_concat A with hnil | ⟨A1, prev, hA1⟩
    · subst hnil
      rw [mergePrevT_nil, List.mem_singleton] at hb
      subst hb; exact e2
    · rw [List.concat_eq_append] at hA1
      subst hA1
      by_cases hf : prev.free = true
      · rw [mergePrevT_free A1 c1 hf] at hb
        rcases List.mem_append.mp hb with hb | hb
        · have := hAlt b (by simp [hb]); omega
        · rw [List.mem_singleton] at hb
          subst hb
          exact hf
      · rw [mergePrevT_used A1 c1 hf] at hb
        simp only [List.mem_append, List.mem_cons, List.mem_singleton, List.not_mem_nil,
          or_false] at hb
        rcases hb with hb | rfl | rfl
        · have := hAlt b (by simp [hb]); omega
        · have := hAlt b (by simp); omega
        · exact e2
  · have := (tilesFrom_mem_bounds e4 hb).1
    omega

/-- A successful allocation in a state satisfying the invariants: the new block and what
happens to the blocks that were allocated before. -/
theorem alloc_block_spec {N : Nat} {s s1 : MemState} {size h : Nat} (hinv : Inv N s)
    (hsz : 0 < size) (hres : mem_alloc s size = some (s1, some h)) :
    Inv N s1 ∧ s1.memoryPool = s.memoryPool ∧
      ({ offset := h, size := size, free := false } : Block) ∈ table s1 ∧ h + size ≤ N ∧
      ∀ b ∈ table s, b.free = false →
        b ∈ table s1 ∧ (b.offset + b.size ≤ h ∨ h + size ≤ b.offset) := by
  obtain ⟨s2, r, e1, hinv1, hpool, _, _⟩ := inv_alloc hinv hsz
  rw [hres] at e1
  cases e1
  rcases mem_alloc_cases hinv.storage size with ⟨h1, _⟩ | ⟨A, cur, B, h1, h2, h3, _⟩
  · rw [h1] at hres; cases hres
  · obtain ⟨s2, e1, _, _, e4⟩ := mem_alloc_found hinv.storage h1 h2 h3
    rw [hres] at e1
    cases e1
    obtain ⟨hfree, hle⟩ := (fits_iff size cur).mp h2
    have e5 : ∃ R, table s1 = A ++ { offset := cur.offset, size := size, free := false } :: R ∧
        ∀ b ∈ B, b ∈ R := by
      by_cases hlt : size < cur.size
      · exact ⟨{ offset := szAdd cur.offset size, size := cur.size - size, free := true } :: B,
          by rw [e4]; simp [allocT, hlt], fun b hb => List.mem_cons_of_mem _ hb⟩
      · have heq : cur.size = size := by omega
        exact ⟨B, by rw [e4]; simp [allocT, hlt, heq], fun b hb => hb⟩
    obtain ⟨R, e5, hBR⟩ := e5
    have htiles := hinv1.tiles
    rw [e5] at htiles
    obtain ⟨t1, t2, _, hend⟩ := tilesFrom_split htiles
    refine ⟨hinv1, hpool, by rw [e5]; simp, hend, fun b hb hbf => ?_⟩
    rw [h1] at hb
    rcases List.mem_append.mp hb with hb | hb
    · exact ⟨by rw [e5]; simp [hb], Or.inl (tilesFrom_mem_bounds t1 hb).2⟩
    · rcases List.mem_cons.mp hb with rfl | hb
      · rw [hfree] at hbf; cases hbf
      · exact ⟨by rw [e5]; simp [hBR b hb], Or.inr (tilesFrom_mem_bounds t2 (hBR b hb)).1⟩

/-- A release in a state satisfying the invariants: the other allocated blocks stay and the
handle is no longer live. -/
theorem free_block_spec {N : Nat} {s : MemState} {cur : Block} (hinv : Inv N s)
    (hmem : cur ∈ table s) :
    ∃ s1, mem_free s cur.offset = some s1 ∧ Inv N s1 ∧ s1.memoryPool = s.memoryPool ∧
      (∀ b ∈ table s, b.free = false → b.offset ≠ cur.offset → b ∈ table s1) ∧
      ¬ liveHandle s1 cur.offset := by
  obtain ⟨A, B, ht⟩ := List.append_of_mem hmem
  obtain ⟨s1, e1, e2, e3, _, e5⟩ := mem_free_spec hinv.storage ht (inv_first hinv ht)
  have htiles : tilesFrom 0 (A ++ cur :: B) N := by rw [← ht]; exact hinv.tiles
  have hpos : ∀ b ∈ A ++ cur :: B, 0 < b.size := by rw [← ht]; exact hinv.pos
  refine ⟨s1, e1, ⟨e2, ?_, ?_, ?_, hinv.bound⟩, e3, fun b hb hbf hne => ?_, ?_⟩
  · rw [e5]; exact coalesceT_tiles htiles hinv.bound
  · rw [e5]; exact coalesceT_pos htiles hinv.bound hpos
  · rw [e5]; exact coalesceT_chain (by rw [← ht]; exact hinv.noAdj)
  · rw [e5]
    rw [ht] at hb
    apply coalesceT_keeps cur _ hbf
    rcases List.mem_append.mp hb with hb | hb
    · exact Or.inl hb
    · rcases List.mem_cons.mp hb with rfl | hb
      · exact absurd rfl hne
      · exact Or.inr hb
  · rintro ⟨b, hb, hoff, hbf⟩
    rw [e5] at hb
    have := coalesceT_released htiles hinv.bound hpos b hb hoff
    rw [hbf] at this
    cases this

/-- The relocate path of `mem_resize` in a state satisfying the invariants. -/
theorem relocate_spec {N : Nat} {s : MemState} {cur : Block} {size : Nat} (hinv : Inv N s)
    (hpool : s.memoryPool.length = N) (hmem : cur ∈ table s) (hfree : cur.free = false)
    (hlt : cur.size < size) :
    ∃ s1 r, relocate s cur.offset cur size = some (s1, r) ∧ Inv N s1 ∧
      s1.memoryPool.length = N ∧
      (∀ b ∈ table s, b.free = false → b.offset ≠ cur.offset → Framed s s1 b) ∧
      (r = none → s1 = s) ∧
      (∀ np, r = some np → np ≠ cur.offset ∧
        ({ offset := np, size := size, free := false } : Block) ∈ table s1 ∧
        ¬ liveHandle s1 cur.offset ∧
        (np + size ≤ cur.offset ∨ cur.offset + cur.size ≤ np) ∧
        ∀ k, k < cur.size → s1.memoryPool[np + k]? = s.memoryPool[cur.offset + k]?) := by
  have hsz : 0 < size := by omega
  obtain ⟨s1, r, e1, hinv1, hp1, hnone, _⟩ := inv_alloc hinv hsz
  cases r with
  | none =>
    have hs1 : s1 = s := hnone rfl
    subst hs1
    exact ⟨s1, none, by simp [relocate, e1], hinv, hpool,
      fun b hb _ _ => ⟨hb, fun _ _ _ => rfl⟩, fun _ => rfl, fun np h => by cases h⟩
  | some np =>
    obtain ⟨_, _, hnb, hend, hkeep⟩ := alloc_block_spec hinv hsz e1
    obtain ⟨hcur1, hdis⟩ := hkeep cur hmem hfree
    have hcurN := (tilesFrom_mem_bounds hinv.tiles hmem).2
    have hcpos := hinv.pos cur hmem
    have hinv1p := inv_pool hinv1 (memcpyPool s1.memoryPool np cur.offset cur.size)
    obtain ⟨s2, f1, hinv2, fp, fkeep, flive⟩ := free_block_spec hinv1p hcur1
    have hlen1 : s1.memoryPool.length = N := by rw [hp1]; exact hpool
    have hd : np + cur.size ≤ s1.memoryPool.length := by omega
    have hsrc : cur.offset + cur.size ≤ s1.memoryPool.length := by omega
    have hne : np ≠ cur.offset := by omega
    refine ⟨s2, some np, by simp [relocate, e1, f1], hinv2, ?_, fun b hb hbf hbo => ?_,
      fun h => (by cases h), fun np1 h => ?_⟩
    · rw [fp]
      simp only
      rw [memcpyPool_length hd hsrc, hlen1]
    · obtain ⟨hb1, hbd⟩ := hkeep b hb hbf
      refine ⟨fkeep b hb1 hbf hbo, fun k hk1 hk2 => ?_⟩
      rw [fp]
      simp only
      rw [memcpyPool_outside hd hsrc (by omega), hp1]
    · cases h
      refine ⟨hne, fkeep _ hnb rfl hne, flive, ?_, fun k hk => ?_⟩
      · omega
      · rw [fp]
        simp only
        rw [memcpyPool_inside hd hsrc hk, hp1]

/-- The whole of `mem_resize` in a state satisfying the invariants, for a live handle. -/
theorem resize_spec {N : Nat} {s : MemState} {cur : Block} (size : Nat) (mallocOk : Bool)
    (hinv : Inv N s) (hpool : s.memoryPool.length = N) (hmem : cur ∈ table s)
    (hfree : cur.free = false) :
    ∃ s1 r, mem_resize s cur.offset size mallocOk = some (s1, r) ∧ Inv N s1 ∧
      s1.memoryPool.length = N ∧
      (∀ b ∈ table s, b.free = false → b.offset ≠ cur.offset → Framed s s1 b) ∧
      (∀ np, r = some np → cur.size < size →
        (∀ k, k < cur.size → s1.memoryPool[np + k]? = s.memoryPool[cur.offset + k]?) ∧
        ((np = cur.offset ∧ ({ offset := np, size := size, free := false } : Block) ∈ table s1) ∨
          (np ≠ cur.offset ∧
            ({ offset := np, size := size, free := false } : Block) ∈ table s1 ∧
            ¬ liveHandle s1 cur.offset ∧
            (np + size ≤ cur.offset ∨ cur.offset + cur.size ≤ np)))) := by
  obtain ⟨A, B, ht⟩ := List.append_of_mem hmem
  have hfirst := inv_first hinv ht
  by_cases hle : size ≤ cur.size
  · exact ⟨s, some cur.offset, mem_resize_noop size mallocOk hinv.storage ht hfirst hle, hinv,
      hpool, fun b hb _ _ => ⟨hb, fun _ _ _ => rfl⟩, fun np _ h => by omega⟩
  · have hlt : cur.size < size := Nat.lt_of_not_le hle
    have hsz : 0 < size := by omega
    by_cases hgrow : ∃ next B1, B = next :: B1 ∧ next.free = true ∧
        size ≤ szAdd cur.size next.size
    · obtain ⟨next, B1, rfl, hnf, htot⟩ := hgrow
      rw [mem_resize_grow size mallocOk hinv.storage ht hfirst hlt hnf htot]
      obtain ⟨s1, e1, e2, e3, e4⟩ :=
        growInPlace_spec (szAdd cur.size next.size) size mallocOk hinv.storage ht
      have htiles := hinv.tiles
      have hpos := hinv.pos
      have hchain := hinv.noAdj
      rw [ht] at htiles hpos hchain
      refine ⟨s1, _, e1, ⟨e2, ?_, ?_, ?_, hinv.bound⟩, by rw [e3]; exact hpool,
        fun b hb hbf hbo => ?_, fun np hnp _ => ?_⟩
      · rw [e4]; exact (growT_tiles mallocOk htiles hinv.bound).2
      · rw [e4]; exact growT_pos _ mallocOk hpos hsz htot
      · rw [e4]; exact growT_chain _ size mallocOk hchain hfree hnf
      · refine ⟨?_, fun k _ _ => by rw [e3]⟩
        rw [ht] at hb
        rw [e4]
        simp only [List.mem_append, List.mem_cons] at hb ⊢
        rcases hb with hb | rfl | rfl | hb
        · exact Or.inl (Or.inl hb)
        · exact absurd rfl hbo
        · rw [hnf] at hbf; cases hbf
        · exact Or.inr hb
      · have hok : ¬ (szAdd cur.size next.size > size ∧ mallocOk = false) := by
          intro hcon
          rw [if_pos hcon] at hnp
          cases hnp
        rw [if_neg hok] at hnp
        cases hnp
        refine ⟨fun k _ => by rw [e3], Or.inl ⟨rfl, ?_⟩⟩
        rw [e4]
        unfold growT
        by_cases hg : szAdd cur.size next.size > size ∧ mallocOk = true
        · simp [hg, hfree]
        · have heq : szAdd cur.size next.size = size := by
            by_contra hne
            have hgt : szAdd cur.size next.size > size := by omega
            cases hmo : mallocOk with
            | true => exact hg ⟨hgt, hmo⟩
            | false => exact hok ⟨hgt, hmo⟩
          simp [hg, heq, hfree]
    · rw [mem_resize_relocate size mallocOk hinv.storage ht hfirst hlt]
      · obtain ⟨s1, r, e1, hinv1, hp1, hfr, _, hnew⟩ :=
          relocate_spec hinv hpool hmem hfree hlt
        refine ⟨s1, r, e1, hinv1, hp1, hfr, fun np hnp _ => ?_⟩
        obtain ⟨h1, h2, h3, h4, h5⟩ := hnew np hnp
        exact ⟨h5, Or.inr ⟨h1, h2, h3, h4⟩⟩
      · intro next B1 hB
        by_cases hnf : next.free = true
        · right
          by_contra hcon
          exact hgrow ⟨next, B1, hB, hnf, Nat.le_of_not_lt hcon⟩
        · left; simpa using hnf

/-- Calls made within their contract are defined and keep the invariants and the size of
the pool. -/
theorem inv_run_pool {N : Nat} : ∀ (ops : List Op) (s : MemState), Inv N s →
    s.memoryPool.length = N → allInContract s ops →
    ∃ s1, run s ops = some s1 ∧ Inv N s1 ∧ s1.memoryPool.length = N := by
  intro ops
  induction ops with
  | nil => intro s hinv hp _; exact ⟨s, rfl, hinv, hp⟩
  | cons op ops ih =>
    intro s hinv hp hc
    obtain ⟨hop, hrest⟩ := hc
    have hstep : ∃ s1, step s op = some s1 ∧ Inv N s1 ∧ s1.memoryPool.length = N := by
      cases op with
      | alloc size =>
        obtain ⟨s1, r, e1, hinv1, hp1, _⟩ := inv_alloc hinv (show 0 < size from hop)
        exact ⟨s1, by simp [step, e1], hinv1, by rw [hp1]; exact hp⟩
      | free h =>
        obtain ⟨b, hb, hoff, _⟩ := hop
        obtain ⟨s1, e1, hinv1, hp1⟩ := inv_free hinv ⟨b, hb, hoff⟩
        exact ⟨s1, e1, hinv1, by rw [hp1]; exact hp⟩
      | resize h size mallocOk =>
        obtain ⟨⟨b, hb, hoff, hbf⟩, _⟩ := hop
        subst hoff
        obtain ⟨s1, r, e1, hinv1, hp1, _⟩ := resize_spec size mallocOk hinv hp hb hbf
        exact ⟨s1, by simp [step, e1], hinv1, hp1⟩
    obtain ⟨s1, e1, hinv1, hp1⟩ := hstep
    obtain ⟨s2, e2, hinv2, hp2⟩ := ih s1 hinv1 hp1 (hrest s1 e1)
    exact ⟨s2, by simp [run, e1, e2], hinv2, hp2⟩

/-- Whatever its outcome, `mem_alloc` leaves the pool and the allocated blocks alone. -/
theorem alloc_keeps {s s1 : MemState} {size : Nat} {r : Option Nat} (hs : StorageOk s)
    (hres : mem_alloc s size = some (s1, r)) :
    s1.memoryPool = s.memoryPool ∧ ∀ b ∈ table s, b.free = false → b ∈ table s1 := by
  rcases mem_alloc_cases hs size with ⟨h1, _⟩ | ⟨A, cur, B, h1, h2, h3, _⟩
  · rw [h1] at hres
    cases hres
    exact ⟨rfl, fun b hb _ => hb⟩
  · obtain ⟨s2, e1, _, e3, e4⟩ := mem_alloc_found hs h1 h2 h3
    rw [hres] at e1
    cases e1
    obtain ⟨hfree, _⟩ := (fits_iff size cur).mp h2
    refine ⟨e3, fun b hb hbf => ?_⟩
    rw [h1] at hb
    rw [e4]
    simp only [List.mem_append, List.mem_cons] at hb ⊢
    rcases hb with hb | rfl | hb
    · exact Or.inl (Or.inl hb)
    · rw [hfree] at hbf; cases hbf
    · exact Or.inr hb

/-- C11. Resize data round-trip: for every reachable state, every allocated block with handle
`h` and size `s`, and every `new_size > s`, if `mem_resize(h, new_size)` succeeds with result
`h'`, then the `s` bytes readable at `h'` after the call equal the `s` bytes that were stored
at `h` before the call, on both the in-place path (`h' == h`) and the relocate path
(`h' != h`, old block released, new block of size `new_size` disjoint from the old one). -/
theorem resize_round_trip (N : Nat) (arena : List UInt8) (ops : List Op) (s s1 : MemState)
    (cur : Block) (new_size h1 : Nat) (mallocOk : Bool) (hlen : arena.length = N)
    (hpos : 0 < N) (hN : N < SIZE_MOD) (hc : allInContract (mem_init N arena) ops)
    (hrun : run (mem_init N arena) ops = some s) (hmem : cur ∈ table s)
    (halloc : cur.free = false) (hgt : cur.size < new_size)
    (hres : mem_resize s cur.offset new_size mallocOk = some (s1, some h1)) :
    (∀ k, k < cur.size → ∃ v, s.memoryPool[cur.offset + k]? = some v ∧
      s1.memoryPool[h1 + k]? = some v) ∧
    ({ offset := h1, size := new_size, free := false } : Block) ∈ table s1 ∧
    (h1 = cur.offset ∨
      (h1 ≠ cur.offset ∧ ¬ liveHandle s1 cur.offset ∧
        (h1 + new_size ≤ cur.offset ∨ cur.offset + cur.size ≤ h1))) := by
  obtain ⟨s0, hrun0, hinv, hpool⟩ :=
    inv_run_pool ops _ (inv_init arena hpos hN) (by simpa [mem_init] using hlen) hc
  rw [hrun] at hrun0
  cases hrun0
  obtain ⟨s2, r, e1, _, _, _, hnew⟩ := resize_spec new_size mallocOk hinv hpool hmem halloc
  rw [hres] at e1
  cases e1
  obtain ⟨hbytes, hpath⟩ := hnew h1 rfl hgt
  have hcurN := (tilesFrom_mem_bounds hinv.tiles hmem).2
  refine ⟨fun k hk => ?_, ?_, ?_⟩
  · have hlt : cur.offset + k < s.memoryPool.length := by omega
    exact ⟨s.memoryPool[cur.offset + k], List.getElem?_eq_getElem hlt,
      by rw [hbytes k hk]; exact List.getElem?_eq_getElem hlt⟩
  · rcases hpath with ⟨_, h⟩ | ⟨_, h, _⟩ <;> exact h
  · rcases hpath with ⟨h, _⟩ | ⟨h2, _, h3, h4⟩
    · exact Or.inl h
    · exact Or.inr ⟨h2, h3, h4⟩

theorem resize_round_trip_witness :
    ((List.replicate 100 (7 : UInt8)).length = 100 ∧ 0 < 100 ∧ 100 < SIZE_MOD ∧
      allInContract (mem_init 100 (List.replicate 100 7)) [.alloc 30, .alloc 20] ∧
      (⟨0, 30, false⟩ : Block) ∈
        table ⟨[⟨0, 30, false⟩, ⟨30, 20, false⟩, ⟨50, 50, true⟩, default], 4, 3,
          List.replicate 100 7⟩ ∧
      30 < 40) ∧
    ((∀ k, k < 30 → ∃ v, (List.replicate 100 (7 : UInt8))[0 + k]? = some v ∧
      (List.replicate 100 (7 : UInt8))[50 + k]? = some v) ∧
    (⟨50, 40, false⟩ : Block) ∈
      table ⟨[⟨0, 30, true⟩, ⟨30, 20, false⟩, ⟨50, 40, false⟩, ⟨90, 10, true⟩], 4, 4,
        List.replicate 100 7⟩ ∧
    (50 = 0 ∨
      ((50 : Nat) ≠ 0 ∧
        ¬ liveHandle ⟨[⟨0, 30, true⟩, ⟨30, 20, false⟩, ⟨50, 40, false⟩, ⟨90, 10, true⟩], 4, 4,
          List.replicate 100 7⟩ 0 ∧
        (50 + 40 ≤ 0 ∨ 0 + 30 ≤ 50)))) :=
  ⟨⟨by decide, by decide, by decide, by decide, by decide, by decide⟩,
    resize_round_trip 100 (List.replicate 100 7) [.alloc 30, .alloc 20]
      ⟨[⟨0, 30, false⟩, ⟨30, 20, false⟩, ⟨50, 50, true⟩, default], 4, 3, List.replicate 100 7⟩
      ⟨[⟨0, 30, true⟩, ⟨30, 20, false⟩, ⟨50, 40, false⟩, ⟨90, 10, true⟩], 4, 4,
        List.replicate 100 7⟩
      ⟨0, 30, false⟩ 40 50 true (by decide) (by decide) (by decide) (by decide) (by decide)
      (by decide) rfl (by decide) (by decide)⟩

/-- C19. Live allocations are framed: for every reachable state, a successful `mem_alloc`, a
`mem_free(h)` or a `mem_resize(h, n)` of a live handle leaves every allocated block other
than the one `h` addresses (and other than the newly returned one, which was not allocated
before) present in the table with the same offset, the same size and still marked
allocated, and leaves the pool bytes inside those blocks unchanged. -/
theorem live_blocks_framed (N : Nat) (arena : List UInt8) (ops : List Op) (s : MemState)
    (hlen : arena.length = N) (hpos : 0 < N) (hN : N < SIZE_MOD)
    (hc : allInContract (mem_init N arena) ops)
    (hrun : run (mem_init N arena) ops = some s) :
    (∀ (size : Nat) (s1 : MemState) (h : Nat), mem_alloc s size = some (s1, some h) →
      ∀ b ∈ table s, b.free = false → Framed s s1 b) ∧
    (∀ h : Nat, liveHandle s h → ∃ s1, mem_free s h = some s1 ∧
      ∀ b ∈ table s, b.free = false → b.offset ≠ h → Framed s s1 b) ∧
    (∀ (h n : Nat) (mallocOk : Bool), liveHandle s h →
      ∃ s1 r, mem_resize s h n mallocOk = some (s1, r) ∧
        ∀ b ∈ table s, b.free = false → b.offset ≠ h → Framed s s1 b) := by
  obtain ⟨s0, hrun0, hinv, hpool⟩ :=
    inv_run_pool ops _ (inv_init arena hpos hN) (by simpa [mem_init] using hlen) hc
  rw [hrun] at hrun0
  cases hrun0
  refine ⟨fun size s1 h hres b hb hbf => ?_, fun h hlive => ?_, fun h n mallocOk hlive => ?_⟩
  · obtain ⟨hp, hk⟩ := alloc_keeps hinv.storage hres
    exact ⟨hk b hb hbf, fun _ _ _ => by rw [hp]⟩
  · obtain ⟨cur, hmem, rfl, _⟩ := hlive
    obtain ⟨s1, e1, _, e3, e4, _⟩ := free_block_spec hinv hmem
    exact ⟨s1, e1, fun b hb hbf hbo => ⟨e4 b hb hbf hbo, fun _ _ _ => by rw [e3]⟩⟩
  · obtain ⟨cur, hmem, rfl, hcf⟩ := hlive
    obtain ⟨s1, r, e1, _, _, hfr, _⟩ := resize_spec n mallocOk hinv hpool hmem hcf
    exact ⟨s1, r, e1, hfr⟩

theorem live_blocks_framed_witness :
    ((List.replicate 100 (7 : UInt8)).length = 100 ∧ 0 < 100 ∧ 100 < SIZE_MOD ∧
      allInContract (mem_init 100 (List.replicate 100 7)) [.alloc 30, .alloc 20]) ∧
    ∃ s1 r,
      mem_resize ⟨[⟨0, 30, false⟩, ⟨30, 20, false⟩, ⟨50, 50, true⟩, default], 4, 3,
        List.replicate 100 7⟩ 0 40 true = some (s1, r) ∧
      ∀ b ∈ table ⟨[⟨0, 30, false⟩, ⟨30, 20, false⟩, ⟨50, 50, true⟩, default], 4, 3,
          List.replicate 100 7⟩,
        b.free = false → b.offset ≠ 0 →
        Framed ⟨[⟨0, 30, false⟩, ⟨30, 20, false⟩, ⟨50, 50, true⟩, default], 4, 3,
          List.replicate 100 7⟩ s1 b :=
  ⟨⟨by decide, by decide, by decide, by decide⟩,
    (live_blocks_framed 100 (List.replicate 100 7) [.alloc 30, .alloc 20]
      ⟨[⟨0, 30, false⟩, ⟨30, 20, false⟩, ⟨50, 50, true⟩, default], 4, 3, List.replicate 100 7⟩
      (by decide) (by decide) (by decide) (by decide) rfl).2.2 0 40 true (by decide)⟩

/-! ## The slot array stays within its capacity -/

/-- A list with an element satisfying `p` splits around the first such element. -/
theorem first_split_exists (p : Block → Prop) [DecidablePred p] :
    ∀ t : List Block, (∃ b ∈ t, p b) →
      ∃ A x B, t = A ++ x :: B ∧ p x ∧ ∀ a ∈ A, ¬ p a := by
  intro t
  induction t with
  | nil => rintro ⟨b, hb, _⟩; cases hb
  | cons y t ih =>
    rintro ⟨b, hb, hpb⟩
    by_cases hy : p y
    · exact ⟨[], y, t, rfl, hy, fun a ha => by cases ha⟩
    · have hbt : b ∈ t := by
        rcases List.mem_cons.mp hb with rfl | h
        · exact absurd hpb hy
        · exact h
      obtain ⟨A, x, B, ht, hx, hA⟩ := ih ⟨b, hbt, hpb⟩
      refine ⟨y :: A, x, B, by rw [ht]; rfl, hx, fun a ha => ?_⟩
      rcases List.mem_cons.mp ha with rfl | h
      · exact hy
      · exact hA a h

theorem growIfFull_snd (a : List Block) (cap count : Nat) :
    (growIfFull a cap count).2 = if count ≥ cap then cap * 2 else cap := by
  unfold growIfFull
  by_cases h : count ≥ cap
  · simp only [h, if_true]
  · simp only [h, if_false]

/-- The counters after the split path of `mem_alloc`. -/
theorem allocAt_split_counters {s : MemState} {A B : List Block} {cur : Block} {size : Nat}
    (hs : StorageOk s) (ht : table s = A ++ cur :: B) (hsz : size < cur.size) :
    ∃ s1, allocAt s A.length cur size = some (s1, some cur.offset) ∧
      s1.blockCount = s.blockCount + 1 ∧
      s1.blockCapacity =
        if s.blockCount ≥ s.blockCapacity then s.blockCapacity * 2 else s.blockCapacity := by
  obtain ⟨a1, a2, a3, h1, h2, h3, _, _, _⟩ :=
    splitInsert_spec (a := s.blockArray) (k := s.blockCapacity) (n := s.blockCount)
      { cur with free := false, size := size }
      { offset := szAdd cur.offset size, size := cur.size - size, free := true }
      hs.1 hs.2 ht
  have hrem : cur.size - size > 0 := by omega
  refine ⟨{ s with blockArray := a3,
                    blockCapacity := (growIfFull a1 s.blockCapacity s.blockCount).2,
                    blockCount := s.blockCount + 1 }, ?_, rfl, growIfFull_snd _ _ _⟩
  unfold allocAt
  simp only [hrem, if_true, h1, h2, h3]

/-- The function `mem_alloc` never leaves the slot array: it is defined in every state whose
array has `blockCapacity` slots, keeps that, and grows the array by the doubling rule. -/
theorem alloc_storage {s : MemState} (hs : StorageOk s) (size : Nat) :
    ∃ s1 r, mem_alloc s size = some (s1, r) ∧ StorageOk s1 ∧
      (∀ b ∈ table s, fits size b = false → b ∈ table s1) ∧
      ((s1.blockCount = s.blockCount ∧ s1.blockCapacity = s.blockCapacity) ∨
        (s1.blockCount = s.blockCount + 1 ∧
          s1.blockCapacity =
            if s.blockCount ≥ s.blockCapacity then s.blockCapacity * 2
            else s.blockCapacity)) := by
  rcases mem_alloc_cases hs size with ⟨h1, _⟩ | ⟨A, cur, B, h1, h2, h3, h4⟩
  · exact ⟨s, none, h1, hs, fun b hb _ => hb, Or.inl ⟨rfl, rfl⟩⟩
  · obtain ⟨s1, e1, e2, _, e4⟩ := mem_alloc_found hs h1 h2 h3
    have hkeep : ∀ b ∈ table s, fits size b = false → b ∈ table s1 := by
      intro b hb hbf
      rw [h1] at hb
      rw [e4]
      simp only [List.mem_append, List.mem_cons] at hb ⊢
      rcases hb with hb | rfl | hb
      · exact Or.inl (Or.inl hb)
      · rw [h2] at hbf; cases hbf
      · exact Or.inr hb
    refine ⟨s1, some cur.offset, e1, e2, hkeep, ?_⟩
    rw [h4] at e1
    by_cases hlt : size < cur.size
    · obtain ⟨s2, f1, f2, f3⟩ := allocAt_split_counters hs h1 hlt
      rw [e1] at f1
      cases f1
      exact Or.inr ⟨f2, f3⟩
    · obtain ⟨s2, f1, _, _, f2, f3, _⟩ := allocAt_exact hs h1 (Nat.le_of_not_lt hlt)
      rw [e1] at f1
      cases f1
      exact Or.inl ⟨f2, f3⟩

theorem free_storage {s : MemState} {h : Nat} (hs : StorageOk s)
    (hk : ∃ b ∈ table s, b.offset = h) :
    ∃ s1, mem_free s h = some s1 ∧ StorageOk s1 := by
  obtain ⟨A, cur, B, ht, hcur, hA⟩ := first_split_exists (fun b => b.offset = h) _ hk
  subst hcur
  obtain ⟨s1, e1, e2, _⟩ := mem_free_spec hs ht hA
  exact ⟨s1, e1, e2⟩

theorem resize_storage {s : MemState} {h : Nat} (size : Nat) (mallocOk : Bool)
    (hs : StorageOk s) (hk : ∃ b ∈ table s, b.offset = h) :
    ∃ s1 r, mem_resize s h size mallocOk = some (s1, r) ∧ StorageOk s1 := by
  obtain ⟨A, cur, B, ht, hcur, hA⟩ := first_split_exists (fun b => b.offset = h) _ hk
  subst hcur
  by_cases hle : size ≤ cur.size
  · exact ⟨s, some cur.offset, mem_resize_noop size mallocOk hs ht hA hle, hs⟩
  · have hlt : cur.size < size := Nat.lt_of_not_le hle
    by_cases hgrow : ∃ next B1, B = next :: B1 ∧ next.free = true ∧
        size ≤ szAdd cur.size next.size
    · obtain ⟨next, B1, rfl, hnf, htot⟩ := hgrow
      rw [mem_resize_grow size mallocOk hs ht hA hlt hnf htot]
      obtain ⟨s1, e1, e2, _⟩ := growInPlace_spec (szAdd cur.size next.size) size mallocOk hs ht
      exact ⟨s1, _, e1, e2⟩
    · rw [mem_resize_relocate size mallocOk hs ht hA hlt]
      · obtain ⟨s1, r, e1, hs1, hkeep, _⟩ := alloc_storage hs size
        cases r with
        | none => exact ⟨s1, none, by simp [relocate, e1], hs1⟩
        | some np =>
          have hunfit : fits size cur = false := by
            by_contra hcon
            have := ((fits_iff size cur).mp (by simpa using hcon)).2
            omega
          have hcur1 : cur ∈ table s1 := hkeep cur (by rw [ht]; simp) hunfit
          obtain ⟨s2, f1, f2⟩ := free_storage
            (s := { s1 with memoryPool := memcpyPool s1.memoryPool np cur.offset cur.size })
            hs1 ⟨cur, hcur1, rfl⟩
          exact ⟨s2, some np, by simp [relocate, e1, f1], f2⟩
      · intro next B1 hB
        by_cases hnf : next.free = true
        · right
          by_contra hcon
          exact hgrow ⟨next, B1, hB, hnf, Nat.le_of_not_lt hcon⟩
        · left; simpa using hnf

/-- Every call whose handle the lookup finds is defined and keeps the slot array within its
capacity. -/
theorem storage_run : ∀ (cs : List Call) (s : MemState), StorageOk s →
    allHandlesKnown s cs → ∃ s1, runCalls s cs = some s1 ∧ StorageOk s1 := by
  intro cs
  induction cs with
  | nil => intro s hs _; exact ⟨s, rfl, hs⟩
  | cons c cs ih =>
    intro s hs hk
    obtain ⟨hc, hrest⟩ := hk
    have hstep : ∃ s1, stepCall s c = some s1 ∧ StorageOk s1 := by
      cases c with
      | deinit => exact ⟨mem_deinit s, rfl, ⟨rfl, Nat.le_refl _⟩⟩
      | op o =>
        cases o with
        | alloc size =>
          obtain ⟨s1, r, e1, hs1, _⟩ := alloc_storage hs size
          exact ⟨s1, by simp [stepCall, step, e1], hs1⟩
        | free h =>
          obtain ⟨s1, e1, hs1⟩ := free_storage hs hc
          exact ⟨s1, e1, hs1⟩
        | resize h size mallocOk =>
          obtain ⟨s1, r, e1, hs1⟩ := resize_storage size mallocOk hs hc
          exact ⟨s1, by simp [stepCall, step, e1], hs1⟩
    obtain ⟨s1, e1, hs1⟩ := hstep
    obtain ⟨s2, e2, hs2⟩ := ih s1 hs1 (hrest s1 e1)
    exact ⟨s2, by simp [runCalls, e1, e2], hs2⟩

/-- C20. Table storage bound: in every state reachable from `mem_init` by `mem_alloc`,
`mem_free`, `mem_resize` and `mem_deinit` calls (the released or resized handles being
starts of table blocks), no call reads or writes a slot outside the backing array, which has
`blockCapacity` slots, and `blockCount <= blockCapacity` holds; a further `mem_alloc` is
again defined, and when it inserts an entry the array has been doubled exactly when
`blockCount >= blockCapacity`. -/
theorem storage_bound (N : Nat) (arena : List UInt8) (cs : List Call)
    (hk : allHandlesKnown (mem_init N arena) cs) :
    ∃ s, runCalls (mem_init N arena) cs = some s ∧
      s.blockCount ≤ s.blockCapacity ∧ s.blockArray.length = s.blockCapacity ∧
      ∀ size : Nat, ∃ s1 r, mem_alloc s size = some (s1, r) ∧
        s1.blockCount ≤ s1.blockCapacity ∧ s1.blockArray.length = s1.blockCapacity ∧
        ((s1.blockCount = s.blockCount ∧ s1.blockCapacity = s.blockCapacity) ∨
          (s1.blockCount = s.blockCount + 1 ∧
            s1.blockCapacity =
              if s.blockCount ≥ s.blockCapacity then s.blockCapacity * 2
              else s.blockCapacity)) := by
  obtain ⟨s, hrun, hs⟩ := storage_run cs (mem_init N arena) ⟨rfl, Nat.le_refl _⟩ hk
  refine ⟨s, hrun, hs.2, hs.1, fun size => ?_⟩
  obtain ⟨s1, r, e1, hs1, _, hg⟩ := alloc_storage hs size
  exact ⟨s1, r, e1, hs1.2, hs1.1, hg⟩

theorem storage_bound_witness :
    allHandlesKnown (mem_init 100 (List.replicate 100 0))
      [.op (.alloc 30), .op (.alloc 20), .op (.alloc 10), .op (.free 30),
        .op (.resize 0 45 true), .op (.free 0), .deinit, .op (.alloc 5)] ∧
    ∃ s, runCalls (mem_init 100 (List.replicate 100 0))
        [.op (.alloc 30), .op (.alloc 20), .op (.alloc 10), .op (.free 30),
          .op (.resize 0 45 true), .op (.free 0), .deinit, .op (.alloc 5)] = some s ∧
      s.blockCount ≤ s.blockCapacity ∧ s.blockArray.length = s.blockCapacity ∧
      ∀ size : Nat, ∃ s1 r, mem_alloc s size = some (s1, r) ∧
        s1.blockCount ≤ s1.blockCapacity ∧ s1.blockArray.length = s1.blockCapacity ∧
        ((s1.blockCount = s.blockCount ∧ s1.blockCapacity = s.blockCapacity) ∨
          (s1.blockCount = s.blockCount + 1 ∧
            s1.blockCapacity =
              if s.blockCount ≥ s.blockCapacity then s.blockCapacity * 2
              else s.blockCapacity)) :=
  ⟨by decide, storage_bound 100 (List.replicate 100 0) _ (by decide)⟩

/-! ## The linked list -/

theorem leBytes_length : ∀ (k v : Nat), (leBytes k v).length = k := by
  intro k
  induction k with
  | zero => intro v; rfl
  | succ k ih => intro v; simp [leBytes, ih]

theorem leValue_leBytes : ∀ (k v : Nat), leValue (leBytes k v) = v % 256 ^ k := by
  intro k
  induction k with
  | zero => intro v; simp [leBytes, leValue, Nat.mod_one]
  | succ k ih =>
    intro v
    have hb : (UInt8.ofNat (v % 256)).toNat = v % 256 := by
      show (v % 256) % 256 = v % 256
      exact Nat.mod_mod _ _
    simp only [leBytes, leValue, ih, hb]
    rw [Nat.pow_succ, Nat.mul_comm (256 ^ k) 256, Nat.mod_mul]

theorem readBytes_getElem? (pool : List UInt8) (off n j : Nat) :
    (readBytes pool off n)[j]? = if j < n then pool[off + j]? else none := by
  unfold readBytes
  rw [List.getElem?_take]
  split
  · rw [List.getElem?_drop]
  · rfl

theorem writeBytes_getElem? {pool : List UInt8} {off : Nat} {bytes : List UInt8}
    (h : off + bytes.length ≤ pool.length) (j : Nat) :
    (writeBytes pool off bytes)[j]? =
      if j < off then pool[j]? else if j < off + bytes.length then bytes[j - off]?
      else pool[j]? := by
  unfold writeBytes
  have h1 : (pool.take off).length = off := by rw [List.length_take]; omega
  by_cases hj : j < off
  · rw [if_pos hj, List.getElem?_append_left (by omega), List.getElem?_take, if_pos hj]
  · rw [if_neg hj, List.getElem?_append_right (by omega), h1]
    by_cases hj2 : j < off + bytes.length
    · rw [if_pos hj2, List.getElem?_append_left (by omega)]
    · rw [if_neg hj2, List.getElem?_append_right (by omega), List.getElem?_drop]
      congr 1
      omega

theorem writeBytes_length {pool : List UInt8} {off : Nat} {bytes : List UInt8}
    (h : off + bytes.length ≤ pool.length) :
    (writeBytes pool off bytes).length = pool.length := by
  unfold writeBytes
  simp only [List.length_append, List.length_take, List.length_drop]
  omega

theorem readBytes_write_same {pool : List UInt8} {off : Nat} {bytes : List UInt8}
    (h : off + bytes.length ≤ pool.length) :
    readBytes (writeBytes pool off bytes) off bytes.length = bytes := by
  apply List.ext_getElem?
  intro j
  rw [readBytes_getElem?, writeBytes_getElem? h]
  by_cases hj : j < bytes.length
  · rw [if_pos hj, if_neg (by omega), if_pos (by omega)]
    congr 1
    omega
  · rw [if_neg hj]
    exact (List.getElem?_eq_none (by omega)).symm

theorem readBytes_write_other {pool : List UInt8} {off : Nat} {bytes : List UInt8}
    (h : off + bytes.length ≤ pool.length) {off2 n : Nat}
    (hd : off2 + n ≤ off ∨ off + bytes.length ≤ off2) :
    readBytes (writeBytes pool off bytes) off2 n = readBytes pool off2 n := by
  apply List.ext_getElem?
  intro j
  rw [readBytes_getElem?, readBytes_getElem?, writeBytes_getElem? h]
  by_cases hj : j < n
  · rw [if_pos hj, if_pos hj]
    rcases hd with hd | hd
    · rw [if_pos (by omega)]
    · rw [if_neg (by omega), if_neg (by omega)]
  · rw [if_neg hj, if_neg hj]

theorem leValue_lt : ∀ (bs : List UInt8), leValue bs < 256 ^ bs.length := by
  intro bs
  induction bs with
  | nil => simp [leValue]
  | cons b bs ih =>
    have hb : b.toNat < 256 := b.val.isLt
    simp only [leValue, List.length_cons, Nat.pow_succ]
    have : 256 * leValue bs + 256 ≤ 256 * 256 ^ bs.length := by
      have := Nat.mul_le_mul_left 256 (Nat.succ_le_of_lt ih)
      rw [Nat.mul_succ] at this
      exact this
    rw [Nat.mul_comm (256 ^ bs.length) 256]
    omega

theorem readNext_lt (pool : List UInt8) (o : Nat) : readNext pool o < SIZE_MOD := by
  unfold readNext
  have h1 := leValue_lt (readBytes pool (o + 8) 8)
  have h2 : (readBytes pool (o + 8) 8).length ≤ 8 := by
    unfold readBytes
    exact List.length_take_le _ _
  have h3 : 256 ^ (readBytes pool (o + 8) 8).length ≤ 256 ^ 8 :=
    Nat.pow_le_pow_right (by decide) h2
  have h4 : (256 : Nat) ^ 8 = SIZE_MOD := by decide
  omega

theorem writeData_length {pool : List UInt8} {o : Nat} (d : Nat)
    (h : o + NODE_SIZE ≤ pool.length) : (writeData pool o d).length = pool.length := by
  have h16 : NODE_SIZE = 16 := rfl
  exact writeBytes_length (by rw [leBytes_length]; omega)

theorem writeNext_length {pool : List UInt8} {o : Nat} (v : Nat)
    (h : o + NODE_SIZE ≤ pool.length) : (writeNext pool o v).length = pool.length := by
  have h16 : NODE_SIZE = 16 := rfl
  exact writeBytes_length (by rw [leBytes_length]; omega)

theorem readData_writeData {pool : List UInt8} {o : Nat} (d : Nat)
    (h : o + NODE_SIZE ≤ pool.length) : readData (writeData pool o d) o = d % 65536 := by
  have h16 : NODE_SIZE = 16 := rfl
  unfold readData writeData
  have := @readBytes_write_same pool o (leBytes 2 d) (by rw [leBytes_length]; omega)
  rw [leBytes_length] at this
  rw [this, leValue_leBytes]
  rfl

theorem readNext_writeNext {pool : List UInt8} {o : Nat} (v : Nat)
    (h : o + NODE_SIZE ≤ pool.length) : readNext (writeNext pool o v) o = v % SIZE_MOD := by
  have h16 : NODE_SIZE = 16 := rfl
  unfold readNext writeNext
  have := @readBytes_write_same pool (o + 8) (leBytes 8 v) (by rw [leBytes_length]; omega)
  rw [leBytes_length] at this
  rw [this, leValue_leBytes]
  rfl

theorem readData_writeNext {pool : List UInt8} {o : Nat} (v : Nat)
    (h : o + NODE_SIZE ≤ pool.length) : readData (writeNext pool o v) o = readData pool o := by
  have h16 : NODE_SIZE = 16 := rfl
  unfold readData writeNext
  rw [readBytes_write_other (by rw [leBytes_length]; omega) (Or.inl (by omega))]

theorem readNext_writeData {pool : List UInt8} {o : Nat} (d : Nat)
    (h : o + NODE_SIZE ≤ pool.length) : readNext (writeData pool o d) o = readNext pool o := by
  have h16 : NODE_SIZE = 16 := rfl
  unfold readNext writeData
  rw [readBytes_write_other (by rw [leBytes_length]; omega)
    (Or.inr (by rw [leBytes_length]; omega))]

/-- A store to the datum of a node leaves every node that does not overlap it as it is. -/
theorem sameNode_writeData {pool : List UInt8} {o o2 : Nat} (d : Nat)
    (h : o + NODE_SIZE ≤ pool.length) (hs : Sep o o2) :
    SameNode pool (writeData pool o d) o2 := by
  have h16 : NODE_SIZE = 16 := rfl
  unfold Sep at hs
  unfold SameNode readData readNext writeData
  constructor
  · rw [readBytes_write_other (by rw [leBytes_length]; omega)
      (by rw [leBytes_length]; omega)]
  · rw [readBytes_write_other (by rw [leBytes_length]; omega)
      (by rw [leBytes_length]; omega)]

/-- A store to the `next` of a node leaves every node that does not overlap it as it is. -/
theorem sameNode_writeNext {pool : List UInt8} {o o2 : Nat} (v : Nat)
    (h : o + NODE_SIZE ≤ pool.length) (hs : Sep o o2) :
    SameNode pool (writeNext pool o v) o2 := by
  have h16 : NODE_SIZE = 16 := rfl
  unfold Sep at hs
  unfold SameNode readData readNext writeNext
  constructor
  · rw [readBytes_write_other (by rw [leBytes_length]; omega)
      (by rw [leBytes_length]; omega)]
  · rw [readBytes_write_other (by rw [leBytes_length]; omega)
      (by rw [leBytes_length]; omega)]

theorem sameNode_trans {p1 p2 p3 : List UInt8} {o : Nat} (h1 : SameNode p1 p2 o)
    (h2 : SameNode p2 p3 o) : SameNode p1 p3 o :=
  ⟨h2.1.trans h1.1, h2.2.trans h1.2⟩

theorem sep_symm {a b : Nat} (h : Sep a b) : Sep b a := Or.symm h

theorem sep_ne {a b : Nat} (h : Sep a b) : a ≠ b := by
  have h16 : NODE_SIZE = 16 := rfl
  unfold Sep at h
  omega

theorem linked_nil (base : Nat) (pool : List UInt8) (st : Nat) :
    Linked base pool st [] ↔ st = 0 :=
  Iff.rfl

theorem linked_cons (base : Nat) (pool : List UInt8) (st h d : Nat)
    (cs : List (Nat × Nat)) :
    Linked base pool st ((h, d) :: cs) ↔
      st = base + h ∧ h + NODE_SIZE ≤ pool.length ∧ readData pool h = d ∧
        Linked base pool (readNext pool h) cs :=
  Iff.rfl

/-- A chain is still there in a pool of the same length that has the same nodes. -/
theorem linked_frame {base : Nat} {pool pool1 : List UInt8}
    (hlen : pool1.length = pool.length) :
    ∀ (cells : List (Nat × Nat)) (st : Nat), Linked base pool st cells →
      (∀ c ∈ cells, SameNode pool pool1 c.1) → Linked base pool1 st cells := by
  intro cells
  induction cells with
  | nil => intro st h _; exact h
  | cons c cs ih =>
    obtain ⟨h, d⟩ := c
    intro st hl hs
    rw [linked_cons] at hl ⊢
    obtain ⟨h1, h2, h3, h4⟩ := hl
    obtain ⟨s1, s2⟩ := hs (h, d) (List.mem_cons_self _ _)
    refine ⟨h1, by rw [hlen]; exact h2, by rw [s1]; exact h3, ?_⟩
    rw [s2]
    exact ih _ h4 (fun c hc => hs c (List.mem_cons_of_mem _ hc))

theorem nodeOffset_at {base : Nat} {pool : List UInt8} {h : Nat} (hb : 0 < base)
    (hh : h + NODE_SIZE ≤ pool.length) : nodeOffset base pool (base + h) = some h := by
  unfold nodeOffset
  have h1 : base + h - base = h := by omega
  rw [h1, if_pos ⟨by omega, by omega, hh⟩]

theorem displayLoop_linked {base : Nat} {pool : List UInt8} (hb : 0 < base) :
    ∀ (cells : List (Nat × Nat)) (st fuel : Nat), Linked base pool st cells →
      cells.length ≤ fuel → displayLoop base pool fuel st = some (cells.map Prod.snd) := by
  intro cells
  induction cells with
  | nil =>
    intro st fuel hl _
    rw [linked_nil] at hl
    subst hl
    cases fuel <;> rfl
  | cons c cs ih =>
    obtain ⟨h, d⟩ := c
    intro st fuel hl hf
    rw [linked_cons] at hl
    obtain ⟨h1, h2, h3, h4⟩ := hl
    subst h1
    obtain ⟨f, rfl⟩ : ∃ f, fuel = f + 1 := ⟨fuel - 1, by simp at hf; omega⟩
    have := ih _ f h4 (by simp at hf; omega)
    have hne : ¬ base + h = 0 := by omega
    simp only [displayLoop, if_neg hne, nodeOffset_at hb h2, this, h3, List.map_cons]

theorem countLoop_linked {base : Nat} {pool : List UInt8} (hb : 0 < base) :
    ∀ (cells : List (Nat × Nat)) (st fuel count : Nat), Linked base pool st cells →
      cells.length ≤ fuel → count + cells.length ≤ INT_MAX →
      countLoop base pool fuel st count = some (count + cells.length) := by
  intro cells
  induction cells with
  | nil =>
    intro st fuel count hl _ _
    rw [linked_nil] at hl
    subst hl
    cases fuel <;> rfl
  | cons c cs ih =>
    obtain ⟨h, d⟩ := c
    intro st fuel count hl hf hmax
    rw [linked_cons] at hl
    obtain ⟨h1, h2, h3, h4⟩ := hl
    subst h1
    obtain ⟨f, rfl⟩ : ∃ f, fuel = f + 1 := ⟨fuel - 1, by simp at hf; omega⟩
    simp only [List.length_cons] at hmax
    have := ih _ f (count + 1) h4 (by simp at hf; omega) (by omega)
    have hle : count + 1 ≤ INT_MAX := by omega
    have hne : ¬ base + h = 0 := by omega
    simp only [countLoop, if_neg hne, if_pos hle, nodeOffset_at hb h2, this, List.length_cons]
    congr 1
    omega

theorem searchLoop_absent {base : Nat} {pool : List UInt8} {x : Nat} (hb : 0 < base) :
    ∀ (cells : List (Nat × Nat)) (st fuel : Nat), Linked base pool st cells →
      cells.length ≤ fuel → x ∉ cells.map Prod.snd →
      searchLoop base pool x fuel st = some 0 := by
  intro cells
  induction cells with
  | nil =>
    intro st fuel hl _ _
    rw [linked_nil] at hl
    subst hl
    cases fuel <;> rfl
  | cons c cs ih =>
    obtain ⟨h, d⟩ := c
    intro st fuel hl hf hx
    rw [linked_cons] at hl
    obtain ⟨h1, h2, h3, h4⟩ := hl
    subst h1
    simp only [List.map_cons, List.mem_cons, not_or] at hx
    obtain ⟨f, rfl⟩ : ∃ f, fuel = f + 1 := ⟨fuel - 1, by simp at hf; omega⟩
    have := ih _ f h4 (by simp at hf; omega) hx.2
    have hne : ¬ base + h = 0 := by omega
    have hd : ¬ readData pool h = x := by rw [h3]; exact fun e => hx.1 e.symm
    simp only [searchLoop, if_neg hne, nodeOffset_at hb h2, if_neg hd, this]

/-- The pointer that heads a chain with a first node is not `NULL`. -/
theorem linked_head {base : Nat} {pool : List UInt8} {st h d : Nat} {cs : List (Nat × Nat)}
    (hl : Linked base pool st ((h, d) :: cs)) : st = base + h := hl.1

/-- The last node of a chain: its place, its datum and its `next`, which is `NULL`. -/
theorem linked_last {base : Nat} {pool : List UInt8} {q dq : Nat} :
    ∀ (cs : List (Nat × Nat)) (st : Nat), Linked base pool st (cs ++ [(q, dq)]) →
      q + NODE_SIZE ≤ pool.length ∧ readData pool q = dq ∧ readNext pool q = 0 := by
  intro cs
  induction cs with
  | nil =>
    intro st hl
    rw [List.nil_append, linked_cons] at hl
    obtain ⟨_, h2, h3, h4⟩ := hl
    exact ⟨h2, h3, h4⟩
  | cons c cs ih =>
    obtain ⟨h, d⟩ := c
    intro st hl
    rw [List.cons_append, linked_cons] at hl
    exact ih _ hl.2.2.2

theorem lastNode_linked {base : Nat} {pool : List UInt8} {q dq : Nat} (hb : 0 < base) :
    ∀ (cs : List (Nat × Nat)) (st fuel : Nat), Linked base pool st (cs ++ [(q, dq)]) →
      cs.length < fuel → lastNode base pool fuel st = some (base + q) := by
  intro cs
  induction cs with
  | nil =>
    intro st fuel hl hf
    rw [List.nil_append, linked_cons] at hl
    obtain ⟨h1, h2, _, h4⟩ := hl
    rw [linked_nil] at h4
    subst h1
    obtain ⟨f, rfl⟩ : ∃ f, fuel = f + 1 := ⟨fuel - 1, by simp at hf; omega⟩
    simp only [lastNode, nodeOffset_at hb h2, h4, ne_eq, not_true_eq_false, if_false]
  | cons c cs ih =>
    obtain ⟨h, d⟩ := c
    intro st fuel hl hf
    rw [List.cons_append, linked_cons] at hl
    obtain ⟨h1, h2, _, h4⟩ := hl
    subst h1
    obtain ⟨f, rfl⟩ : ∃ f, fuel = f + 1 := ⟨fuel - 1, by simp at hf; omega⟩
    have hnx : readNext pool h ≠ 0 := by
      cases cs with
      | nil => rw [List.nil_append, linked_cons] at h4; omega
      | cons c2 cs2 =>
        obtain ⟨a, b⟩ := c2
        rw [List.cons_append, linked_cons] at h4
        omega
    have := ih _ f h4 (by simp at hf; omega)
    simp only [lastNode, nodeOffset_at hb h2, if_pos hnx, this]

/-- Linking a fresh node after the last one. -/
theorem linked_snoc {base : Nat} {pool pool1 : List UInt8} {q dq pn d : Nat}
    (hlen : pool1.length = pool.length) (hq1 : readData pool1 q = dq)
    (hq2 : readNext pool1 q = base + pn) (hn0 : pn + NODE_SIZE ≤ pool1.length)
    (hn1 : readData pool1 pn = d) (hn2 : readNext pool1 pn = 0) :
    ∀ (cs : List (Nat × Nat)) (st : Nat), Linked base pool st (cs ++ [(q, dq)]) →
      (∀ c ∈ cs, SameNode pool pool1 c.1) →
      Linked base pool1 st (cs ++ [(q, dq), (pn, d)]) := by
  intro cs
  induction cs with
  | nil =>
    intro st hl _
    rw [List.nil_append, linked_cons] at hl
    obtain ⟨h1, h2, _, _⟩ := hl
    rw [List.nil_append, linked_cons]
    refine ⟨h1, by rw [hlen]; exact h2, hq1, ?_⟩
    rw [hq2, linked_cons]
    exact ⟨rfl, hn0, hn1, hn2⟩
  | cons c cs ih =>
    obtain ⟨h, e⟩ := c
    intro st hl hs
    rw [List.cons_append, linked_cons] at hl ⊢
    obtain ⟨h1, h2, h3, h4⟩ := hl
    obtain ⟨s1, s2⟩ := hs (h, e) (List.mem_cons_self _ _)
    refine ⟨h1, by rw [hlen]; exact h2, by rw [s1]; exact h3, ?_⟩
    rw [s2]
    exact ih _ h4 (fun c hc => hs c (List.mem_cons_of_mem _ hc))

/-- Unlinking the node after `q`: the predecessor takes over its successor. -/
theorem linked_unlink {base : Nat} {pool pool1 : List UInt8} {q dq h x : Nat}
    {post : List (Nat × Nat)} (hlen : pool1.length = pool.length)
    (hq1 : readData pool1 q = dq) (hq2 : readNext pool1 q = readNext pool h)
    (hpost : ∀ c ∈ post, SameNode pool pool1 c.1) :
    ∀ (pre : List (Nat × Nat)) (st : Nat),
      Linked base pool st (pre ++ (q, dq) :: (h, x) :: post) →
      (∀ c ∈ pre, SameNode pool pool1 c.1) →
      Linked base pool1 st (pre ++ (q, dq) :: post) := by
  intro pre
  induction pre with
  | nil =>
    intro st hl _
    rw [List.nil_append, linked_cons, linked_cons] at hl
    obtain ⟨h1, h2, _, _, _, _, h7⟩ := hl
    rw [List.nil_append, linked_cons]
    refine ⟨h1, by rw [hlen]; exact h2, hq1, ?_⟩
    rw [hq2]
    exact linked_frame hlen post _ h7 hpost
  | cons c cs ih =>
    obtain ⟨h0, e⟩ := c
    intro st hl hs
    rw [List.cons_append, linked_cons] at hl ⊢
    obtain ⟨h1, h2, h3, h4⟩ := hl
    obtain ⟨s1, s2⟩ := hs (h0, e) (List.mem_cons_self _ _)
    refine ⟨h1, by rw [hlen]; exact h2, by rw [s1]; exact h3, ?_⟩
    rw [s2]
    exact ih _ h4 (fun c hc => hs c (List.mem_cons_of_mem _ hc))

theorem lastPtr_snoc (base prev : Nat) (pre : List (Nat × Nat)) (q dq : Nat) :
    lastPtr base prev (pre ++ [(q, dq)]) = base + q := by
  simp [lastPtr, List.foldl_append]

theorem findNode_found {base : Nat} {pool : List UInt8} {x h : Nat}
    {post : List (Nat × Nat)} (hb : 0 < base) :
    ∀ (pre : List (Nat × Nat)) (st prev fuel : Nat),
      Linked base pool st (pre ++ (h, x) :: post) → x ∉ pre.map Prod.snd →
      pre.length < fuel →
      findNode base pool x fuel prev st = some (lastPtr base prev pre, base + h) := by
  intro pre
  induction pre with
  | nil =>
    intro st prev fuel hl _ hf
    rw [List.nil_append, linked_cons] at hl
    obtain ⟨h1, h2, h3, _⟩ := hl
    subst h1
    obtain ⟨f, rfl⟩ : ∃ f, fuel = f + 1 := ⟨fuel - 1, by simp at hf; omega⟩
    have hne : ¬ base + h = 0 := by omega
    simp only [findNode, if_neg hne, nodeOffset_at hb h2, h3, ne_eq, not_true_eq_false,
      if_false]
    rfl
  | cons c cs ih =>
    obtain ⟨h1, d1⟩ := c
    intro st prev fuel hl hx hf
    rw [List.cons_append, linked_cons] at hl
    obtain ⟨e1, h2, h3, h4⟩ := hl
    subst e1
    simp only [List.map_cons, List.mem_cons, not_or] at hx
    obtain ⟨f, rfl⟩ : ∃ f, fuel = f + 1 := ⟨fuel - 1, by simp at hf; omega⟩
    have := ih _ (base + h1) f h4 hx.2 (by simp at hf; omega)
    have hne : ¬ base + h1 = 0 := by omega
    have hd : readData pool h1 ≠ x := by rw [h3]; exact fun e => hx.1 e.symm
    simp only [findNode, if_neg hne, nodeOffset_at hb h2, if_pos hd, this]
    rfl

theorem findNode_absent {base : Nat} {pool : List UInt8} {x : Nat} (hb : 0 < base) :
    ∀ (cells : List (Nat × Nat)) (st prev fuel : Nat),
      Linked base pool st cells → x ∉ cells.map Prod.snd → cells.length ≤ fuel →
      findNode base pool x fuel prev st = some (lastPtr base prev cells, 0) := by
  intro cells
  induction cells with
  | nil =>
    intro st prev fuel hl _ _
    rw [linked_nil] at hl
    subst hl
    cases fuel <;> rfl
  | cons c cs ih =>
    obtain ⟨h1, d1⟩ := c
    intro st prev fuel hl hx hf
    rw [linked_cons] at hl
    obtain ⟨e1, h2, h3, h4⟩ := hl
    subst e1
    simp only [List.map_cons, List.mem_cons, not_or] at hx
    obtain ⟨f, rfl⟩ : ∃ f, fuel = f + 1 := ⟨fuel - 1, by simp at hf; omega⟩
    have := ih _ (base + h1) f h4 hx.2 (by simp at hf; omega)
    have hne : ¬ base + h1 = 0 := by omega
    have hd : readData pool h1 ≠ x := by rw [h3]; exact fun e => hx.1 e.symm
    simp only [findNode, if_neg hne, nodeOffset_at hb h2, if_pos hd, this]
    rfl

theorem first_cell_split (x : Nat) : ∀ (cells : List (Nat × Nat)), x ∈ cells.map Prod.snd →
    ∃ pre h post, cells = pre ++ (h, x) :: post ∧ x ∉ pre.map Prod.snd := by
  intro cells
  induction cells with
  | nil => intro h; simp at h
  | cons c cs ih =>
    obtain ⟨h1, d1⟩ := c
    intro hx
    by_cases hd : d1 = x
    · subst hd
      exact ⟨[], h1, cs, rfl, by simp⟩
    · have hx2 : x ∈ cs.map Prod.snd := by
        simp only [List.map_cons, List.mem_cons] at hx
        rcases hx with hx | hx
        · exact absurd hx.symm hd
        · exact hx
      obtain ⟨pre, h, post, e1, e2⟩ := ih hx2
      refine ⟨(h1, d1) :: pre, h, post, by rw [e1]; rfl, ?_⟩
      simp only [List.map_cons, List.mem_cons, not_or]
      exact ⟨fun h => hd h.symm, e2⟩

theorem listInv_init {N : Nat} (base : Nat) (arena : List UInt8) (hpos : 0 < N)
    (hN : N < SIZE_MOD) (hlen : arena.length = N) (hb : 0 < base)
    (hbe : base + N ≤ SIZE_MOD) : ListInv N (list_init N base arena) [] :=
  ⟨inv_init arena hpos hN, hlen, hb, hbe, rfl, List.Pairwise.nil,
    fun c hc => (by cases hc), fun c hc => (by cases hc)⟩

/-- One `list_insert` that obtains storage appends a node in a fresh block. -/
theorem list_insert_spec {N fuel : Nat} {l : ListState} {cells : List (Nat × Nat)}
    (hinv : ListInv N l cells) (hf : cells.length ≤ fuel) {d : Nat} (hd : d < 65536)
    (hob : ∃ m p, mem_alloc l.mem NODE_SIZE = some (m, some p)) :
    ∃ l1 p, list_insert fuel l d = some l1 ∧ ListInv N l1 (cells ++ [(p, d)]) := by
  obtain ⟨m, p, hal⟩ := hob
  obtain ⟨hinv1, hpool, hnew, hend, hold⟩ :=
    alloc_block_spec hinv.mem (by decide : 0 < NODE_SIZE) hal
  have hb := hinv.basePos
  have hbe := hinv.baseEnd
  have h16 : NODE_SIZE = 16 := rfl
  have hlenm : m.memoryPool.length = N := by rw [hpool]; exact hinv.len
  have hp16 : p + NODE_SIZE ≤ m.memoryPool.length := by rw [hlenm]; exact hend
  have hne : ¬ l.base + p = 0 := by omega
  have hl0 : (writeData m.memoryPool p d).length = m.memoryPool.length :=
    writeData_length d hp16
  have hp16a : p + NODE_SIZE ≤ (writeData m.memoryPool p d).length := by rw [hl0]; exact hp16
  have hsepc : ∀ c ∈ cells, Sep p c.1 := by
    intro c hc
    have := (hold _ (hinv.live c hc) rfl).2
    simp only at this
    unfold Sep
    omega
  obtain ⟨pool1, hP1⟩ : ∃ pool1, pool1 = writeNext (writeData m.memoryPool p d) p 0 :=
    ⟨_, rfl⟩
  have hl1 : pool1.length = m.memoryPool.length := by
    rw [hP1, writeNext_length 0 hp16a, hl0]
  have hd1 : readData pool1 p = d := by
    rw [hP1, readData_writeNext 0 hp16a, readData_writeData d hp16]
    exact Nat.mod_eq_of_lt hd
  have hn1 : readNext pool1 p = 0 := by
    rw [hP1, readNext_writeNext 0 hp16a]
    rfl
  have hsame1 : ∀ o, Sep p o → SameNode m.memoryPool pool1 o := by
    intro o ho
    rw [hP1]
    exact sameNode_trans (sameNode_writeData d hp16 ho) (sameNode_writeNext 0 hp16a ho)
  have hp16b : p + NODE_SIZE ≤ pool1.length := by rw [hl1]; exact hp16
  have hlinked : Linked l.base m.memoryPool l.head cells := by
    rw [hpool]; exact hinv.linked
  have hlive : ∀ c ∈ cells ++ [(p, d)],
      ({ offset := c.1, size := NODE_SIZE, free := false } : Block) ∈ table m := by
    intro c hc
    rcases List.mem_append.mp hc with hc | hc
    · exact (hold _ (hinv.live c hc) rfl).1
    · simp only [List.mem_singleton] at hc
      subst hc
      exact hnew
  have hsmall : ∀ c ∈ cells ++ [(p, d)], c.2 < 65536 := by
    intro c hc
    rcases List.mem_append.mp hc with hc | hc
    · exact hinv.small c hc
    · simp only [List.mem_singleton] at hc
      subst hc
      exact hd
  have hsep : (cells ++ [(p, d)]).Pairwise (fun c e => Sep c.1 e.1) := by
    rw [List.pairwise_append]
    refine ⟨hinv.sep, List.pairwise_singleton _ _, ?_⟩
    intro a ha b hb
    simp only [List.mem_singleton] at hb
    subst hb
    exact sep_symm (hsepc a ha)
  have hoff : nodeOffset l.base m.memoryPool (l.base + p) = some p := nodeOffset_at hb hp16
  rcases List.eq_nil_or_concat cells with hnil | ⟨cs, c, hcs⟩
  · subst hnil
    have hh : l.head = 0 := hinv.linked
    refine ⟨{ mem := { m with memoryPool := pool1 }, base := l.base, head := l.base + p }, p,
      ?_, inv_pool hinv1 _, ?_, hb, hbe, ?_, hsep, hlive, hsmall⟩
    · simp only [list_insert, hal, allocPtr, if_neg hne, hoff, hh, if_true]
      rw [← hP1]
    · show pool1.length = N
      rw [hl1, hlenm]
    · show Linked l.base pool1 (l.base + p) ([] ++ [(p, d)])
      rw [List.nil_append, linked_cons]
      exact ⟨rfl, hp16b, hd1, hn1⟩
  · rw [List.concat_eq_append] at hcs
    obtain ⟨q, dq⟩ := c
    subst hcs
    have hh : ¬ l.head = 0 := by
      have := hinv.linked
      cases cs with
      | nil => rw [List.nil_append, linked_cons] at this; omega
      | cons c2 cs2 =>
        obtain ⟨a, b⟩ := c2
        rw [List.cons_append, linked_cons] at this
        omega
    obtain ⟨hq16, hqd, _⟩ := linked_last cs l.head hlinked
    have hsq : Sep p q := hsepc (q, dq) (by simp)
    have hl1linked : Linked l.base pool1 l.head (cs ++ [(q, dq)]) :=
      linked_frame hl1 _ _ hlinked (fun c hc => hsame1 c.1 (hsepc c hc))
    have hlast := lastNode_linked hb cs l.head fuel hl1linked (by simp at hf; omega)
    have hq16a : q + NODE_SIZE ≤ pool1.length := by rw [hl1]; exact hq16
    have hoffq : nodeOffset l.base pool1 (l.base + q) = some q := nodeOffset_at hb hq16a
    obtain ⟨pool2, hP2⟩ : ∃ pool2, pool2 = writeNext pool1 q (l.base + p) := ⟨_, rfl⟩
    have hl2 : pool2.length = pool1.length := by rw [hP2, writeNext_length _ hq16a]
    have hsame2 : ∀ o, Sep q o → SameNode pool1 pool2 o := by
      intro o ho
      rw [hP2]
      exact sameNode_writeNext _ hq16a ho
    have hcsq : ∀ c ∈ cs, Sep q c.1 := by
      intro c hc
      have := hinv.sep
      rw [List.pairwise_append] at this
      exact sep_symm (this.2.2 c hc (q, dq) (by simp))
    have hq1 : readData pool2 q = dq := by
      rw [hP2, readData_writeNext _ hq16a, (hsame1 q hsq).1]
      exact hqd
    have hq2 : readNext pool2 q = l.base + p := by
      rw [hP2, readNext_writeNext _ hq16a]
      apply Nat.mod_eq_of_lt
      omega
    have hn1b : readData pool2 p = d := by rw [(hsame2 p (sep_symm hsq)).1]; exact hd1
    have hn2b : readNext pool2 p = 0 := by rw [(hsame2 p (sep_symm hsq)).2]; exact hn1
    have hsn := linked_snoc (hl2.trans hl1) hq1 hq2 (by rw [hl2]; exact hp16b) hn1b hn2b
      cs l.head hlinked
      (fun c hc => sameNode_trans (hsame1 c.1 (hsepc c (by simp [hc])))
        (hsame2 c.1 (hcsq c hc)))
    refine ⟨{ mem := { m with memoryPool := pool2 }, base := l.base, head := l.head }, p,
      ?_, inv_pool hinv1 _, ?_, hb, hbe, ?_, hsep, hlive, hsmall⟩
    · simp only [list_insert, hal, allocPtr, if_neg hne, hoff, if_neg hh]
      rw [← hP1]
      simp only [hlast, hoffq]
      rw [← hP2]
    · show pool2.length = N
      rw [hl2, hl1, hlenm]
    · show Linked l.base pool2 l.head (cs ++ [(q, dq)] ++ [(p, d)])
      rw [List.append_assoc]
      exact hsn

/-- The list after the inserts of `ds`, each of which obtained storage. -/
theorem insertAll_spec {N fuel : Nat} : ∀ (ds : List Nat) (l : ListState)
    (cells : List (Nat × Nat)), ListInv N l cells → cells.length + ds.length ≤ fuel →
    (∀ d ∈ ds, d < 65536) → allObtained fuel l ds →
    ∃ l1 cells1, insertAll fuel l ds = some l1 ∧ ListInv N l1 cells1 ∧
      cells1.map Prod.snd = cells.map Prod.snd ++ ds := by
  intro ds
  induction ds with
  | nil =>
    intro l cells hinv _ _ _
    exact ⟨l, cells, rfl, hinv, by simp⟩
  | cons d ds ih =>
    intro l cells hinv hf hsm hob
    obtain ⟨h1, h2⟩ := hob
    have hins : ∃ l1 p, list_insert fuel l d = some l1 ∧ ListInv N l1 (cells ++ [(p, d)]) :=
      list_insert_spec hinv (by simp at hf; omega) (hsm d (List.mem_cons_self _ _)) h1
    obtain ⟨l1, p, e1, hinv1⟩ := hins
    obtain ⟨l2, cells2, e2, hinv2, e3⟩ :=
      ih l1 (cells ++ [(p, d)]) hinv1 (by simp at hf ⊢; omega)
        (fun e he => hsm e (List.mem_cons_of_mem _ he)) (h2 l1 e1)
    refine ⟨l2, cells2, ?_, hinv2, ?_⟩
    · simp only [insertAll, e1, e2]
    · rw [e3]; simp

/-- The node in the middle of a chain: its place, its datum and the chain after it. -/
theorem linked_at {base : Nat} {pool : List UInt8} {h x : Nat} {post : List (Nat × Nat)} :
    ∀ (pre : List (Nat × Nat)) (st : Nat), Linked base pool st (pre ++ (h, x) :: post) →
      h + NODE_SIZE ≤ pool.length ∧ readData pool h = x ∧
        Linked base pool (readNext pool h) post := by
  intro pre
  induction pre with
  | nil =>
    intro st hl
    rw [List.nil_append, linked_cons] at hl
    exact hl.2
  | cons c cs ih =>
    obtain ⟨h0, e⟩ := c
    intro st hl
    rw [List.cons_append, linked_cons] at hl
    exact ih _ hl.2.2.2

theorem linked_head_ne {base : Nat} {pool : List UInt8} {h x : Nat}
    {pre post : List (Nat × Nat)} {st : Nat} (hb : 0 < base)
    (hl : Linked base pool st (pre ++ (h, x) :: post)) : ¬ st = 0 := by
  cases pre with
  | nil => rw [List.nil_append, linked_cons] at hl; omega
  | cons c2 cs2 =>
    obtain ⟨a, b⟩ := c2
    rw [List.cons_append, linked_cons] at hl
    omega

/-- Deleting a value the list does not hold changes nothing. -/
theorem list_delete_absent {N fuel : Nat} {l : ListState} {cells : List (Nat × Nat)}
    (hinv : ListInv N l cells) (hf : cells.length ≤ fuel) {x : Nat}
    (hx : x ∉ cells.map Prod.snd) : list_delete fuel l x = some l := by
  by_cases hh : l.head = 0
  · simp only [list_delete, hh, if_true]
  · have := findNode_absent hinv.basePos cells l.head 0 fuel hinv.linked hx hf
    simp only [list_delete, if_neg hh, this, if_true]

/-- Deleting a value the list holds unlinks its first node and frees the block of that node. -/
theorem list_delete_found {N fuel : Nat} {l : ListState} {pre post : List (Nat × Nat)}
    {h x : Nat} (hinv : ListInv N l (pre ++ (h, x) :: post))
    (hf : (pre ++ (h, x) :: post).length ≤ fuel) (hx : x ∉ pre.map Prod.snd) :
    ∃ l1, list_delete fuel l x = some l1 ∧ ListInv N l1 (pre ++ post) ∧
      mem_free { l.mem with memoryPool := unlinkedPool l.mem.memoryPool pre h } h =
        some l1.mem ∧
      ¬ liveHandle l1.mem h := by
  have hb := hinv.basePos
  have hbe := hinv.baseEnd
  have h16 : NODE_SIZE = 16 := rfl
  have hl := hinv.linked
  have hcur := hinv.live (h, x) (by simp)
  have hsepall := hinv.sep
  rw [List.pairwise_append, List.pairwise_cons] at hsepall
  obtain ⟨hseppre, ⟨hseph, hseppost⟩, hcross⟩ := hsepall
  have hsep1 : (pre ++ post).Pairwise (fun c e => Sep c.1 e.1) := by
    rw [List.pairwise_append]
    exact ⟨hseppre, hseppost, fun a ha b hb => hcross a ha b (List.mem_cons_of_mem _ hb)⟩
  have hne : ∀ c ∈ pre ++ post, c.1 ≠ h := by
    intro c hc
    rcases List.mem_append.mp hc with hc | hc
    · exact sep_ne (hcross c hc (h, x) (List.mem_cons_self _ _))
    · exact fun e => sep_ne (hseph c hc) e.symm
  have hmemc : ∀ c ∈ pre ++ post, c ∈ pre ++ (h, x) :: post := by
    intro c hc
    rcases List.mem_append.mp hc with hc | hc
    · exact List.mem_append_left _ hc
    · exact List.mem_append_right _ (List.mem_cons_of_mem _ hc)
  have hsmall : ∀ c ∈ pre ++ post, c.2 < 65536 := fun c hc => hinv.small c (hmemc c hc)
  have hh := linked_head_ne hb hl
  obtain ⟨hh16, _, hpostl⟩ := linked_at pre l.head hl
  have hfind := findNode_found hb pre l.head 0 fuel hl hx (by simp at hf; omega)
  have hcne : ¬ l.base + h = 0 := by omega
  have hoffh : nodeOffset l.base l.mem.memoryPool (l.base + h) = some h :=
    nodeOffset_at hb hh16
  have hsub : l.base + h - l.base = h := by omega
  have hble : l.base ≤ l.base + h := by omega
  rcases List.eq_nil_or_concat pre with hnil | ⟨cs, c, hcs⟩
  · subst hnil
    obtain ⟨s1, hfree, hinv1, hp1, hkeep, hdead⟩ := free_block_spec hinv.mem hcur
    have hfree2 : mem_free l.mem h = some s1 := hfree
    have hfind2 : findNode l.base l.mem.memoryPool x fuel 0 l.head = some (0, l.base + h) :=
      hfind
    refine ⟨{ mem := s1, base := l.base, head := readNext l.mem.memoryPool h }, ?_,
      ⟨hinv1, by rw [hp1]; exact hinv.len, hb, hbe, ?_, hsep1, ?_, hsmall⟩, hfree2, hdead⟩
    · simp only [list_delete, if_neg hh, hfind2, if_neg hcne, hoffh, if_true, freePtr,
        if_pos hble, hsub, hfree2]
    · show Linked l.base s1.memoryPool (readNext l.mem.memoryPool h) ([] ++ post)
      rw [hp1, List.nil_append]
      exact hpostl
    · intro c hc
      exact hkeep _ (hinv.live c (hmemc c hc)) rfl (hne c hc)
  · rw [List.concat_eq_append] at hcs
    obtain ⟨q, dq⟩ := c
    subst hcs
    rw [lastPtr_snoc] at hfind
    rw [List.append_assoc] at hl
    obtain ⟨hq16, hqd, _⟩ := linked_at cs l.head hl
    have hqne : ¬ l.base + q = 0 := by omega
    have hoffq : nodeOffset l.base l.mem.memoryPool (l.base + q) = some q :=
      nodeOffset_at hb hq16
    obtain ⟨pool1, hP1⟩ :
        ∃ pool1, pool1 = writeNext l.mem.memoryPool q (readNext l.mem.memoryPool h) :=
      ⟨_, rfl⟩
    have hl1 : pool1.length = l.mem.memoryPool.length := by
      rw [hP1, writeNext_length _ hq16]
    have hsame : ∀ o, Sep q o → SameNode l.mem.memoryPool pool1 o := by
      intro o ho
      rw [hP1]
      exact sameNode_writeNext _ hq16 ho
    have hq1 : readData pool1 q = dq := by
      rw [hP1, readData_writeNext _ hq16]
      exact hqd
    have hq2 : readNext pool1 q = readNext l.mem.memoryPool h := by
      rw [hP1, readNext_writeNext _ hq16]
      exact Nat.mod_eq_of_lt (readNext_lt _ _)
    have hsqpost : ∀ c ∈ post, Sep q c.1 := fun c hc =>
      hcross (q, dq) (by simp) c (List.mem_cons_of_mem _ hc)
    have hsqcs : ∀ c ∈ cs, Sep q c.1 := by
      intro c hc
      rw [List.pairwise_append] at hseppre
      exact sep_symm (hseppre.2.2 c hc (q, dq) (by simp))
    have hunl := linked_unlink hl1 hq1 hq2 (fun c hc => hsame c.1 (hsqpost c hc)) cs l.head hl
      (fun c hc => hsame c.1 (hsqcs c hc))
    have hup : unlinkedPool l.mem.memoryPool (cs ++ [(q, dq)]) h = pool1 := by
      unfold unlinkedPool
      rw [List.getLast?_append, hP1]
      rfl
    obtain ⟨s1, hfree, hinv1, hp1, hkeep, hdead⟩ :=
      free_block_spec (inv_pool hinv.mem pool1) hcur
    have hfree2 : mem_free { l.mem with memoryPool := pool1 } h = some s1 := hfree
    refine ⟨{ mem := s1, base := l.base, head := l.head }, ?_,
      ⟨hinv1, ?_, hb, hbe, ?_, hsep1, ?_, hsmall⟩, by rw [hup]; exact hfree2, hdead⟩
    · simp only [list_delete, if_neg hh, hfind, if_neg hcne, hoffh, if_neg hqne, hoffq,
        freePtr, if_pos hble, hsub]
      rw [← hP1]
      simp only [hfree2]
    · show s1.memoryPool.length = N
      rw [hp1]
      show pool1.length = N
      rw [hl1]
      exact hinv.len
    · show Linked l.base s1.memoryPool l.head (cs ++ [(q, dq)] ++ post)
      rw [hp1, List.append_assoc]
      exact hunl
    · intro c hc
      exact hkeep _ (hinv.live c (hmemc c hc)) rfl (hne c hc)

/-- What `list_display`, `list_count_nodes` and `list_search` return on a linked list. -/
theorem list_views {N fuel : Nat} {l : ListState} {cells : List (Nat × Nat)}
    (hinv : ListInv N l cells) (hf : cells.length ≤ fuel) (x : Nat) :
    list_display fuel l = some (cells.map Prod.snd) ∧
      ((cells.map Prod.snd).length ≤ INT_MAX →
        list_count_nodes fuel l = some (cells.map Prod.snd).length) ∧
      (x ∉ cells.map Prod.snd → list_search fuel l x = some 0) := by
  have hb := hinv.basePos
  refine ⟨displayLoop_linked hb cells l.head fuel hinv.linked hf, fun hmax => ?_,
    fun hx => searchLoop_absent hb cells l.head fuel hinv.linked hf hx⟩
  rw [List.length_map] at hmax
  have := countLoop_linked hb cells l.head fuel 0 hinv.linked hf (by omega)
  simp only [list_count_nodes, this, List.length_map, Nat.zero_add]

/-- The function `list_delete` on a list with the invariant `ListInv`. -/
theorem list_delete_cells {N fuel : Nat} {l : ListState} {cells : List (Nat × Nat)}
    (hinv : ListInv N l cells) (hf : cells.length ≤ fuel) (x : Nat) :
    ∃ l1, list_delete fuel l x = some l1 ∧
      list_display fuel l1 = some ((cells.map Prod.snd).erase x) ∧
      (((cells.map Prod.snd).erase x).length ≤ INT_MAX →
        list_count_nodes fuel l1 = some ((cells.map Prod.snd).erase x).length) ∧
      (x ∉ (cells.map Prod.snd).erase x → list_search fuel l1 x = some 0) ∧
      (x ∉ cells.map Prod.snd → l1 = l) ∧
      (x ∈ cells.map Prod.snd → ∃ pre h post, cells = pre ++ (h, x) :: post ∧
        x ∉ pre.map Prod.snd ∧
        Linked l1.base l1.mem.memoryPool l1.head (pre ++ post) ∧
        liveHandle l.mem h ∧
        mem_free { l.mem with memoryPool := unlinkedPool l.mem.memoryPool pre h } h =
          some l1.mem ∧
        ¬ liveHandle l1.mem h ∧
        ∀ c ∈ pre ++ post, liveHandle l1.mem c.1) := by
  by_cases hx : x ∈ cells.map Prod.snd
  · obtain ⟨pre, h, post, e1, e2⟩ := first_cell_split x cells hx
    subst e1
    obtain ⟨l1, g1, g2, g3, g4⟩ := list_delete_found hinv hf e2
    have her : ((pre ++ (h, x) :: post).map Prod.snd).erase x = (pre ++ post).map Prod.snd := by
      rw [List.map_append, List.map_cons, List.erase_append_right _ e2, List.erase_cons_head,
        List.map_append]
    have hf1 : (pre ++ post).length ≤ fuel := by
      simp only [List.length_append, List.length_cons] at hf ⊢
      omega
    obtain ⟨v1, v2, v3⟩ := list_views g2 hf1 x
    rw [her]
    exact ⟨l1, g1, v1, v2, v3, fun hn => absurd hx hn, fun _ =>
      ⟨pre, h, post, rfl, e2, g2.linked, ⟨_, hinv.live (h, x) (by simp), rfl, rfl⟩, g3, g4,
        fun c hc => ⟨_, g2.live c hc, rfl, rfl⟩⟩⟩
  · obtain ⟨v1, v2, v3⟩ := list_views hinv hf x
    rw [List.erase_of_not_mem hx]
    exact ⟨l, list_delete_absent hinv hf hx, v1, v2, v3, fun _ => rfl, fun h => absurd h hx⟩

/-- A pool of no bytes yields no storage for a node. -/
theorem no_node_in_empty_pool (arena : List UInt8) (m : MemState) (p : Nat) :
    mem_alloc (mem_init 0 arena) NODE_SIZE ≠ some (m, some p) := by
  intro h
  have : mem_alloc (mem_init 0 arena) NODE_SIZE = some (mem_init 0 arena, none) := rfl
  rw [this] at h
  cases h

/-- The block table after `list_insert` is the one its `mem_alloc` leaves. -/
theorem list_insert_table {fuel : Nat} {l l1 : ListState} {d : Nat}
    (h : list_insert fuel l d = some l1) :
    ∃ m r, mem_alloc l.mem NODE_SIZE = some (m, r) ∧ l1.mem.blockArray = m.blockArray ∧
      l1.mem.blockCapacity = m.blockCapacity ∧ l1.mem.blockCount = m.blockCount := by
  unfold list_insert at h
  split at h
  · cases h
  · rename_i m r hm
    refine ⟨m, r, hm, ?_⟩
    split at h
    · cases h; exact ⟨rfl, rfl, rfl⟩
    · split at h
      · cases h
      · split at h
        · cases h; exact ⟨rfl, rfl, rfl⟩
        · split at h
          · cases h
          · split at h
            · cases h
            · cases h; exact ⟨rfl, rfl, rfl⟩

/-- In a pool of 100 bytes three inserts all obtain storage. -/
theorem obtained_three (fuel base : Nat) (arena : List UInt8) (d1 d2 d3 : Nat) :
    allObtained fuel (list_init 100 base arena) [d1, d2, d3] := by
  refine ⟨⟨_, _, rfl⟩, fun l1 h1 => ?_⟩
  obtain ⟨m, r, hm, ha, hc, hn⟩ := list_insert_table h1
  have hm0 : mem_alloc (list_init 100 base arena).mem NODE_SIZE =
      some (⟨[⟨0, 16, false⟩, ⟨16, 84, true⟩], 2, 2, arena⟩, some 0) := rfl
  rw [hm0] at hm
  cases hm
  obtain ⟨⟨ba, cap, cnt, pl⟩, b, hd⟩ := l1
  simp only at ha hc hn
  subst ha hc hn
  refine ⟨⟨_, _, rfl⟩, fun l2 h2 => ?_⟩
  obtain ⟨m, r, hm, ha, hc, hn⟩ := list_insert_table h2
  have hm1 : mem_alloc (⟨[⟨0, 16, false⟩, ⟨16, 84, true⟩], 2, 2, pl⟩ : MemState) NODE_SIZE =
      some (⟨[⟨0, 16, false⟩, ⟨16, 16, false⟩, ⟨32, 68, true⟩, default], 4, 3, pl⟩,
        some 16) := rfl
  rw [hm1] at hm
  cases hm
  obtain ⟨⟨ba, cap, cnt, pl2⟩, b2, hd2⟩ := l2
  simp only at ha hc hn
  subst ha hc hn
  exact ⟨⟨_, _, rfl⟩, fun _ _ => trivial⟩

/-- C16. List deletion: for every list built from `list_init(N)` by `list_insert` calls that
all obtained storage, holding the data `ds` in order, and every value `x`,
`list_delete(head, x)` returns; the list then shows `ds` without its first `x` (and
`list_count_nodes` returns that many, up to `INT_MAX`), the nodes before and after the
removed one stay linked in their order and stay allocated, the removed node is the first one
holding `x`, and its block is released by one `mem_free`: the allocator state after the call
is that of `mem_free` of the node, made in the pool as the unlinking store
`prev->next = current->next` left it.  If `x` is absent the list state is unchanged.  In
particular after the inserts of 1, 2, 3 into a pool of 100 bytes and the deletion of 2 the
list shows `[1, 3]`, `list_search` for 2 returns `NULL` and `list_count_nodes` returns 2.
The pool of `N` bytes lies at the address `base` inside the address space, and the data are
`uint16_t` values. -/
theorem list_delete_first (N fuel base : Nat) (arena : List UInt8) (ds : List Nat) (x : Nat)
    (hN : N < SIZE_MOD) (hlen : arena.length = N) (hb : 0 < base)
    (hbe : base + N ≤ SIZE_MOD) (hds : ∀ d ∈ ds, d < 65536) (hf : ds.length ≤ fuel)
    (hob : allObtained fuel (list_init N base arena) ds) :
    (∃ l l1 cells, insertAll fuel (list_init N base arena) ds = some l ∧
      Linked l.base l.mem.memoryPool l.head cells ∧ cells.map Prod.snd = ds ∧
      list_display fuel l = some ds ∧
      list_delete fuel l x = some l1 ∧
      list_display fuel l1 = some (ds.erase x) ∧
      ((ds.erase x).length ≤ INT_MAX →
        list_count_nodes fuel l1 = some (ds.erase x).length) ∧
      (x ∉ ds.erase x → list_search fuel l1 x = some 0) ∧
      (x ∉ ds → l1 = l) ∧
      (x ∈ ds → ∃ pre h post, cells = pre ++ (h, x) :: post ∧
        x ∉ pre.map Prod.snd ∧
        Linked l1.base l1.mem.memoryPool l1.head (pre ++ post) ∧
        liveHandle l.mem h ∧
        mem_free { l.mem with memoryPool := unlinkedPool l.mem.memoryPool pre h } h =
          some l1.mem ∧
        ¬ liveHandle l1.mem h ∧
        ∀ c ∈ pre ++ post, liveHandle l1.mem c.1)) ∧
    (∀ arena0 : List UInt8, arena0.length = 100 → base + 100 ≤ SIZE_MOD →
      ∃ l l1, insertAll 3 (list_init 100 base arena0) [1, 2, 3] = some l ∧
        list_delete 3 l 2 = some l1 ∧ list_display 3 l1 = some [1, 3] ∧
        list_search 3 l1 2 = some 0 ∧ list_count_nodes 3 l1 = some 2) := by
  refine ⟨?_, ?_⟩
  · by_cases hN0 : N = 0
    · subst hN0
      cases ds with
      | nil =>
        refine ⟨list_init 0 base arena, list_init 0 base arena, [], rfl, rfl, rfl, ?_, rfl,
          ?_, ?_, ?_, fun _ => rfl, fun h => (by cases h)⟩
        · cases fuel <;> rfl
        · cases fuel <;> rfl
        · intro _; cases fuel <;> rfl
        · intro _; cases fuel <;> rfl
      | cons d ds =>
        obtain ⟨⟨m, p, h1⟩, _⟩ := hob
        exact absurd h1 (no_node_in_empty_pool arena m p)
    · have hinv0 := listInv_init base arena (Nat.pos_of_ne_zero hN0) hN hlen hb hbe
      obtain ⟨l, cells, e1, hinv, e2⟩ :=
        insertAll_spec ds (list_init N base arena) [] hinv0 (by simpa using hf) hds hob
      simp only [List.map_nil, List.nil_append] at e2
      have hlc : cells.length ≤ fuel := by
        have := congrArg List.length e2
        rw [List.length_map] at this
        omega
      obtain ⟨v1, _, _⟩ := list_views hinv hlc x
      obtain ⟨l1, g1, g2, g3, g4, g5, g6⟩ := list_delete_cells hinv hlc x
      rw [e2] at v1 g2 g3 g4 g5 g6
      exact ⟨l, l1, cells, e1, hinv.linked, e2, v1, g1, g2, g3, g4, g5, g6⟩
  · intro arena0 hlen0 hbe0
    have hinv0 := listInv_init base arena0 (by decide : 0 < 100) (by decide) hlen0 hb hbe0
    obtain ⟨l, cells, e1, hinv, e2⟩ :=
      insertAll_spec [1, 2, 3] (list_init 100 base arena0) [] hinv0 (by decide)
        (by decide) (obtained_three 3 base arena0 1 2 3)
    simp only [List.map_nil, List.nil_append] at e2
    have hlc : cells.length ≤ 3 := by
      have := congrArg List.length e2
      rw [List.length_map] at this
      simp only [List.length_cons, List.length_nil] at this
      omega
    obtain ⟨l1, g1, g2, g3, g4, _, _⟩ := list_delete_cells hinv hlc 2
    rw [e2] at g2 g3 g4
    exact ⟨l, l1, e1, g1, g2, g4 (by decide), g3 (by decide)⟩

theorem list_delete_first_witness :
    ∃ l l1, insertAll 3 (list_init 100 4096 (List.replicate 100 0)) [1, 2, 3] = some l ∧
      list_display 3 l = some [1, 2, 3] ∧
      list_delete 3 l 2 = some l1 ∧ list_display 3 l1 = some [1, 3] ∧
      list_search 3 l1 2 = some 0 ∧ list_count_nodes 3 l1 = some 2 := by
  obtain ⟨⟨l, l1, _, e1, _, _, e2, e3, e4, e5, e6, _⟩, _⟩ :=
    list_delete_first 100 3 4096 (List.replicate 100 0) [1, 2, 3] 2 (by decide)
      (List.length_replicate _ _) (by decide) (by decide) (by decide) (by decide)
      (obtained_three 3 4096 (List.replicate 100 0) 1 2 3)
  exact ⟨l, l1, e1, e2, e3, e4, e6 (by decide), e5 (by decide)⟩

end MemoryManager
